import Mathlib

/-!
# Colfer ECMAScript codec (`ecma.go`): a shallow embedding

`ecma.go` holds three text templates (`ecmaCode`, `ecmaMarshal`, `ecmaUnmarshal`)
from which the generator prints, for every struct of a schema, a `marshal` and an
`unmarshal` function, next to the shared helpers `encodeVarint`, `decodeInt64`,
`encodeUTF8` and `decodeUTF8`.  The definitions below follow the printed
ECMAScript statement by statement.

Conventions of the embedding.

* A `Uint8Array` is a `List Nat` of bytes.  `bytes[i] = v` is `List.set`
  (a store past the end is dropped, as for a typed array) and a load past the
  end is `none` (`undefined`).
* Numbers are exact where those of the script are: the integers of the
  fields stay below `2^53`.  The places where the script computes with
  fractions (`x /= 128` in `encodeVarint`, `s = ms / 1E3` for timestamps) are
  carried as a numerator over an explicit denominator, so `>`, `&` and the
  truncation done by a typed-array store see the same value as the script
  does.  The sums of `decodeInt64`, which pass `2^53`, are rounded as an
  addition of binary64 values is (`toBinary64`).
* A thrown `Error` is the `Except.error` of an enumeration of the messages in
  the templates, next to the errors the host throws itself.  Names are
  resolved as the host resolves them.  The code of a struct stands in the body
  of `class Pkg`, in the arrow functions `marshal` and `unmarshal`, where
  `this` is the package object `new Pkg()`.  In a closure written with
  `function` (`readHeader`, `readVarint`, the `forEach` callbacks of the
  float and struct lists) `this` is `undefined`, so `this.EOF` there is a
  `TypeError`; the `forEach` callbacks of the text and binary lists are arrow
  functions and reach `this.encodeUTF8` and `this.encodeVarint`.  The helpers are
  methods of the package object: the bare name `decodeInt64` is in no scope,
  a `ReferenceError`, and so is the name `size` unless a text or binary field
  declares it.  A struct `T` is a property of the package object and not of
  the class, so `new Pkg.T()` is a `TypeError`.
* A loop of the script that need not end (`encodeUTF8`) runs on fuel.
-/

deriving instance DecidableEq for Except

namespace Colfer

/-! ## Errors -/

/-- The ways `marshal` stops without returning bytes. -/
inductive MarshalError
  /-- Text `out of reach`: an unsigned value outside its range. -/
  | outOfReach
  /-- Text `exceeds 32-bit range`. -/
  | exceeds32
  /-- Text `exceeds Number.MAX_SAFE_INTEGER` or `Number.MIN_SAFE_INTEGER`. -/
  | exceedsSafe
  /-- Text `ns not in range (0, 1ms>`. -/
  | nsRange
  /-- Text `exceeds colferListMax`. -/
  | listMax
  /-- Text `serial size … exceeds … bytes`. -/
  | sizeMax
  /-- A `RangeError` of the host: `DataView.setUint32` and friends or
  `TypedArray.set` asked to write outside the buffer. -/
  | rangeError
  /-- A `TypeError` of the host: `new Pkg.T()`, where `Pkg.T` is `undefined`. -/
  | typeError
  /-- Not a throw: the call does not return (`encodeUTF8` loops). -/
  | nonTermination
  deriving DecidableEq, Repr

/-- The ways `unmarshal` stops without returning. -/
inductive UnmarshalError
  /-- Text `colfer: EOF`. -/
  | eof
  /-- Text `exceeds Number.MAX_SAFE_INTEGER`. -/
  | exceedsSafe
  /-- Text `length … exceeds … elements`. -/
  | listMax
  /-- Text `size … exceeds … bytes`. -/
  | sizeMax
  /-- Text `exceeds ECMA Date range`. -/
  | dateRange
  /-- Text `unknown header at byte …`. -/
  | unknownHeader
  /-- A `TypeError` of the host: `this.EOF` where `this` is `undefined`, or
  `new Pkg.T()` where `Pkg.T` is `undefined`. -/
  | typeError
  /-- A `ReferenceError` of the host: a name that no scope declares. -/
  | referenceError
  deriving DecidableEq, Repr

/-- The constant `Number.MAX_SAFE_INTEGER`, `2^53 - 1`. -/
def maxSafeInteger : Nat := 9007199254740991

/-! ## `encodeVarint` -/

/-- The loop of `encodeVarint(bytes, i, x)`.  The script divides the number `x`
by 128 without rounding, so after `k` rounds `x` is `num / den` with
`den = 128 ^ k`; `x > 127` is `num > 127 * den` and `x & 127` sees the integer
part `num / den`.  The first argument bounds the number of rounds; when it is
used up `x` is below 1 and the loop has ended (`encodeVarintLoop_fuel`). -/
def encodeVarintLoop : Nat → List Nat → Nat → Nat → Nat → List Nat × Nat
  | 0, bytes, i, num, den => (bytes.set i ((num / den) &&& 127), i + 1)
  | fuel + 1, bytes, i, num, den =>
    if num > 127 * den then
      encodeVarintLoop fuel (bytes.set i (((num / den) &&& 127) ||| 128)) (i + 1) num (den * 128)
    else
      (bytes.set i ((num / den) &&& 127), i + 1)

/-- Function `encodeVarint(bytes, i, x)` for a number `x ≥ 0`: the bytes after
the stores and the cursor it returns. -/
def encodeVarint (bytes : List Nat) (i x : Nat) : List Nat × Nat :=
  encodeVarintLoop x bytes i x 1

/-! ## `readVarint` -/

/-- The loop `while (pos != 8)` of `readVarint`, the first argument being
`8 - pos`.  A byte past the end is `undefined`: it adds nothing to `result`
and is not `< 128`.  The value `-1` is returned both when eight bytes were read
without a final one and, through `break`, when the result is above
`Number.MAX_SAFE_INTEGER`; in the second case the cursor has moved already.
The closure is written with `function`, so the `this.EOF` of its `throw` is a
`TypeError`. -/
def readVarintLoop (data : List Nat) (i : Nat) :
    Nat → Nat → Nat → Except UnmarshalError (Int × Nat)
  | 0, _, _ => .ok (-1, i)
  | n + 1, pos, result =>
    let c := data[i + pos]?
    let result := result + (c.getD 0 &&& 127) * 128 ^ pos
    let pos := pos + 1
    if c.any (· < 128) then
      if result > maxSafeInteger then .ok (-1, i + pos) else .ok ((result : Int), i + pos)
    else if pos = data.length then .error .typeError
    else readVarintLoop data i n pos result

/-- Closure `readVarint` of `unmarshal`, with the cursor `i` passed in and
returned next to the result. -/
def readVarint (data : List Nat) (i : Nat) : Except UnmarshalError (Int × Nat) :=
  readVarintLoop data i 8 0 0

/-! ## Typed arrays and `DataView` -/

/-- A store `bytes[i] = v` into a `Uint8Array` for an integer `v ≥ 0`: the
value is taken modulo 256 and a store past the end is dropped. -/
def store (bytes : List Nat) (i v : Nat) : List Nat :=
  bytes.set i (v % 256)

/-- Conversion `ToUint32` of an integer. -/
def toUint32 (x : Int) : Nat :=
  (x % 4294967296).toNat

/-- The four stores of `view.setUint32(i, x)` or `view.setFloat32(i, f)` once
the 32-bit pattern `x` is known, big-endian. -/
def put32 (buf : List Nat) (i x : Nat) : List Nat :=
  (((buf.set i (x / 16777216 % 256)).set (i + 1) (x / 65536 % 256)).set (i + 2)
    (x / 256 % 256)).set (i + 3) (x % 256)

/-- Method `view.setUint32(i, x)` on the view over the whole buffer: a
`RangeError` unless the four bytes fit. -/
def setUint32 (buf : List Nat) (i : Nat) (x : Int) : Except MarshalError (List Nat) :=
  if i + 4 > buf.length then .error .rangeError else .ok (put32 buf i (toUint32 x))

/-- Method `buf.set(src, i)`: a `RangeError` unless `src` fits at offset `i`. -/
def setBytes (buf : List Nat) (src : List Nat) (i : Nat) : Except MarshalError (List Nat) :=
  if i + src.length > buf.length then .error .rangeError
  else .ok (buf.take i ++ src.map (· % 256) ++ buf.drop (i + src.length))

/-- Method `view.getUint32(i)`, big-endian; the callers check the bounds. -/
def getUint32 (data : List Nat) (i : Nat) : Nat :=
  data.getD i 0 * 16777216 + data.getD (i + 1) 0 * 65536 + data.getD (i + 2) 0 * 256
    + data.getD (i + 3) 0

/-! ### Numbers of float fields

A Number held by a `float32` or `float64` field is given by its IEEE-754
binary64 pattern (sign, 11 exponent bits, 52 fraction bits). -/

/-- Whether the pattern is a NaN. -/
def isNaN (f : Nat) : Bool :=
  f % 9223372036854775808 > 0x7FF0000000000000

/-- Truth value of the Number in `if (f)`: neither zero (of either sign) nor NaN. -/
def truthy (f : Nat) : Bool :=
  f % 9223372036854775808 ≠ 0 && !isNaN f

/-- The test `f > 3.4028234663852886E38 || f < -3.4028234663852886E38`; the
constant is the binary64 pattern `0x47EFFFFFE0000000`. -/
def exceedsFloat32 (f : Nat) : Bool :=
  !isNaN f && f % 9223372036854775808 > 0x47EFFFFFE0000000

/-- Quotient `n / 2 ^ k` rounded to nearest, ties to even. -/
def roundShift (n k : Nat) : Nat :=
  if k = 0 then n
  else
    let q := n / 2 ^ k
    let r := n % 2 ^ k
    let half := 2 ^ (k - 1)
    if r > half ∨ (r = half ∧ q % 2 = 1) then q + 1 else q

/-- The binary32 pattern `view.setFloat32` stores for a binary64 pattern:
round to nearest, ties to even; a NaN is stored as `0x7FC00000`. -/
def toFloat32Bits (f : Nat) : Nat :=
  let s := f / 9223372036854775808 % 2
  let e := f / 4503599627370496 % 2048
  let m := f % 4503599627370496
  if e = 2047 then
    if m ≠ 0 then 0x7FC00000 else s * 2147483648 + 0x7F800000
  else if e ≥ 897 then
    let r := (e - 896) * 8388608 + roundShift m 29
    s * 2147483648 + (if r ≥ 0x7F800000 then 0x7F800000 else r)
  else if e = 0 then s * 2147483648
  else s * 2147483648 + roundShift (4503599627370496 + m) (926 - e)

/-- The binary64 pattern of the Number `view.getFloat32` returns for a binary32
pattern; every NaN is the one NaN of the language, `0x7FF8000000000000`. -/
def ofFloat32Bits (b : Nat) : Nat :=
  let s := b / 2147483648 % 2
  let e := b / 8388608 % 256
  let m := b % 8388608
  if e = 255 then
    if m ≠ 0 then 0x7FF8000000000000 else s * 9223372036854775808 + 0x7FF0000000000000
  else if e = 0 then
    if m = 0 then s * 9223372036854775808
    else
      let k := Nat.log2 m
      s * 9223372036854775808 + (k + 874) * 4503599627370496 + (m - 2 ^ k) * 2 ^ (52 - k)
  else s * 9223372036854775808 + (e + 896) * 4503599627370496 + m * 536870912

/-- The eight stores of `view.setFloat64(i, f)`, big-endian; a NaN is stored
as `0x7FF8000000000000`. -/
def put64 (buf : List Nat) (i f : Nat) : List Nat :=
  let f := if isNaN f then 0x7FF8000000000000 else f
  put32 (put32 buf i (f / 4294967296 % 4294967296)) (i + 4) (f % 4294967296)

/-- Method `view.setFloat32(i, f)`. -/
def setFloat32 (buf : List Nat) (i f : Nat) : Except MarshalError (List Nat) :=
  if i + 4 > buf.length then .error .rangeError else .ok (put32 buf i (toFloat32Bits f))

/-- Method `view.setFloat64(i, f)`. -/
def setFloat64 (buf : List Nat) (i f : Nat) : Except MarshalError (List Nat) :=
  if i + 8 > buf.length then .error .rangeError else .ok (put64 buf i f)

/-- Method `view.getFloat32(i)`; the callers check the bounds. -/
def getFloat32 (data : List Nat) (i : Nat) : Nat :=
  ofFloat32Bits (getUint32 data i)

/-- Method `view.getFloat64(i)`; the callers check the bounds. -/
def getFloat64 (data : List Nat) (i : Nat) : Nat :=
  let f := getUint32 data i * 4294967296 + getUint32 data (i + 4)
  if isNaN f then 0x7FF8000000000000 else f

/-! ## `decodeInt64` -/

/-- The number of halvings that bring `n` below `2^53`; the first argument
bounds them. -/
def excessBits : Nat → Nat → Nat
  | 0, _ => 0
  | fuel + 1, n => if n < 9007199254740992 then 0 else excessBits fuel (n / 2) + 1

/-- The Number an addition returns whose exact sum is the integer `n ≥ 0`: the
nearest binary64 value, ties to even.  An integer below `2^53` is a Number. -/
def toBinary64 (n : Nat) : Nat :=
  let k := excessBits n n
  roundShift n k * 2 ^ k

/-- Function `decodeInt64(data, i)`.  Both loops run `j` from `i + 7` down to
`i`; round `k` of the fold is `j = i + 7 - k`, and the state is `(v, m)`, with
`carry` in the two's-complement branch.  Every `v += …` is an addition of
Numbers (the products with the power `m` of 256 are exact).  A byte past the
end is `undefined`: `undefined ^ 255` is 255, but `undefined * m` is NaN, for
which the result is `none`. -/
def decodeInt64 (data : List Nat) (i : Nat) : Option Int :=
  if data.getD i 0 &&& 128 ≠ 0 then
    let r := (List.range 8).foldl (fun (st : Nat × Nat × Nat) k =>
      let b := (data.getD (i + 7 - k) 0 ^^^ 255) + st.2.2
      (toBinary64 (st.1 + (b &&& 255) * st.2.1), st.2.1 * 256, b >>> 8)) (0, 1, 1)
    some (Int.neg (r.1 : Int))
  else if i + 8 > data.length then none
  else
    let r := (List.range 8).foldl (fun (st : Nat × Nat) k =>
      (toBinary64 (st.1 + data.getD (i + 7 - k) 0 * st.2), st.2 * 256)) (0, 1)
    some (r.1 : Int)

/-! ## `encodeUTF8` and `decodeUTF8`

A string is the list of its UTF-16 code units. -/

/-- One round of the `for` loop of `encodeUTF8(s)`: the body for the code-unit
index `ci`, byte cursor `i` and output array `bytes`, followed by the `ci++`
of the loop head; the result is the three variables afterwards.  A `charCodeAt`
past the end is NaN (`none`): every comparison with it is false and its bit
operations see 0. -/
def encodeUTF8Body (s : List Nat) (ci i : Nat) (bytes : List Nat) : Nat × Nat × List Nat :=
  match s[ci]? with
  | none =>
    (ci + 1, i + 3,
      store (store (store bytes i (0 >>> 12 ||| 224)) (i + 1) (0 >>> 6 &&& 63 ||| 128))
        (i + 2) (0 &&& 63 ||| 128))
  | some c =>
    if c < 128 then (ci + 1, i + 1, store bytes i c)
    else if c < 2048 then
      (ci + 1, i + 2, store (store bytes i (c >>> 6 ||| 192)) (i + 1) (c &&& 63 ||| 128))
    else if c > 0xd7ff ∧ c < 0xdc00 then
      if ci + 1 ≥ s.length then
        -- `++ci >= s.length`, then `continue` runs `ci++` once more
        (ci + 1 + 1, i + 1, store bytes i 63)
      else
        let c2 := s[ci + 1]?
        if c2.any (fun c2 => c2 < 0xdc00 ∨ c2 > 0xdfff) then
          -- `++ci`, `--ci`, then `continue` runs `ci++`
          (ci + 1 - 1 + 1, i + 1, store bytes i 63)
        else
          let c := 0x10000 + ((c &&& 0x03ff) <<< 10) + (c2.getD 0 &&& 0x03ff)
          (ci + 1 + 1, i + 4,
            store (store (store (store bytes i (c >>> 18 ||| 240)) (i + 1)
              (c >>> 12 &&& 63 ||| 128)) (i + 2) (c >>> 6 &&& 63 ||| 128)) (i + 3)
              (c &&& 63 ||| 128))
    else
      (ci + 1, i + 3,
        store (store (store bytes i (c >>> 12 ||| 224)) (i + 1) (c >>> 6 &&& 63 ||| 128))
          (i + 2) (c &&& 63 ||| 128))

/-- The `for` loop of `encodeUTF8(s)` from the test `ci != s.length` on.  The
loop need not end, so it runs on fuel and is `none` when the fuel is used up. -/
def encodeUTF8Loop (s : List Nat) : Nat → Nat → Nat → List Nat → Option (List Nat)
  | 0, _, _, _ => none
  | fuel + 1, ci, i, bytes =>
    if ci = s.length then some (bytes.take i)
    else
      let r := encodeUTF8Body s ci i bytes
      encodeUTF8Loop s fuel r.1 r.2.1 r.2.2

/-- Function `encodeUTF8(s)` on fuel: `none` when the loop is still running
after `fuel` tests of `ci != s.length`. -/
def encodeUTF8Fuel (fuel : Nat) (s : List Nat) : Option (List Nat) :=
  encodeUTF8Loop s fuel 0 0 (List.replicate (s.length * 4) 0)

/-- Function `encodeUTF8(s)`: the bytes returned, or `none` when the call does
not return.  Every round moves `ci` forward, so a loop that has not ended
after `s.length + 1` tests has stepped over `s.length` and never ends
(`encodeUTF8_eq_none_iff`). -/
def encodeUTF8 (s : List Nat) : Option (List Nat) :=
  encodeUTF8Fuel (s.length + 1) s

/-- The `while (i < bytes.length)` loop of `decodeUTF8(bytes)`.  Every round
moves `i` forward, so `bytes.length` rounds of fuel reach the end. -/
def decodeUTF8Loop (bytes : List Nat) : Nat → Nat → List Nat → List Nat
  | 0, _, s => s
  | fuel + 1, i, s =>
    if i < bytes.length then
      let c := bytes.getD i 0
      let i := i + 1
      let ci : Nat × Nat :=
        if c > 127 then
          if c > 191 ∧ c < 224 then
            if i ≥ bytes.length then (63, i)
            else (((c &&& 31) <<< 6) ||| (bytes.getD i 0 &&& 63), i + 1)
          else if c > 223 ∧ c < 240 then
            if i + 1 ≥ bytes.length then (63, i)
            else (((c &&& 15) <<< 12) ||| ((bytes.getD i 0 &&& 63) <<< 6)
              ||| (bytes.getD (i + 1) 0 &&& 63), i + 2)
          else if c > 239 ∧ c < 248 then
            if i + 2 ≥ bytes.length then (63, i)
            else (((c &&& 7) <<< 18) ||| ((bytes.getD i 0 &&& 63) <<< 12)
              ||| ((bytes.getD (i + 1) 0 &&& 63) <<< 6) ||| (bytes.getD (i + 2) 0 &&& 63), i + 3)
          else (63, i)
        else (c, i)
      let c := ci.1
      let s :=
        if c ≤ 0xffff then s ++ [c]
        else if c > 0x10ffff then s ++ [63]
        else s ++ [(c - 0x10000) >>> 10 ||| 0xd800, (c - 0x10000) &&& 0x3FF ||| 0xdc00]
      decodeUTF8Loop bytes fuel ci.2 s
    else s

/-- Function `decodeUTF8(bytes)`. -/
def decodeUTF8 (bytes : List Nat) : List Nat :=
  decodeUTF8Loop bytes bytes.length 0 []

/-! ## Schema and records -/

/-- An object of another struct of the schema, as far as this struct's code
uses it: the outcome of its own `marshal()` call. -/
structure StructObj where
  marshal : Except MarshalError (List Nat)
  deriving DecidableEq, Repr

/-- The value of one property of `init` (for a timestamp, of the pair
`name`, `name_ns`). -/
inductive Value
  /-- Property `undefined` or `null`. -/
  | absent
  | bool (b : Bool)
  /-- An integer Number, for the fields `uint8` … `int64`. -/
  | number (x : Int)
  /-- A Number of a `float32` or `float64` field, by binary64 pattern. -/
  | float (f : Nat)
  /-- A `Date` by its `getTime()` in milliseconds, if present, and the Number
  `name_ns` (0 when absent). -/
  | timestamp (date : Option Int) (ns : Int)
  /-- A string, by UTF-16 code units. -/
  | text (s : List Nat)
  /-- A `Uint8Array`. -/
  | binary (b : List Nat)
  | struct (o : StructObj)
  | floats (a : List Nat)
  /-- An array of strings; `none` is a `null` entry. -/
  | texts (a : List (Option (List Nat)))
  | binaries (a : List (Option (List Nat)))
  | structs (a : List (Option StructObj))
  deriving DecidableEq, Repr

/-- The object `init`: properties by field index (a schema uses an index once),
the first entry for an index being the current one. -/
abbrev Record := List (Nat × Value)

/-- Property read `init.name`. -/
def Record.get (init : Record) (k : Nat) : Value :=
  match init.lookup k with
  | some v => v
  | none => .absent

/-- Property write `init.name = v`. -/
def Record.put (init : Record) (k : Nat) (v : Value) : Record :=
  (k, v) :: init

/-- What a call of a generated `unmarshal` hands back. -/
inductive Returned
  /-- A Number. -/
  | bytesRead (n : Nat)
  /-- The object `init`. -/
  | record (init : Record)
  deriving DecidableEq, Repr

/-- The `.Type` of a field.  Of the struct a field refers to (`.TypeRef`) the
code uses the name only, in `new Pkg.T()`. -/
inductive FieldType
  | bool | uint8 | uint16 | uint32 | uint64 | int32 | int64
  | float32 | float64 | timestamp | text | binary
  | struct
  deriving DecidableEq, Repr

/-- A field of a struct: `.Index`, `.Type` and `.TypeList`. -/
structure Field where
  index : Nat
  type : FieldType
  typeList : Bool
  deriving DecidableEq, Repr

/-! ## `marshal` -/

/-- The `forEach` of a `float32` list. -/
def marshalFloat32s : List Nat → List Nat → Nat → Except MarshalError (List Nat × Nat)
  | [], buf, i => .ok (buf, i)
  | f :: a, buf, i =>
    if exceedsFloat32 f then .error .exceeds32
    else do
      let buf ← setFloat32 buf i f
      marshalFloat32s a buf (i + 4)

/-- The `forEach` of a `float64` list. -/
def marshalFloat64s : List Nat → List Nat → Nat → Except MarshalError (List Nat × Nat)
  | [], buf, i => .ok (buf, i)
  | f :: a, buf, i => do
    let buf ← setFloat64 buf i f
    marshalFloat64s a buf (i + 8)

/-- The statements that write one string: `encodeUTF8`, the length, the bytes. -/
def marshalText (s : List Nat) (buf : List Nat) (i : Nat) :
    Except MarshalError (List Nat × Nat) :=
  match encodeUTF8 s with
  | none => .error .nonTermination
  | some utf8 => do
    let r := encodeVarint buf i utf8.length
    let buf ← setBytes r.1 utf8 r.2
    .ok (buf, r.2 + utf8.length)

/-- The `forEach` of a text list; a `null` entry becomes `""`. -/
def marshalTexts : List (Option (List Nat)) → List Nat → Nat →
    Except MarshalError (List Nat × Nat)
  | [], buf, i => .ok (buf, i)
  | s :: a, buf, i => do
    let (buf, i) ← marshalText (s.getD []) buf i
    marshalTexts a buf i

/-- The statements that write one byte array: the length, the bytes. -/
def marshalBinary (b : List Nat) (buf : List Nat) (i : Nat) :
    Except MarshalError (List Nat × Nat) := do
  let r := encodeVarint buf i b.length
  let buf ← setBytes r.1 b r.2
  .ok (buf, r.2 + b.length)

/-- The `forEach` of a binary list; a `null` entry becomes `""`. -/
def marshalBinaries : List (Option (List Nat)) → List Nat → Nat →
    Except MarshalError (List Nat × Nat)
  | [], buf, i => .ok (buf, i)
  | b :: a, buf, i => do
    let (buf, i) ← marshalBinary (b.getD []) buf i
    marshalBinaries a buf i

/-- The statements that write one nested object: `marshal()`, then the bytes. -/
def marshalStruct (o : StructObj) (buf : List Nat) (i : Nat) :
    Except MarshalError (List Nat × Nat) := do
  let b ← o.marshal
  let buf ← setBytes buf b i
  .ok (buf, i + b.length)

/-- The `forEach` of a struct list.  At a `null` entry the callback runs
`new Pkg.T()`, a `TypeError`. -/
def marshalStructs : List (Option StructObj) → List Nat → Nat →
    Except MarshalError (List Nat × Nat)
  | [], buf, i => .ok (buf, i)
  | none :: _, _, _ => .error .typeError
  | some v :: a, buf, i => do
    let (buf, i) ← marshalStruct v buf i
    marshalStructs a buf i

/-- The loop `for (var j = i + 7; j >= i; j--)` that negates the eight bytes
at `i` in place; round `k` of the fold is `j = i + 7 - k` and the state is
`(buf, carry)`. -/
def negate64 (buf : List Nat) (i : Nat) : List Nat :=
  ((List.range 8).foldl (fun (st : List Nat × Nat) k =>
    let b := (st.1.getD (i + 7 - k) 0 ^^^ 255) + st.2
    (store st.1 (i + 7 - k) (b &&& 255), b >>> 8)) (buf, 1)).1

/-- The timestamp branch of `marshal` after its guard.  The Number
`s = ms / 1E3` is carried as `s1000 = 1000 * s`; the division by 1000 has a
remainder whenever it is inexact, so the truncations of `setUint32` are those
of the exact quotient. -/
def marshalTimestamp (index : Nat) (ms ns : Int) (buf : List Nat) (i : Nat) :
    Except MarshalError (List Nat × Nat) :=
  if ns < 0 ∨ ns ≥ 1000000 then .error .nsRange
  else
    let msf := ms.tmod 1000
    let borrow : Bool := ms < 0 ∧ msf ≠ 0
    let s1000 := if borrow then ms - 1000 else ms
    let msf := if borrow then 1000 + msf else msf
    let ns := ns + msf * 1000000
    if s1000 > 0xffffffff * 1000 ∨ s1000 < 0 then do
      let buf := store buf i (index ||| 128)
      let i := i + 1
      let buf ←
        if s1000 > 0 then do
          let buf ← setUint32 buf i (s1000.tdiv (1000 * 0x100000000))
          setUint32 buf (i + 4) (s1000.tdiv 1000)
        else do
          let s1000 := -s1000
          let buf ← setUint32 buf i (s1000.tdiv (1000 * 0x100000000))
          let buf ← setUint32 buf (i + 4) (s1000.tdiv 1000)
          .ok (negate64 buf i)
      let buf ← setUint32 buf (i + 8) ns
      .ok (buf, i + 12)
    else do
      let buf := store buf i index
      let i := i + 1
      let buf ← setUint32 buf i (s1000.tdiv 1000)
      let i := i + 4
      let buf ← setUint32 buf i ns
      .ok (buf, i + 4)

/-- The statements `marshal` holds for one field, from the buffer and cursor
before them to those after.  The template chooses the branch by `.Type`, and
by `.TypeList` for the floats, text, binary and struct types.  A property of
the wrong shape for its field is passed over like one that is absent. -/
def marshalField (listMax : Nat) (fd : Field) (v : Value) (buf : List Nat) (i : Nat) :
    Except MarshalError (List Nat × Nat) :=
  match fd.type, fd.typeList, v with
  | .bool, _, .bool true => .ok (store buf i fd.index, i + 1)
  | .uint8, _, .number x =>
    if x ≠ 0 then
      if x > 255 ∨ x < 0 then .error .outOfReach
      else .ok (store (store buf i fd.index) (i + 1) x.toNat, i + 2)
    else .ok (buf, i)
  | .uint16, _, .number x =>
    if x ≠ 0 then
      if x > 65535 ∨ x < 0 then .error .outOfReach
      else if x < 256 then
        .ok (store (store buf i (fd.index ||| 128)) (i + 1) x.toNat, i + 2)
      else
        .ok (store (store (store buf i fd.index) (i + 1) (x.toNat >>> 0)) (i + 2)
          (x.toNat &&& 255), i + 3)
    else .ok (buf, i)
  | .uint32, _, .number x =>
    if x ≠ 0 then
      if x > 4294967295 ∨ x < 0 then .error .outOfReach
      else if x < 0x200000 then
        .ok (encodeVarint (store buf i fd.index) (i + 1) x.toNat)
      else do
        let buf ← setUint32 (store buf i (fd.index ||| 128)) (i + 1) x
        .ok (buf, i + 1 + 4)
    else .ok (buf, i)
  | .uint64, _, .number x =>
    if x ≠ 0 then
      if x < 0 then .error .outOfReach
      else if x > maxSafeInteger then .error .exceedsSafe
      else if x < 0x2000000000000 then
        .ok (encodeVarint (store buf i fd.index) (i + 1) x.toNat)
      else do
        let buf ← setUint32 (store buf i (fd.index ||| 128)) (i + 1) (x.tdiv 0x100000000)
        let buf ← setUint32 buf (i + 1 + 4) (x.tmod 0x100000000)
        .ok (buf, i + 1 + 4 + 4)
    else .ok (buf, i)
  | .int32, _, .number x =>
    if x ≠ 0 then
      if x < 0 then
        if x < -2147483648 then .error .exceeds32
        else .ok (encodeVarint (store buf i (fd.index ||| 128)) (i + 1) (-x).toNat)
      else
        if x > 2147483647 then .error .exceeds32
        else .ok (encodeVarint (store buf i fd.index) (i + 1) x.toNat)
    else .ok (buf, i)
  | .int64, _, .number x =>
    if x ≠ 0 then
      if x < 0 then
        if x < -(maxSafeInteger : Int) then .error .exceedsSafe
        else .ok (encodeVarint (store buf i (fd.index ||| 128)) (i + 1) (-x).toNat)
      else
        if x > maxSafeInteger then .error .exceedsSafe
        else .ok (encodeVarint (store buf i fd.index) (i + 1) x.toNat)
    else .ok (buf, i)
  | .float32, true, .floats a =>
    if a.length ≠ 0 then
      if a.length > listMax then .error .listMax
      else
        let r := encodeVarint (store buf i fd.index) (i + 1) a.length
        marshalFloat32s a r.1 r.2
    else .ok (buf, i)
  | .float32, false, .float f =>
    if truthy f then
      if exceedsFloat32 f then .error .exceeds32
      else do
        let buf ← setFloat32 (store buf i fd.index) (i + 1) f
        .ok (buf, i + 1 + 4)
    else if isNaN f then do
      let buf ← setBytes buf [fd.index, 0x7f, 0xc0, 0, 0] i
      .ok (buf, i + 5)
    else .ok (buf, i)
  | .float64, true, .floats a =>
    if a.length ≠ 0 then
      if a.length > listMax then .error .listMax
      else
        let r := encodeVarint (store buf i fd.index) (i + 1) a.length
        marshalFloat64s a r.1 r.2
    else .ok (buf, i)
  | .float64, false, .float f =>
    if truthy f then do
      let buf ← setFloat64 (store buf i fd.index) (i + 1) f
      .ok (buf, i + 1 + 8)
    else if isNaN f then do
      let buf ← setBytes buf [fd.index, 0x7f, 0xf8, 0, 0, 0, 0, 0, 0] i
      .ok (buf, i + 9)
    else .ok (buf, i)
  | .timestamp, _, .timestamp date ns =>
    if (date.any (· ≠ 0)) ∨ ns ≠ 0 then
      marshalTimestamp fd.index (date.getD 0) ns buf i
    else .ok (buf, i)
  | .text, true, .texts a =>
    if a.length ≠ 0 then
      if a.length > listMax then .error .listMax
      else
        let r := encodeVarint (store buf i fd.index) (i + 1) a.length
        marshalTexts a r.1 r.2
    else .ok (buf, i)
  | .text, false, .text s =>
    if s.length ≠ 0 then marshalText s (store buf i fd.index) (i + 1)
    else .ok (buf, i)
  | .binary, true, .binaries a =>
    if a.length ≠ 0 then
      if a.length > listMax then .error .listMax
      else
        let r := encodeVarint (store buf i fd.index) (i + 1) a.length
        marshalBinaries a r.1 r.2
    else .ok (buf, i)
  | .binary, false, .binary b =>
    if b.length ≠ 0 then marshalBinary b (store buf i fd.index) (i + 1)
    else .ok (buf, i)
  | .struct, true, .structs a =>
    if a.length ≠ 0 then
      if a.length > listMax then .error .listMax
      else
        let r := encodeVarint (store buf i fd.index) (i + 1) a.length
        marshalStructs a r.1 r.2
    else .ok (buf, i)
  | .struct, false, .struct o => marshalStruct o (store buf i fd.index) (i + 1)
  | _, _, _ => .ok (buf, i)

/-- The statements of `marshal` between `var view` and the sentinel: the
fields in schema order. -/
def marshalFields (listMax : Nat) (init : Record) :
    List Field → List Nat → Nat → Except MarshalError (List Nat × Nat)
  | [], buf, i => .ok (buf, i)
  | fd :: fields, buf, i => do
    let (buf, i) ← marshalField listMax fd (init.get fd.index) buf i
    marshalFields listMax init fields buf i

/-- The first statement of `marshal`: the array written to is the argument, or
a new one of `colferSizeMax` bytes when the argument is left out (`none`) or
has no bytes. -/
def marshalBuffer (colferSizeMax : Nat) (buf : Option (List Nat)) : List Nat :=
  match buf with
  | none => List.replicate colferSizeMax 0
  | some b => if b.length = 0 then List.replicate colferSizeMax 0 else b

/-- Function `marshal(buf)` of the struct with the given fields, on the object
`init`, for a package with `colferSizeMax` and `colferListMax`; `buf` is `none`
when the argument is left out.  The view is taken over the whole of `buf`. -/
def marshal (colferSizeMax colferListMax : Nat) (fields : List Field) (init : Record)
    (buf : Option (List Nat)) : Except MarshalError (List Nat) :=
  match marshalFields colferListMax init fields (marshalBuffer colferSizeMax buf) 0 with
  | .error e => .error e
  | .ok (buf, i) =>
    let buf := store buf i 127
    let i := i + 1
    if i ≥ colferSizeMax then .error .sizeMax
    else .ok (buf.take i)

/-- The value of `i` when `marshal` reaches its size test: the length of the
encoding, sentinel included. -/
def marshalSize (colferSizeMax colferListMax : Nat) (fields : List Field) (init : Record)
    (buf : Option (List Nat)) : Except MarshalError Nat :=
  match marshalFields colferListMax init fields (marshalBuffer colferSizeMax buf) 0 with
  | .error e => .error e
  | .ok (_, i) => .ok (i + 1)

/-! ## `unmarshal` -/

/-- The variables `header`, `i` and the object `init` between two fields of
`unmarshal`; `header` is `none` when it is `undefined`. -/
inductive DecState
  | run (header : Option Nat) (i : Nat) (init : Record)
  deriving DecidableEq, Repr

/-- Closure `readHeader` of `unmarshal`.  It is written with `function`, so
the `this.EOF` of its `throw` is a `TypeError`. -/
def readHeader (data : List Nat) (i : Nat) (init : Record) : Except UnmarshalError DecState :=
  if i ≥ data.length then .error .typeError else .ok (.run data[i]? (i + 1) init)

/-- The loop that reads the elements of a `float32` list. -/
def unmarshalFloat32s (data : List Nat) : Nat → Nat → List Nat
  | 0, _ => []
  | l + 1, i => getFloat32 data i :: unmarshalFloat32s data l (i + 4)

/-- The loop that reads the elements of a `float64` list. -/
def unmarshalFloat64s (data : List Nat) : Nat → Nat → List Nat
  | 0, _ => []
  | l + 1, i => getFloat64 data i :: unmarshalFloat64s data l (i + 8)

/-- The statements that read one string or byte array: the size, the bounds
checks, and the bytes `data.subarray(start, i)`, returned with the cursor. -/
def unmarshalBytes (colferSizeMax : Nat) (data : List Nat) (i : Nat) :
    Except UnmarshalError (List Nat × Nat) := do
  let (size, i) ← readVarint data i
  if size < 0 ∨ size > colferSizeMax then .error .sizeMax
  else
    let start := i
    let i := i + size.toNat
    if i > data.length then .error .eof
    else .ok ((data.drop start).take (i - start), i)

/-- The loop that reads the elements of a text or binary list; `decode` is
`decodeUTF8` for text and the copy `slice` for binary. -/
def unmarshalBytesList (colferSizeMax : Nat) (data : List Nat) (decode : List Nat → List Nat) :
    Nat → Nat → Except UnmarshalError (List (Option (List Nat)) × Nat)
  | 0, i => .ok ([], i)
  | l + 1, i => do
    let (b, i) ← unmarshalBytes colferSizeMax data i
    let (a, i) ← unmarshalBytesList colferSizeMax data decode l i
    .ok (some (decode b) :: a, i)

/-- The statements `unmarshal` holds for one field, from the variables before
them to those after.  The flag-1 branch of a timestamp calls the bare name
`decodeInt64`, a `ReferenceError`; the branches of a struct field run
`new Pkg.T()`, a `TypeError`, before anything is read (in a struct list, for
the first element). -/
def unmarshalField (colferSizeMax colferListMax : Nat) (data : List Nat) (fd : Field) :
    DecState → Except UnmarshalError DecState
  | .run header i init =>
    match fd.type, fd.typeList with
    | .bool, _ =>
      if header = some fd.index then readHeader data i (init.put fd.index (.bool true))
      else .ok (.run header i init)
    | .uint8, _ =>
      if header = some fd.index then
        if i + 1 ≥ data.length then .error .eof
        else .ok (.run data[i + 1]? (i + 2) (init.put fd.index (.number (data.getD i 0))))
      else .ok (.run header i init)
    | .uint16, _ =>
      if header = some fd.index then
        if i + 2 ≥ data.length then .error .eof
        else .ok (.run data[i + 2]? (i + 3) (init.put fd.index
          (.number (((data.getD i 0 <<< 8) ||| data.getD (i + 1) 0 : Nat)))))
      else if header = some (fd.index ||| 128) then
        if i + 1 ≥ data.length then .error .eof
        else .ok (.run data[i + 1]? (i + 2) (init.put fd.index (.number (data.getD i 0))))
      else .ok (.run header i init)
    | .uint32, _ =>
      if header = some fd.index then do
        let (x, i) ← readVarint data i
        if x < 0 then .error .exceedsSafe
        else readHeader data i (init.put fd.index (.number x))
      else if header = some (fd.index ||| 128) then
        if i + 4 > data.length then .error .eof
        else readHeader data (i + 4) (init.put fd.index (.number (getUint32 data i)))
      else .ok (.run header i init)
    | .uint64, _ =>
      if header = some fd.index then do
        let (x, i) ← readVarint data i
        if x < 0 then .error .exceedsSafe
        else readHeader data i (init.put fd.index (.number x))
      else if header = some (fd.index ||| 128) then
        if i + 8 > data.length then .error .eof
        else
          let x := getUint32 data i * 0x100000000 + getUint32 data (i + 4)
          if x > maxSafeInteger then .error .exceedsSafe
          else readHeader data (i + 8) (init.put fd.index (.number x))
      else .ok (.run header i init)
    | .int32, _ | .int64, _ =>
      if header = some fd.index then do
        let (x, i) ← readVarint data i
        if x < 0 then .error .exceedsSafe
        else readHeader data i (init.put fd.index (.number x))
      else if header = some (fd.index ||| 128) then do
        let (x, i) ← readVarint data i
        if x < 0 then .error .exceedsSafe
        else readHeader data i (init.put fd.index (.number (-1 * x)))
      else .ok (.run header i init)
    | .float32, true =>
      if header = some fd.index then do
        let (l, i) ← readVarint data i
        if l < 0 then .error .exceedsSafe
        else if l > colferListMax then .error .listMax
        else if i + l.toNat * 4 > data.length then .error .eof
        else
          let a := unmarshalFloat32s data l.toNat i
          readHeader data (i + l.toNat * 4) (init.put fd.index (.floats a))
      else .ok (.run header i init)
    | .float32, false =>
      if header = some fd.index then
        if i + 4 > data.length then .error .eof
        else readHeader data (i + 4) (init.put fd.index (.float (getFloat32 data i)))
      else .ok (.run header i init)
    | .float64, true =>
      if header = some fd.index then do
        let (l, i) ← readVarint data i
        if l < 0 ∨ l > colferListMax then .error .listMax
        else if i + l.toNat * 8 > data.length then .error .eof
        else
          let a := unmarshalFloat64s data l.toNat i
          readHeader data (i + l.toNat * 8) (init.put fd.index (.floats a))
      else .ok (.run header i init)
    | .float64, false =>
      if header = some fd.index then
        if i + 8 > data.length then .error .eof
        else readHeader data (i + 8) (init.put fd.index (.float (getFloat64 data i)))
      else .ok (.run header i init)
    | .timestamp, _ =>
      if header = some fd.index then
        if i + 8 > data.length then .error .eof
        else
          let ms : Int := (getUint32 data i : Int) * 1000
          let ns : Int := getUint32 data (i + 4)
          let ms := ms + ns / 1000000
          readHeader data (i + 8) (init.put fd.index (.timestamp (some ms) (ns % 1000000)))
      else if header = some (fd.index ||| 128) then
        if i + 12 > data.length then .error .eof
        else .error .referenceError
      else .ok (.run header i init)
    | .text, true =>
      if header = some fd.index then do
        let (l, i) ← readVarint data i
        if l < 0 ∨ l > colferListMax then .error .listMax
        else
          let (a, i) ← unmarshalBytesList colferSizeMax data decodeUTF8 l.toNat i
          readHeader data i (init.put fd.index (.texts a))
      else .ok (.run header i init)
    | .text, false =>
      if header = some fd.index then do
        let (b, i) ← unmarshalBytes colferSizeMax data i
        readHeader data i (init.put fd.index (.text (decodeUTF8 b)))
      else .ok (.run header i init)
    | .binary, true =>
      if header = some fd.index then do
        let (l, i) ← readVarint data i
        if l < 0 ∨ l > colferListMax then .error .listMax
        else
          let (a, i) ← unmarshalBytesList colferSizeMax data id l.toNat i
          readHeader data i (init.put fd.index (.binaries a))
      else .ok (.run header i init)
    | .binary, false =>
      if header = some fd.index then do
        let (b, i) ← unmarshalBytes colferSizeMax data i
        readHeader data i (init.put fd.index (.binary b))
      else .ok (.run header i init)
    | .struct, true =>
      if header = some fd.index then do
        let (l, i) ← readVarint data i
        if l < 0 ∨ l > colferListMax then .error .listMax
        else if l = 0 then readHeader data i init
        else .error .typeError
      else .ok (.run header i init)
    | .struct, false =>
      if header = some fd.index then .error .typeError
      else .ok (.run header i init)

/-- The statements of `unmarshal` between `readVarint` and the sentinel test:
the fields in schema order, each tried once. -/
def unmarshalFields (colferSizeMax colferListMax : Nat) (data : List Nat) :
    List Field → DecState → Except UnmarshalError DecState
  | [], st => .ok st
  | fd :: fields, st => do
    let st ← unmarshalField colferSizeMax colferListMax data fd st
    unmarshalFields colferSizeMax colferListMax data fields st

/-- The variables of `unmarshal(data)` when it reaches the test
`header != 127`, or the error thrown before. -/
def unmarshalRun (colferSizeMax colferListMax : Nat) (fields : List Field) (init : Record)
    (data : List Nat) : Except UnmarshalError DecState :=
  if data.length = 0 then .error .eof
  else unmarshalFields colferSizeMax colferListMax data fields (.run data[0]? 1 init)

/-- Whether the statements of a field of the type declare `var size`: those
of a text and of a binary field do, and `var` makes the name one of the whole
function `unmarshal`. -/
def FieldType.declaresSize : FieldType → Bool
  | .text | .binary => true
  | _ => false

/-- Function `unmarshal(data)` of the struct with the given fields, on the
object `init`: what it returns, or the error it throws.  The message of the
last `throw` reads the name `size`, a `ReferenceError` when no field declares
it. -/
def unmarshal (colferSizeMax colferListMax : Nat) (fields : List Field) (init : Record)
    (data : List Nat) : Except UnmarshalError Returned :=
  match unmarshalRun colferSizeMax colferListMax fields init data with
  | .error e => .error e
  | .ok (.run header i init) =>
    if header ≠ some 127 then .error .unknownHeader
    else if i > colferSizeMax then
      if fields.any (·.type.declaresSize) then .error .sizeMax else .error .referenceError
    else .ok (.record init)

/-! ## Definitions used by the statements -/

/-- The bytes `encodeVarintLoop` stores, in the order of the stores. -/
def varintBytes : Nat → Nat → Nat → List Nat
  | 0, num, den => [(num / den) &&& 127]
  | fuel + 1, num, den =>
    if num > 127 * den then (((num / den) &&& 127) ||| 128) :: varintBytes fuel num (den * 128)
    else [(num / den) &&& 127]

/-- Consecutive stores `bytes[i++] = b` of the bytes of a list. -/
def writeAt : List Nat → Nat → List Nat → List Nat
  | bytes, _, [] => bytes
  | bytes, i, b :: l => writeAt (bytes.set i b) (i + 1) l

/-- A schema as the generator accepts it: every index is used once and lies in `[0, 126]`. -/
def ValidSchema (fields : List Field) : Prop :=
  (fields.map (·.index)).Nodup ∧ ∀ fd ∈ fields, fd.index ≤ 126

instance (fields : List Field) : Decidable (ValidSchema fields) := by
  unfold ValidSchema; infer_instance

/-- Whether the template of the type has a branch `header == (Index | 128)`. -/
def FieldType.hasFlag : FieldType → Bool
  | .uint16 | .uint32 | .uint64 | .int32 | .int64 | .timestamp => true
  | _ => false

/-- Whether `header` passes a test `header == Index` or `header == (Index | 128)` of the
field. -/
def Field.accepts (fd : Field) (header : Option Nat) : Bool :=
  header = some fd.index || (fd.type.hasFlag && header = some (fd.index ||| 128))

/-- The statements of the fields run as a loop over the input, for at most
`n` rounds: stop at the sentinel; otherwise take the first field of the schema
whose tag is in `header`, run the statements of that field, and go on; fail
with the unknown-header error when no field has the tag.  Returned are the
variables at the stop and the field indices of the rounds, in wire order.  The
lemmas compare the one pass of `unmarshalFields` with this loop. -/
def decodeFrames (colferSizeMax colferListMax : Nat) (data : List Nat) (fields : List Field) :
    Nat → DecState → Except UnmarshalError (DecState × List Nat)
  | 0, st => .ok (st, [])
  | n + 1, .run header i init =>
    if header = some 127 then .ok (.run header i init, [])
    else
      match fields.find? (·.accepts header) with
      | none => .error .unknownHeader
      | some fd => do
        let st ← unmarshalField colferSizeMax colferListMax data fd (.run header i init)
        let (st, idxs) ← decodeFrames colferSizeMax colferListMax data fields n st
        .ok (st, fd.index :: idxs)

/-- Whether the value is the default of its type: `false`, zero, empty text, binary or
list, a timestamp of zero milliseconds and zero nanoseconds, no nested object. -/
def Value.isDefault : Value → Bool
  | .absent => true
  | .bool b => !b
  | .number x => x == 0
  | .float f => f % 9223372036854775808 == 0
  | .timestamp date ns => date.all (· == 0) && ns == 0
  | .text s => s.isEmpty
  | .binary b => b.isEmpty
  | .struct _ => false
  | .floats a => a.isEmpty
  | .texts a => a.isEmpty
  | .binaries a => a.isEmpty
  | .structs a => a.isEmpty

/-- The value of a base-128 varint given by its bytes, least significant group
first: seven value bits a byte. -/
def varintValue : List Nat → Nat
  | [] => 0
  | b :: bs => b % 128 + 128 * varintValue bs

/-- A varint on the wire: the high bit is set on every byte but the last. -/
def IsVarint : List Nat → Prop
  | [] => False
  | b :: bs =>
    match bs with
    | [] => b < 128
    | _ :: _ => 128 ≤ b ∧ b < 256 ∧ IsVarint bs

/-- The four bytes of an unsigned 32-bit integer, big-endian. -/
def be32 (x : Nat) : List Nat :=
  [x / 16777216 % 256, x / 65536 % 256, x / 256 % 256, x % 256]

/-- The number of elements of the list a list field holds: the field is a
list field (`.TypeList` of a float, text, binary or struct type) and the
property is an array. -/
def Field.listLength (fd : Field) (v : Value) : Option Nat :=
  match fd.type, fd.typeList, v with
  | .float32, true, .floats a => some a.length
  | .float64, true, .floats a => some a.length
  | .text, true, .texts a => some a.length
  | .binary, true, .binaries a => some a.length
  | .struct, true, .structs a => some a.length
  | _, _, _ => none

/-- Whether a nested object of the field, or one of a list of them, fails its
own `marshal()` with the list error. -/
def Field.nestedListMax (fd : Field) (v : Value) : Bool :=
  match fd.type, v with
  | .struct, .struct o => o.marshal = .error .listMax
  | .struct, .structs a => a.any (fun o => o.any (fun o => o.marshal = .error .listMax))
  | _, _ => false

/-- The eight big-endian bytes of an unsigned 64-bit integer. -/
def be64 (x : Nat) : List Nat :=
  be32 (x / 4294967296) ++ be32 (x % 4294967296)

/-- The frame of a timestamp of `ms` milliseconds and `n` nanoseconds in the
words of the wire format: the seconds are `⌊ms / 1000⌋` and the nanoseconds
`(ms - 1000 * ⌊ms / 1000⌋) * 10^6 + n`; under the flag-0 tag the seconds are
an unsigned 32-bit integer, under the flag-1 tag a two's-complement 64-bit
integer, big-endian.  The form is the one the code chooses: compact for
`0 ≤ ms ≤ 4294967295000`. -/
def timestampFrame (index : Nat) (ms n : Int) : List Nat :=
  let s := ms / 1000
  let nanos := ((ms - 1000 * s) * 1000000 + n).toNat
  if 0 ≤ ms ∧ ms ≤ 4294967295000 then index :: (be32 s.toNat ++ be32 nanos)
  else (index ||| 128) :: (be64 (s % 18446744073709551616).toNat ++ be32 nanos)

/-- The UTF-8 encoding of one code point below `0x110000`: 1 byte below
`0x80`, 2 bytes below `0x800`, 3 bytes below `0x10000`, 4 bytes otherwise. -/
def utf8OfCodePoint (c : Nat) : List Nat :=
  if c < 0x80 then [c]
  else if c < 0x800 then [0xC0 + c / 64, 0x80 + c % 64]
  else if c < 0x10000 then [0xE0 + c / 4096, 0x80 + c / 64 % 64, 0x80 + c % 64]
  else [0xF0 + c / 262144, 0x80 + c / 4096 % 64, 0x80 + c / 64 % 64, 0x80 + c % 64]

/-- A string of UTF-16 code units without an unpaired surrogate: every unit is
below `0x10000`, every high surrogate (`0xD800 … 0xDBFF`) is followed by a low
surrogate (`0xDC00 … 0xDFFF`), and no other low surrogate occurs. -/
def WellPaired : List Nat → Prop
  | [] => True
  | c :: tl =>
    if 0xD800 ≤ c ∧ c < 0xDC00 then
      match tl with
      | [] => False
      | c2 :: rest => (0xDC00 ≤ c2 ∧ c2 < 0xE000) ∧ WellPaired rest
    else (c < 0xD800 ∨ (0xE000 ≤ c ∧ c < 0x10000)) ∧ WellPaired tl

/-- The UTF-8 encoding of a string of UTF-16 code units: a surrogate pair
stands for the code point `0x10000 + (high - 0xD800) * 0x400 + (low - 0xDC00)`,
any other unit for itself. -/
def utf8Encode : List Nat → List Nat
  | [] => []
  | c :: tl =>
    if 0xD800 ≤ c ∧ c < 0xDC00 then
      match tl with
      | [] => utf8OfCodePoint c
      | c2 :: rest =>
        utf8OfCodePoint (0x10000 + (c - 0xD800) * 0x400 + (c2 - 0xDC00)) ++ utf8Encode rest
    else utf8OfCodePoint c ++ utf8Encode tl

/-- The concatenation of the lists of a list. -/
def concat : List (List Nat) → List Nat
  | [] => []
  | l :: ls => l ++ concat ls

/-- A field frame of the wire format (specification §4.1 and §4.2), the tag
apart: one constructor for every encoding of the table of §4.2 but the nested
record and the 12-byte timestamp.  A varint is given by its bytes, an integer
of fixed width by its value, a float by its bit pattern. -/
inductive Frame
  /-- Type `bool`: the tag only. -/
  | bool
  /-- Type `uint8`: one byte. -/
  | uint8 (v : Nat)
  /-- Type `uint16` under the flag-0 tag: two bytes, big-endian. -/
  | uint16 (v : Nat)
  /-- Type `uint16` under the flag-1 tag: one byte. -/
  | uint16Compact (v : Nat)
  /-- A varint: under the flag-0 tag of `uint32`, `uint64`, `int32` and `int64`
  the value, under the flag-1 tag of `int32` and `int64` (`negative`) the
  magnitude of a negative value. -/
  | varint (negative : Bool) (bs : List Nat)
  /-- Type `uint32` under the flag-1 tag: four bytes, big-endian. -/
  | fixed32 (v : Nat)
  /-- Type `uint64` under the flag-1 tag: eight bytes, big-endian. -/
  | fixed64 (v : Nat)
  /-- Type `float32`: the four bytes of the binary32 pattern, big-endian. -/
  | float32 (bits : Nat)
  /-- Type `float64`: the eight bytes of the binary64 pattern, big-endian. -/
  | float64 (bits : Nat)
  /-- A list of `float32`: the varint of the count, then the elements. -/
  | float32s (count : List Nat) (a : List Nat)
  /-- A list of `float64`: the varint of the count, then the elements. -/
  | float64s (count : List Nat) (a : List Nat)
  /-- Type `timestamp` under the flag-0 tag: seconds and nanoseconds, each an
  unsigned 32-bit integer, big-endian. -/
  | timestamp (s ns : Nat)
  /-- Type `text`: the varint of the byte length, then the bytes. -/
  | text (size : List Nat) (utf8 : List Nat)
  /-- Type `binary`: the varint of the byte length, then the bytes. -/
  | binary (size : List Nat) (b : List Nat)
  /-- A list of `text`: the varint of the count, then for every element the
  varint of its byte length and its bytes. -/
  | texts (count : List Nat) (a : List (List Nat × List Nat))
  /-- A list of `binary`: the varint of the count, then for every element the
  varint of its byte length and its bytes. -/
  | binaries (count : List Nat) (a : List (List Nat × List Nat))

/-- The flag bit of the tag of a frame. -/
def Frame.flag : Frame → Bool
  | .uint16Compact _ => true
  | .varint negative _ => negative
  | .fixed32 _ => true
  | .fixed64 _ => true
  | _ => false

/-- The bytes of a frame after the tag. -/
def Frame.payload : Frame → List Nat
  | .bool => []
  | .uint8 v => [v]
  | .uint16 v => [v / 256, v % 256]
  | .uint16Compact v => [v]
  | .varint _ bs => bs
  | .fixed32 v => be32 v
  | .fixed64 v => be64 v
  | .float32 bits => be32 bits
  | .float64 bits => be64 bits
  | .float32s count a => count ++ concat (a.map be32)
  | .float64s count a => count ++ concat (a.map be64)
  | .timestamp s ns => be32 s ++ be32 ns
  | .text size utf8 => size ++ utf8
  | .binary size b => size ++ b
  | .texts count a => count ++ concat (a.map (fun e => e.1 ++ e.2))
  | .binaries count a => count ++ concat (a.map (fun e => e.1 ++ e.2))

/-- The bytes of the frame of the field with the given index: the tag
`index | flag_bit`, then the payload. -/
def Frame.bytes (index : Nat) (fr : Frame) : List Nat :=
  (if fr.flag then index + 128 else index) :: fr.payload

/-- The Number a binary64 pattern read from the wire stands for: every NaN is
the one NaN of the language. -/
def ofFloat64Bits (b : Nat) : Nat :=
  if isNaN b then 0x7FF8000000000000 else b

/-- The value a frame carries, as the property of the record it is read into. -/
def Frame.value : Frame → Value
  | .bool => .bool true
  | .uint8 v => .number v
  | .uint16 v => .number v
  | .uint16Compact v => .number v
  | .varint negative bs => .number (if negative then -(varintValue bs : Int) else varintValue bs)
  | .fixed32 v => .number v
  | .fixed64 v => .number v
  | .float32 bits => .float (ofFloat32Bits bits)
  | .float64 bits => .float (ofFloat64Bits bits)
  | .float32s _ a => .floats (a.map ofFloat32Bits)
  | .float64s _ a => .floats (a.map ofFloat64Bits)
  | .timestamp s ns => .timestamp (some ((s : Int) * 1000 + (ns : Int) / 1000000))
      ((ns : Int) % 1000000)
  | .text _ utf8 => .text (decodeUTF8 utf8)
  | .binary _ b => .binary b
  | .texts _ a => .texts (a.map (fun e => some (decodeUTF8 e.2)))
  | .binaries _ a => .binaries (a.map (fun e => some e.2))

/-- A varint of the wire format for the value `n`: at most 8 bytes, the high
bit set on every byte but the last, seven value bits a byte, for a value of at
most `2^53 - 1`. -/
def IsVarintOf (bs : List Nat) (n : Nat) : Prop :=
  IsVarint bs ∧ bs.length ≤ 8 ∧ varintValue bs = n ∧ n ≤ maxSafeInteger

/-- A well-formed frame of a field, for the limits `size_max` and `list_max`:
the encoding is one of the type of the field in the table of §4.2, an integer
fits its bytes and is at most `2^53 - 1`, a byte length or an element count is
the varint of the length of what follows, a byte length is at most `size_max`
and an element count at most `list_max`. -/
def Frame.WellFormed (S L : Nat) (fd : Field) : Frame → Prop
  | .bool => fd.type = .bool
  | .uint8 v => fd.type = .uint8 ∧ v < 256
  | .uint16 v => fd.type = .uint16 ∧ v < 65536
  | .uint16Compact v => fd.type = .uint16 ∧ v < 256
  | .varint negative bs =>
    (fd.type = .int32 ∨ fd.type = .int64
        ∨ ((fd.type = .uint32 ∨ fd.type = .uint64) ∧ negative = false))
      ∧ IsVarintOf bs (varintValue bs)
  | .fixed32 v => fd.type = .uint32 ∧ v < 4294967296
  | .fixed64 v => fd.type = .uint64 ∧ v ≤ maxSafeInteger
  | .float32 bits => fd.type = .float32 ∧ fd.typeList = false ∧ bits < 4294967296
  | .float64 bits => fd.type = .float64 ∧ fd.typeList = false ∧ bits < 18446744073709551616
  | .float32s count a =>
    fd.type = .float32 ∧ fd.typeList = true ∧ IsVarintOf count a.length ∧ a.length ≤ L
      ∧ ∀ x ∈ a, x < 4294967296
  | .float64s count a =>
    fd.type = .float64 ∧ fd.typeList = true ∧ IsVarintOf count a.length ∧ a.length ≤ L
      ∧ ∀ x ∈ a, x < 18446744073709551616
  | .timestamp s ns => fd.type = .timestamp ∧ s < 4294967296 ∧ ns < 4294967296
  | .text size utf8 =>
    fd.type = .text ∧ fd.typeList = false ∧ IsVarintOf size utf8.length ∧ utf8.length ≤ S
  | .binary size b =>
    fd.type = .binary ∧ fd.typeList = false ∧ IsVarintOf size b.length ∧ b.length ≤ S
  | .texts count a =>
    fd.type = .text ∧ fd.typeList = true ∧ IsVarintOf count a.length ∧ a.length ≤ L
      ∧ ∀ e ∈ a, IsVarintOf e.1 e.2.length ∧ e.2.length ≤ S
  | .binaries count a =>
    fd.type = .binary ∧ fd.typeList = true ∧ IsVarintOf count a.length ∧ a.length ≤ L
      ∧ ∀ e ∈ a, IsVarintOf e.1 e.2.length ∧ e.2.length ≤ S

/-- The bytes of a record in the words of §4.1: the frames of its fields one
after the other, then the sentinel `0x7F`. -/
def wire : List (Field × Frame) → List Nat
  | [] => [0x7F]
  | p :: rest => p.2.bytes p.1.index ++ wire rest

/-- The record after the values of the frames were entered into `init`, in
wire order. -/
def populate (init : Record) : List (Field × Frame) → Record
  | [] => init
  | p :: rest => populate (init.put p.1.index p.2.value) rest

/-- The standard little-endian base-128 varint of the wire format, of minimal
length: seven value bits a byte, least significant group first, the high bit
set on every byte but the last.  The first argument bounds the number of
bytes. -/
def standardVarintFuel : Nat → Nat → List Nat
  | 0, x => [x % 128]
  | fuel + 1, x => if x < 128 then [x] else (x % 128 + 128) :: standardVarintFuel fuel (x / 128)

/-- The standard varint of `x`. -/
def standardVarint (x : Nat) : List Nat :=
  standardVarintFuel x x

/-! ## Lemmas -/

theorem encodeVarintLoop_eq_writeAt (fuel : Nat) (bytes : List Nat) (i num den : Nat) :
    encodeVarintLoop fuel bytes i num den
      = (writeAt bytes i (varintBytes fuel num den), i + (varintBytes fuel num den).length) := by
  induction fuel generalizing bytes i den with
  | zero => simp [encodeVarintLoop, varintBytes, writeAt]
  | succ fuel ih =>
    unfold encodeVarintLoop varintBytes
    split_ifs with h
    · rw [ih]; simp [writeAt]; omega
    · simp [writeAt]

theorem length_writeAt (l : List Nat) (bytes : List Nat) (i : Nat) :
    (writeAt bytes i l).length = bytes.length := by
  induction l generalizing bytes i with
  | nil => rfl
  | cons b l ih => simp [writeAt, ih]

theorem writeAt_getElem?_lt (l : List Nat) (bytes : List Nat) (i j : Nat) (h : j < i) :
    (writeAt bytes i l)[j]? = bytes[j]? := by
  induction l generalizing bytes i with
  | nil => rfl
  | cons b l ih =>
    simp only [writeAt]
    rw [ih _ _ (by omega), List.getElem?_set_ne (by omega)]

theorem writeAt_getElem? (l : List Nat) (bytes : List Nat) (i k : Nat)
    (hfit : i + l.length ≤ bytes.length) (hk : k < l.length) :
    (writeAt bytes i l)[i + k]? = l[k]? := by
  induction l generalizing bytes i k with
  | nil => simp at hk
  | cons b l ih =>
    simp only [writeAt]
    simp only [List.length_cons] at hfit hk
    cases k with
    | zero =>
      have h := writeAt_getElem?_lt l (bytes.set i b) (i + 1) i (by omega)
      show (writeAt (bytes.set i b) (i + 1) l)[i]? = _
      rw [h, List.getElem?_set_self (by omega)]
      simp
    | succ k =>
      have := ih (bytes.set i b) (i + 1) k (by simp; omega) (by omega)
      rw [show i + (k + 1) = i + 1 + k by omega, this]
      simp

theorem and_127_eq_mod (a : Nat) : a &&& 127 = a % 128 :=
  Nat.and_pow_two_sub_one_eq_mod a 7

theorem lor_128 (m : Nat) (h : m < 128) : m ||| 128 = m + 128 := by
  revert m; decide

theorem length_varintBytes_pos (fuel num den : Nat) : 0 < (varintBytes fuel num den).length := by
  cases fuel <;> simp [varintBytes]
  split_ifs <;> simp

/-- Reading back: from round `k` of both loops on. -/
theorem readVarintLoop_varintBytes (data : List Nat) (i x : Nat) (hx : x ≤ maxSafeInteger) :
    ∀ (fuel k : Nat), x ≤ 127 * 128 ^ (k + fuel) → (k = 0 ∨ 127 * 128 ^ (k - 1) < x) →
      (∀ j, j < (varintBytes fuel x (128 ^ k)).length →
        data[i + k + j]? = (varintBytes fuel x (128 ^ k))[j]?) →
      i + k + (varintBytes fuel x (128 ^ k)).length ≤ data.length →
      readVarintLoop data i (8 - k) k (x % 128 ^ k)
        = .ok ((x : Int), i + k + (varintBytes fuel x (128 ^ k)).length)
        ∧ k + (varintBytes fuel x (128 ^ k)).length ≤ 8 := by
  intro fuel
  have hbound : ∀ k, (k = 0 ∨ 127 * 128 ^ (k - 1) < x) → k ≤ 7 := by
    intro k hk
    rcases hk with rfl | hk
    · omega
    · by_contra hcon
      have h8 : 7 ≤ k - 1 := by omega
      have := Nat.pow_le_pow_right (show 0 < 128 by omega) h8
      simp only [maxSafeInteger] at hx
      norm_num at this
      omega
  induction fuel with
  | zero =>
    intro k hfuel hk hdata hlen
    have hk7 := hbound k hk
    obtain ⟨n, hn⟩ : ∃ n, 8 - k = n + 1 := ⟨7 - k, by omega⟩
    have hpos : 0 < 128 ^ k := by positivity
    have hq : x / 128 ^ k ≤ 127 := by
      rw [Nat.add_zero] at hfuel
      calc x / 128 ^ k ≤ (127 * 128 ^ k) / 128 ^ k := Nat.div_le_div_right hfuel
        _ = 127 := Nat.mul_div_cancel _ hpos
    have hbyte := hdata 0 (by simp [varintBytes])
    simp only [varintBytes, Nat.add_zero, List.getElem?_cons_zero, and_127_eq_mod] at hbyte
    rw [hn]
    unfold readVarintLoop
    simp only [hbyte, varintBytes, List.length_singleton, Option.getD_some, and_127_eq_mod,
      Nat.mod_mod, Option.any_some]
    have hmod : x / 128 ^ k % 128 = x / 128 ^ k := Nat.mod_eq_of_lt (by omega)
    have hsum : x % 128 ^ k + x / 128 ^ k * 128 ^ k = x := by
      rw [Nat.mul_comm]; exact Nat.mod_add_div x (128 ^ k)
    rw [hmod, hsum]
    have h1 : decide (x / 128 ^ k < 128) = true := by simp; omega
    simp only [h1, if_true]
    have h2 : ¬ (x > maxSafeInteger) := by omega
    simp only [h2, if_false]
    exact ⟨rfl, by omega⟩
  | succ fuel ih =>
    intro k hfuel hk hdata hlen
    have hk7 := hbound k hk
    obtain ⟨n, hn⟩ : ∃ n, 8 - k = n + 1 := ⟨7 - k, by omega⟩
    have hpos : 0 < 128 ^ k := by positivity
    by_cases hgt : x > 127 * 128 ^ k
    · -- a continuation byte
      have hvb : varintBytes (fuel + 1) x (128 ^ k)
          = (((x / 128 ^ k) &&& 127) ||| 128) :: varintBytes fuel x (128 ^ (k + 1)) := by
        rw [varintBytes, if_pos hgt, Nat.pow_succ]
      rw [hvb] at hdata hlen ⊢
      simp only [List.length_cons] at hdata hlen ⊢
      have hbyte := hdata 0 (by omega)
      simp only [Nat.add_zero, List.getElem?_cons_zero, and_127_eq_mod] at hbyte
      have hm : x / 128 ^ k % 128 < 128 := Nat.mod_lt _ (by omega)
      rw [lor_128 _ hm] at hbyte
      have hk6 : k + 1 ≤ 7 := hbound (k + 1) (Or.inr (by simpa using hgt))
      have hrec := ih (k + 1) (by rw [show k + 1 + fuel = k + (fuel + 1) by omega]; exact hfuel)
        (Or.inr (by simpa using hgt))
        (by
          intro j hj
          have := hdata (j + 1) (by omega)
          rw [show i + (k + 1) + j = i + k + (j + 1) by omega, this]
          simp)
        (by omega)
      have hposv := length_varintBytes_pos fuel x (128 ^ (k + 1))
      rw [hn]
      unfold readVarintLoop
      simp only [hbyte, Option.getD_some, and_127_eq_mod, Option.any_some]
      have h1 : decide (x / 128 ^ k % 128 + 128 < 128) = false := by simp
      have hmod : (x / 128 ^ k % 128 + 128) % 128 = x / 128 ^ k % 128 := by omega
      have hsum : x % 128 ^ k + x / 128 ^ k % 128 * 128 ^ k = x % 128 ^ (k + 1) := by
        rw [Nat.mod_pow_succ, Nat.mul_comm]
      have hne : ¬ (k + 1 = data.length) := by omega
      simp only [h1, hmod, hsum, hne, if_false, Bool.false_eq_true]
      have hn' : n = 8 - (k + 1) := by omega
      rw [hn', hrec.1]
      exact ⟨by congr 2; omega, by omega⟩
    · -- the last byte
      have hvb : varintBytes (fuel + 1) x (128 ^ k) = [(x / 128 ^ k) &&& 127] := by
        rw [varintBytes, if_neg hgt]
      rw [hvb] at hdata hlen ⊢
      have hq : x / 128 ^ k ≤ 127 := by
        calc x / 128 ^ k ≤ (127 * 128 ^ k) / 128 ^ k := Nat.div_le_div_right (by omega)
          _ = 127 := Nat.mul_div_cancel _ hpos
      have hbyte := hdata 0 (by simp)
      simp only [Nat.add_zero, List.getElem?_cons_zero, and_127_eq_mod] at hbyte
      rw [hn]
      unfold readVarintLoop
      simp only [hbyte, List.length_singleton, Option.getD_some, and_127_eq_mod,
        Nat.mod_mod, Option.any_some]
      have hmod : x / 128 ^ k % 128 = x / 128 ^ k := Nat.mod_eq_of_lt (by omega)
      have hsum : x % 128 ^ k + x / 128 ^ k * 128 ^ k = x := by
        rw [Nat.mul_comm]; exact Nat.mod_add_div x (128 ^ k)
      rw [hmod, hsum]
      have h1 : decide (x / 128 ^ k < 128) = true := by simp; omega
      simp only [h1, if_true]
      have h2 : ¬ (x > maxSafeInteger) := by omega
      simp only [h2, if_false]
      exact ⟨rfl, by omega⟩

theorem encodeVarintLoop_fuel (fuel : Nat) (bytes : List Nat) (i num den : Nat)
    (h : num ≤ 127 * den * 128 ^ fuel) :
    encodeVarintLoop (fuel + 1) bytes i num den = encodeVarintLoop fuel bytes i num den := by
  induction fuel generalizing bytes i den with
  | zero =>
    have : ¬ (num > 127 * den) := by simpa using h
    simp [encodeVarintLoop, this]
  | succ fuel ih =>
    rw [encodeVarintLoop]
    conv_rhs => rw [encodeVarintLoop]
    split_ifs with hgt
    · exact ih _ _ _ (by rw [Nat.pow_succ] at h; calc num ≤ _ := h
                                                   _ = _ := by ring)
    · rfl

theorem le_fuel (x : Nat) : x ≤ 127 * 128 ^ x := by
  have h1 : x < 2 ^ x := Nat.lt_two_pow x
  have h2 : 2 ^ x ≤ 128 ^ x := Nat.pow_le_pow_left (by omega) x
  have h3 : 0 < 128 ^ x := by positivity
  omega

theorem unmarshalField_skip (S L : Nat) (data : List Nat) (fd : Field) (header : Option Nat)
    (i : Nat) (init : Record) (h : fd.accepts header = false) :
    unmarshalField S L data fd (.run header i init) = .ok (.run header i init) := by
  obtain ⟨index, type, typeList⟩ := fd
  simp only [Field.accepts, Bool.or_eq_false_iff, decide_eq_false_iff_not,
    Bool.and_eq_false_iff] at h
  obtain ⟨h1, h2⟩ := h
  cases type <;> cases typeList <;>
    simp_all [unmarshalField, FieldType.hasFlag]

theorem unmarshalFields_skip (S L : Nat) (data : List Nat) (pre rest : List Field)
    (header : Option Nat) (i : Nat) (init : Record)
    (h : ∀ p ∈ pre, p.accepts header = false) :
    unmarshalFields S L data (pre ++ rest) (.run header i init)
      = unmarshalFields S L data rest (.run header i init) := by
  induction pre with
  | nil => rfl
  | cons p pre ih =>
    rw [List.cons_append, unmarshalFields, unmarshalField_skip _ _ _ _ _ _ _ (h p (by simp))]
    exact ih (fun q hq => h q (by simp [hq]))

theorem accepts_index (fd fd' : Field) (header : Option Nat) (h : fd.index ≤ 126)
    (h' : fd'.index ≤ 126) (ha : fd.accepts header = true) (ha' : fd'.accepts header = true) :
    fd.index = fd'.index := by
  simp only [Field.accepts, Bool.or_eq_true, decide_eq_true_eq, Bool.and_eq_true] at ha ha'
  rw [lor_128 _ (by omega)] at ha ha'
  rcases ha with ha | ⟨-, ha⟩ <;> rcases ha' with ha' | ⟨-, ha'⟩ <;>
    · rw [ha] at ha'
      have := Option.some.inj ha'
      omega

theorem accepts_ne_sentinel (fd : Field) (h : fd.index ≤ 126) : fd.accepts (some 127) = false := by
  simp only [Field.accepts, Bool.or_eq_false_iff, decide_eq_false_iff_not,
    Bool.and_eq_false_iff]
  rw [lor_128 _ (by omega)]
  constructor
  · intro h'; have := Option.some.inj h'; omega
  · right; intro h'; have := Option.some.inj h'; omega

theorem sublist_cons_map_split {α : Type} (f : α → Nat) (a : Nat) (l : List Nat) :
    ∀ rest : List α, (a :: l).Sublist (rest.map f) →
      ∃ pre x post, rest = pre ++ x :: post ∧ f x = a ∧ l.Sublist (post.map f) := by
  intro rest
  induction rest with
  | nil => intro h; simp at h
  | cons y ys ih =>
    intro h
    rw [List.map_cons] at h
    cases h with
    | cons _ h =>
      obtain ⟨pre, x, post, hr, hx, hl⟩ := ih h
      exact ⟨y :: pre, x, post, by rw [hr]; rfl, hx, hl⟩
    | cons₂ _ h => exact ⟨[], y, ys, rfl, rfl, h⟩

theorem unmarshalFields_stuck (S L : Nat) (data : List Nat) (rest : List Field)
    (header : Option Nat) (i : Nat) (init : Record)
    (h : ∀ p ∈ rest, p.accepts header = false) :
    unmarshalFields S L data rest (.run header i init) = .ok (.run header i init) := by
  have := unmarshalFields_skip S L data rest [] header i init h
  rw [List.append_nil] at this
  rw [this]; rfl

/-- What `decodeFrames` does in a round that reads a frame. -/
theorem decodeFrames_step (S L : Nat) (data : List Nat) (fields : List Field) (n : Nat)
    (header : Option Nat) (i : Nat) (init : Record) (st' : DecState) (idxs : List Nat)
    (h127 : header ≠ some 127)
    (h : decodeFrames S L data fields (n + 1) (.run header i init) = .ok (st', idxs)) :
    ∃ fd st1 idxs', fd ∈ fields ∧ fd.accepts header = true
      ∧ unmarshalField S L data fd (.run header i init) = .ok st1
      ∧ decodeFrames S L data fields n st1 = .ok (st', idxs') ∧ idxs = fd.index :: idxs' := by
  rw [decodeFrames, if_neg h127] at h
  cases hfind : fields.find? (·.accepts header) with
  | none => rw [hfind] at h; simp at h
  | some fd =>
    rw [hfind] at h
    simp only at h
    have hmem := List.mem_of_find?_eq_some hfind
    have hacc : fd.accepts header = true := by
      simpa using List.find?_some hfind
    cases hstep : unmarshalField S L data fd (.run header i init) with
    | error e => rw [hstep] at h; simp [bind, Except.bind] at h
    | ok st1 =>
      rw [hstep] at h
      simp only [bind, Except.bind] at h
      cases hrec : decodeFrames S L data fields n st1 with
      | error e => rw [hrec] at h; simp at h
      | ok r =>
        obtain ⟨st2, idxs'⟩ := r
        rw [hrec] at h
        simp only [Except.ok.injEq, Prod.mk.injEq] at h
        exact ⟨fd, st1, idxs', hmem, hacc, hstep, by rw [hrec, h.1], h.2.symm⟩

/-- Frames in schema order: the cascade reads them all. -/
theorem unmarshalFields_of_sublist (S L : Nat) (data : List Nat) (fields : List Field)
    (hvalid : ValidSchema fields) (i' : Nat) (init' : Record) :
    ∀ (n : Nat) (rest : List Field) (st : DecState) (idxs : List Nat),
      (∀ fd ∈ rest, fd ∈ fields) → (rest.map (·.index)).Nodup →
      decodeFrames S L data fields n st = .ok (.run (some 127) i' init', idxs) →
      idxs.Sublist (rest.map (·.index)) →
      unmarshalFields S L data rest st = .ok (.run (some 127) i' init') := by
  intro n
  induction n with
  | zero =>
    intro rest st idxs hsub _ h _
    simp only [decodeFrames, Except.ok.injEq, Prod.mk.injEq] at h
    rw [h.1]
    exact unmarshalFields_stuck _ _ _ _ _ _ _
      (fun p hp => accepts_ne_sentinel p (hvalid.2 p (hsub p hp)))
  | succ n ih =>
    intro rest st idxs hsub hnd h hidx
    cases st with
    | run header i init =>
      by_cases h127 : header = some 127
      · rw [decodeFrames, if_pos h127] at h
        simp only [Except.ok.injEq, Prod.mk.injEq] at h
        rw [h.1]
        exact unmarshalFields_stuck _ _ _ _ _ _ _
          (fun p hp => accepts_ne_sentinel p (hvalid.2 p (hsub p hp)))
      · obtain ⟨fd, st1, idxs', hmem, hacc, hstep, hrec, rfl⟩ :=
          decodeFrames_step S L data fields n header i init _ idxs h127 h
        obtain ⟨pre, x, post, hrest, hx, hl⟩ := sublist_cons_map_split (·.index) _ _ rest hidx
        have hxmem : x ∈ rest := by rw [hrest]; simp
        have hxfd : x = fd :=
          List.inj_on_of_nodup_map hvalid.1 (hsub x hxmem) hmem hx
        subst hxfd
        subst hrest
        rw [List.map_append, List.map_cons] at hnd
        have hpre : ∀ p ∈ pre, p.accepts header = false := by
          intro p hp
          by_contra hcon
          have hpa : p.accepts header = true := by simpa using hcon
          have hpi := accepts_index p x header (hvalid.2 p (hsub p (by simp [hp])))
            (hvalid.2 x hmem) hpa hacc
          have hdis := (List.nodup_append.1 hnd).2.2
          exact hdis (List.mem_map_of_mem _ hp) (by rw [hpi]; simp)
        rw [unmarshalFields_skip _ _ _ _ _ _ _ _ hpre, unmarshalFields, hstep]
        exact ih post st1 idxs' (fun q hq => hsub q (by simp [hq]))
          ((List.nodup_cons.1 (List.nodup_append.1 hnd).2.1).2) hrec hl

/-- A frame out of schema order: the cascade stops in front of it. -/
theorem unmarshalFields_of_not_sublist (S L : Nat) (data : List Nat) (fields : List Field)
    (hvalid : ValidSchema fields) :
    ∀ (n : Nat) (rest : List Field) (st st' : DecState) (idxs : List Nat),
      (∀ fd ∈ rest, fd ∈ fields) → (rest.map (·.index)).Nodup →
      decodeFrames S L data fields n st = .ok (st', idxs) →
      ¬ idxs.Sublist (rest.map (·.index)) →
      ∃ h i init, unmarshalFields S L data rest st = .ok (.run (some h) i init) ∧ h ≠ 127 := by
  intro n
  induction n with
  | zero =>
    intro rest st st' idxs _ _ h hidx
    simp only [decodeFrames, Except.ok.injEq, Prod.mk.injEq] at h
    rw [← h.2] at hidx
    exact absurd (List.nil_sublist _) hidx
  | succ n ih =>
    intro rest st st' idxs hsub hnd h hidx
    cases st with
    | run header i init =>
      by_cases h127 : header = some 127
      · rw [decodeFrames, if_pos h127] at h
        simp only [Except.ok.injEq, Prod.mk.injEq] at h
        rw [← h.2] at hidx
        exact absurd (List.nil_sublist _) hidx
      · obtain ⟨fd, st1, idxs', hmem, hacc, hstep, hrec, rfl⟩ :=
          decodeFrames_step S L data fields n header i init _ idxs h127 h
        by_cases hin : fd ∈ rest
        · obtain ⟨pre, post, hrest⟩ := List.append_of_mem hin
          subst hrest
          rw [List.map_append, List.map_cons] at hnd hidx
          have hpre : ∀ p ∈ pre, p.accepts header = false := by
            intro p hp
            by_contra hcon
            have hpa : p.accepts header = true := by simpa using hcon
            have hpi := accepts_index p fd header (hvalid.2 p (hsub p (by simp [hp])))
              (hvalid.2 fd hmem) hpa hacc
            have hdis := (List.nodup_append.1 hnd).2.2
            exact hdis (List.mem_map_of_mem _ hp) (by rw [hpi]; simp)
          have hpost : ¬ idxs'.Sublist (post.map (·.index)) := by
            intro hs
            exact hidx ((List.Sublist.cons₂ _ hs).trans (List.sublist_append_right _ _))
          rw [unmarshalFields_skip _ _ _ _ _ _ _ _ hpre, unmarshalFields, hstep]
          exact ih post st1 st' idxs' (fun q hq => hsub q (by simp [hq]))
            ((List.nodup_cons.1 (List.nodup_append.1 hnd).2.1).2) hrec hpost
        · have hall : ∀ p ∈ rest, p.accepts header = false := by
            intro p hp
            by_contra hcon
            have hpa : p.accepts header = true := by simpa using hcon
            have hpi := accepts_index p fd header (hvalid.2 p (hsub p hp))
              (hvalid.2 fd hmem) hpa hacc
            have : p = fd := List.inj_on_of_nodup_map hvalid.1 (hsub p hp) hmem hpi
            exact hin (this ▸ hp)
          rw [unmarshalFields_stuck _ _ _ _ _ _ _ hall]
          cases header with
          | none => simp [Field.accepts] at hacc
          | some hd => exact ⟨hd, i, init, rfl, fun h => h127 (by rw [h])⟩

@[simp]
theorem length_store (bytes : List Nat) (i v : Nat) :
    (store bytes i v).length = bytes.length := by
  simp [store]

@[simp]
theorem length_put32 (buf : List Nat) (i x : Nat) : (put32 buf i x).length = buf.length := by
  simp [put32]

@[simp]
theorem length_put64 (buf : List Nat) (i f : Nat) : (put64 buf i f).length = buf.length := by
  simp [put64]

theorem length_setUint32 {buf b : List Nat} {i : Nat} {x : Int}
    (h : setUint32 buf i x = .ok b) : b.length = buf.length := by
  unfold setUint32 at h
  split_ifs at h
  simp only [Except.ok.injEq] at h
  rw [← h]; simp

theorem length_setFloat32 {buf b : List Nat} {i f : Nat}
    (h : setFloat32 buf i f = .ok b) : b.length = buf.length := by
  unfold setFloat32 at h
  split_ifs at h
  simp only [Except.ok.injEq] at h
  rw [← h]; simp

theorem length_setFloat64 {buf b : List Nat} {i f : Nat}
    (h : setFloat64 buf i f = .ok b) : b.length = buf.length := by
  unfold setFloat64 at h
  split_ifs at h
  simp only [Except.ok.injEq] at h
  rw [← h]; simp

theorem length_setBytes {buf src b : List Nat} {i : Nat}
    (h : setBytes buf src i = .ok b) : b.length = buf.length := by
  unfold setBytes at h
  split_ifs at h with hlt
  simp only [Except.ok.injEq] at h
  rw [← h]
  simp only [List.length_append, List.length_take, List.length_map, List.length_drop]
  omega

@[simp]
theorem length_encodeVarint (bytes : List Nat) (i x : Nat) :
    (encodeVarint bytes i x).1.length = bytes.length := by
  rw [encodeVarint, encodeVarintLoop_eq_writeAt]
  exact length_writeAt _ _ _

theorem bind_ok {ε α β : Type} {x : Except ε α} {f : α → Except ε β} {b : β}
    (h : (x >>= f) = .ok b) : ∃ a, x = .ok a ∧ f a = .ok b := by
  cases x with
  | error e => simp [bind, Except.bind] at h
  | ok a => exact ⟨a, rfl, h⟩

theorem length_marshalFloat32s (a : List Nat) : ∀ (buf : List Nat) (i : Nat) (b : List Nat)
    (j : Nat), marshalFloat32s a buf i = .ok (b, j) → b.length = buf.length := by
  induction a with
  | nil => intro buf i b j h; simp only [marshalFloat32s, Except.ok.injEq, Prod.mk.injEq] at h; rw [h.1]
  | cons f a ih =>
    intro buf i b j h
    rw [marshalFloat32s] at h
    split_ifs at h
    obtain ⟨b1, h1, h2⟩ := bind_ok h
    rw [ih _ _ _ _ h2, length_setFloat32 h1]

theorem length_marshalFloat64s (a : List Nat) : ∀ (buf : List Nat) (i : Nat) (b : List Nat)
    (j : Nat), marshalFloat64s a buf i = .ok (b, j) → b.length = buf.length := by
  induction a with
  | nil => intro buf i b j h; simp only [marshalFloat64s, Except.ok.injEq, Prod.mk.injEq] at h; rw [h.1]
  | cons f a ih =>
    intro buf i b j h
    rw [marshalFloat64s] at h
    obtain ⟨b1, h1, h2⟩ := bind_ok h
    rw [ih _ _ _ _ h2, length_setFloat64 h1]

theorem length_marshalText {s buf b : List Nat} {i j : Nat}
    (h : marshalText s buf i = .ok (b, j)) : b.length = buf.length := by
  unfold marshalText at h
  split at h
  · simp at h
  · obtain ⟨b1, h1, h2⟩ := bind_ok h
    simp only [Except.ok.injEq, Prod.mk.injEq] at h2
    rw [← h2.1, length_setBytes h1]
    exact length_encodeVarint _ _ _

theorem length_marshalBinary {s buf b : List Nat} {i j : Nat}
    (h : marshalBinary s buf i = .ok (b, j)) : b.length = buf.length := by
  unfold marshalBinary at h
  obtain ⟨b1, h1, h2⟩ := bind_ok h
  simp only [Except.ok.injEq, Prod.mk.injEq] at h2
  rw [← h2.1, length_setBytes h1]
  exact length_encodeVarint _ _ _

theorem length_marshalStruct {o : StructObj} {buf b : List Nat} {i j : Nat}
    (h : marshalStruct o buf i = .ok (b, j)) : b.length = buf.length := by
  unfold marshalStruct at h
  obtain ⟨e, _, h⟩ := bind_ok h
  obtain ⟨b1, h1, h2⟩ := bind_ok h
  simp only [Except.ok.injEq, Prod.mk.injEq] at h2
  rw [← h2.1, length_setBytes h1]

theorem length_marshalTexts (a : List (Option (List Nat))) : ∀ (buf : List Nat) (i : Nat)
    (b : List Nat) (j : Nat), marshalTexts a buf i = .ok (b, j) → b.length = buf.length := by
  induction a with
  | nil => intro buf i b j h; simp only [marshalTexts, Except.ok.injEq, Prod.mk.injEq] at h; rw [h.1]
  | cons f a ih =>
    intro buf i b j h
    rw [marshalTexts] at h
    obtain ⟨⟨b1, i1⟩, h1, h2⟩ := bind_ok h
    rw [ih _ _ _ _ h2, length_marshalText h1]

theorem length_marshalBinaries (a : List (Option (List Nat))) : ∀ (buf : List Nat) (i : Nat)
    (b : List Nat) (j : Nat), marshalBinaries a buf i = .ok (b, j) → b.length = buf.length := by
  induction a with
  | nil => intro buf i b j h; simp only [marshalBinaries, Except.ok.injEq, Prod.mk.injEq] at h; rw [h.1]
  | cons f a ih =>
    intro buf i b j h
    rw [marshalBinaries] at h
    obtain ⟨⟨b1, i1⟩, h1, h2⟩ := bind_ok h
    rw [ih _ _ _ _ h2, length_marshalBinary h1]

theorem length_marshalStructs (a : List (Option StructObj)) :
    ∀ (buf : List Nat) (i : Nat) (b : List Nat) (j : Nat),
      marshalStructs a buf i = .ok (b, j) → b.length = buf.length := by
  induction a with
  | nil => intro buf i b j h; simp only [marshalStructs, Except.ok.injEq, Prod.mk.injEq] at h; rw [h.1]
  | cons f a ih =>
    intro buf i b j h
    cases f with
    | none => simp [marshalStructs] at h
    | some v =>
      rw [marshalStructs] at h
      obtain ⟨⟨b1, i1⟩, h1, h2⟩ := bind_ok h
      rw [ih _ _ _ _ h2, length_marshalStruct h1]

@[simp]
theorem length_negate64 (buf : List Nat) (i : Nat) : (negate64 buf i).length = buf.length := by
  simp [negate64, List.range, List.range.loop]

theorem length_marshalTimestamp {index : Nat} {ms ns : Int} {buf b : List Nat} {i j : Nat}
    (h : marshalTimestamp index ms ns buf i = .ok (b, j)) : b.length = buf.length := by
  unfold marshalTimestamp at h
  simp only at h
  split_ifs at h
  all_goals first
    | (obtain ⟨b1, h1, h⟩ := bind_ok h
       obtain ⟨b2, h2, h⟩ := bind_ok h
       obtain ⟨b3, h3, h⟩ := bind_ok h
       obtain ⟨b4, h4, h⟩ := bind_ok h
       simp only [Except.ok.injEq, Prod.mk.injEq] at h h3
       rw [← h.1, length_setUint32 h4, ← h3, length_negate64, length_setUint32 h2,
         length_setUint32 h1, length_store])
    | (obtain ⟨b1, h1, h⟩ := bind_ok h
       obtain ⟨b2, h2, h⟩ := bind_ok h
       obtain ⟨b3, h3, h⟩ := bind_ok h
       simp only [Except.ok.injEq, Prod.mk.injEq] at h
       rw [← h.1, length_setUint32 h3, length_setUint32 h2, length_setUint32 h1, length_store])
    | (obtain ⟨b1, h1, h⟩ := bind_ok h
       obtain ⟨b2, h2, h⟩ := bind_ok h
       simp only [Except.ok.injEq, Prod.mk.injEq] at h
       rw [← h.1, length_setUint32 h2, length_setUint32 h1, length_store])

theorem length_of_pair_eq {p : List Nat × Nat} {b : List Nat} {j n : Nat} (h : p = (b, j))
    (hp : p.1.length = n) : b.length = n := by
  subst h; exact hp

theorem length_marshalField {L : Nat} {fd : Field} {v : Value} {buf b : List Nat} {i j : Nat}
    (h : marshalField L fd v buf i = .ok (b, j)) : b.length = buf.length := by
  unfold marshalField at h
  split at h
  all_goals try split_ifs at h
  all_goals first
    | exact length_of_pair_eq (Except.ok.inj h) (by simp)
    | exact (length_marshalTimestamp h)
    | exact (length_marshalText h).trans (length_store _ _ _)
    | exact (length_marshalBinary h).trans (length_store _ _ _)
    | exact (length_marshalStruct h).trans (length_store _ _ _)
    | exact (length_marshalFloat32s _ _ _ _ _ h).trans (by simp)
    | exact (length_marshalFloat64s _ _ _ _ _ h).trans (by simp)
    | exact (length_marshalTexts _ _ _ _ _ h).trans (by simp)
    | exact (length_marshalBinaries _ _ _ _ _ h).trans (by simp)
    | exact (length_marshalStructs _ _ _ _ _ h).trans (by simp)
    | (obtain ⟨b1, h1, h⟩ := bind_ok h
       obtain ⟨b2, h2, h⟩ := bind_ok h
       have h3 := length_of_pair_eq (Except.ok.inj h) rfl
       rw [h3, length_setUint32 h2, length_setUint32 h1, length_store])
    | (obtain ⟨b1, h1, h⟩ := bind_ok h
       have h3 := length_of_pair_eq (Except.ok.inj h) rfl
       first
        | rw [h3, length_setUint32 h1, length_store]
        | rw [h3, length_setFloat32 h1, length_store]
        | rw [h3, length_setFloat64 h1, length_store]
        | rw [h3, length_setBytes h1])

theorem length_marshalFields (L : Nat) (init : Record) (fields : List Field) :
    ∀ (buf : List Nat) (i : Nat) (b : List Nat) (j : Nat),
      marshalFields L init fields buf i = .ok (b, j) → b.length = buf.length := by
  induction fields with
  | nil => intro buf i b j h; simp only [marshalFields, Except.ok.injEq, Prod.mk.injEq] at h; rw [h.1]
  | cons fd fields ih =>
    intro buf i b j h
    rw [marshalFields] at h
    obtain ⟨⟨b1, i1⟩, h1, h2⟩ := bind_ok h
    rw [ih _ _ _ _ h2, length_marshalField h1]

theorem marshalField_default (L : Nat) (fd : Field) (v : Value) (buf : List Nat) (i : Nat)
    (h : v.isDefault = true) : marshalField L fd v buf i = .ok (buf, i) := by
  unfold marshalField
  split <;> simp_all [Value.isDefault, truthy, isNaN]
  rename_i date ns _
  cases date <;> simp_all

theorem marshalFields_default (L : Nat) (init : Record) (fields : List Field)
    (h : ∀ fd ∈ fields, (init.get fd.index).isDefault = true) (buf : List Nat) (i : Nat) :
    marshalFields L init fields buf i = .ok (buf, i) := by
  induction fields with
  | nil => rfl
  | cons fd fields ih =>
    rw [marshalFields, marshalField_default _ _ _ _ _ (h fd (by simp))]
    exact ih (fun q hq => h q (by simp [hq]))

theorem encodeUTF8Body_lt (s : List Nat) (ci i : Nat) (bytes : List Nat) :
    ci < (encodeUTF8Body s ci i bytes).1 := by
  unfold encodeUTF8Body
  split
  · simp
  · simp only
    split_ifs <;> simp only <;> omega

theorem encodeUTF8Loop_none_of_gt (s : List Nat) :
    ∀ (fuel ci i : Nat) (bytes : List Nat), s.length < ci →
      encodeUTF8Loop s fuel ci i bytes = none := by
  intro fuel
  induction fuel with
  | zero => intros; rfl
  | succ fuel ih =>
    intro ci i bytes h
    rw [encodeUTF8Loop, if_neg (by omega)]
    exact ih _ _ _ (by have := encodeUTF8Body_lt s ci i bytes; omega)

theorem encodeUTF8Loop_none (s : List Nat) :
    ∀ (fuel ci i : Nat) (bytes : List Nat), ci ≤ s.length → s.length - ci < fuel →
      encodeUTF8Loop s fuel ci i bytes = none →
      ∀ fuel', encodeUTF8Loop s fuel' ci i bytes = none := by
  intro fuel
  induction fuel with
  | zero => intro ci i bytes _ h; omega
  | succ fuel ih =>
    intro ci i bytes hle hfuel h fuel'
    rw [encodeUTF8Loop] at h
    split_ifs at h with heq
    have hlt := encodeUTF8Body_lt s ci i bytes
    cases fuel' with
    | zero => rfl
    | succ fuel' =>
      rw [encodeUTF8Loop, if_neg heq]
      by_cases hin : (encodeUTF8Body s ci i bytes).1 ≤ s.length
      · exact ih _ _ _ hin (by omega) h fuel'
      · exact encodeUTF8Loop_none_of_gt s _ _ _ _ (by omega)

/-- The fuel of `encodeUTF8` is enough: `none` means that the loop never ends. -/
theorem encodeUTF8_eq_none_iff (s : List Nat) :
    encodeUTF8 s = none ↔ ∀ fuel, encodeUTF8Fuel fuel s = none := by
  constructor
  · intro h fuel
    exact encodeUTF8Loop_none s (s.length + 1) 0 0 _ (by omega) (by omega) h fuel
  · intro h
    exact h _

/-- Default omission: when every field of the record holds the default of its
type and `colferSizeMax` is at least 2, `marshal` returns `[0x7F]`, whatever
the buffer argument. -/
theorem marshal_all_default (S L : Nat) (fields : List Field) (init : Record)
    (buf : Option (List Nat))
    (h : ∀ fd ∈ fields, (init.get fd.index).isDefault = true) (hS : 1 < S) :
    marshal S L fields init buf = .ok [127] := by
  have hne : marshalBuffer S buf ≠ [] := by
    unfold marshalBuffer
    cases buf with
    | none => intro hc; have := congrArg List.length hc; simp at this; omega
    | some b =>
      by_cases hb : b.length = 0
      · simp only [hb, if_true]
        intro hc; have := congrArg List.length hc; simp at this; omega
      · simp only [hb, if_false]
        intro hc; exact hb (by rw [hc]; rfl)
  unfold marshal
  rw [marshalFields_default L init fields h]
  simp only
  rw [if_neg (by omega)]
  cases hB : marshalBuffer S buf with
  | nil => exact absurd hB hne
  | cons a l => simp [store]

/-- The exception to default omission: a scalar `float64` field that holds NaN
is written as its tag and the bytes `7F F8 00 00 00 00 00 00`. -/
theorem marshalField_float64_nan (L index : Nat) (f : Nat) (buf : List Nat) (i : Nat)
    (h : isNaN f = true) :
    marshalField L ⟨index, .float64, false⟩ (.float f) buf i
      = (setBytes buf [index, 0x7f, 0xf8, 0, 0, 0, 0, 0, 0] i).map (fun b => (b, i + 9)) := by
  simp only [marshalField, truthy, h, Bool.not_true, Bool.and_false, if_true]
  cases setBytes buf [index, 0x7f, 0xf8, 0, 0, 0, 0, 0, 0] i <;> rfl

/-- The exception to default omission: a scalar `float32` field that holds NaN
is written as its tag and the bytes `7F C0 00 00`. -/
theorem marshalField_float32_nan (L index : Nat) (f : Nat) (buf : List Nat) (i : Nat)
    (h : isNaN f = true) :
    marshalField L ⟨index, .float32, false⟩ (.float f) buf i
      = (setBytes buf [index, 0x7f, 0xc0, 0, 0] i).map (fun b => (b, i + 5)) := by
  simp only [marshalField, truthy, h, Bool.not_true, Bool.and_false, if_true]
  cases setBytes buf [index, 0x7f, 0xc0, 0, 0] i <;> rfl

/-- The size test of `marshal`: once the fields are written, `marshal` fails
with the size error exactly when the length of the encoding is `colferSizeMax`
or more. -/
theorem marshal_sizeMax_iff (S L : Nat) (fields : List Field) (init : Record)
    (buf : Option (List Nat)) (n : Nat) (hsize : marshalSize S L fields init buf = .ok n) :
    marshal S L fields init buf = .error .sizeMax ↔ S ≤ n := by
  unfold marshalSize at hsize
  unfold marshal
  cases hf : marshalFields L init fields (marshalBuffer S buf) 0 with
  | error e => rw [hf] at hsize; simp at hsize
  | ok r =>
    obtain ⟨b, i⟩ := r
    rw [hf] at hsize
    simp only [Except.ok.injEq] at hsize
    subst hsize
    simp only
    split_ifs with hge
    · simp; omega
    · simp; omega

theorem marshalFields_skip_default (L : Nat) (init : Record) (pre rest : List Field)
    (h : ∀ p ∈ pre, (init.get p.index).isDefault = true) (buf : List Nat) (i : Nat) :
    marshalFields L init (pre ++ rest) buf i = marshalFields L init rest buf i := by
  induction pre with
  | nil => rfl
  | cons p pre ih =>
    rw [List.cons_append, marshalFields, marshalField_default _ _ _ _ _ (h p (by simp))]
    exact ih (fun q hq => h q (by simp [hq]))

/-- A field of a schema splits it into the fields before and after, none of
which has the index of the field. -/
theorem split_of_mem (fields : List Field) (fd : Field) (hvalid : ValidSchema fields)
    (hmem : fd ∈ fields) :
    ∃ pre post, fields = pre ++ fd :: post ∧ (∀ p ∈ pre, p.index ≠ fd.index)
      ∧ (∀ p ∈ post, p.index ≠ fd.index) := by
  obtain ⟨pre, post, rfl⟩ := List.append_of_mem hmem
  refine ⟨pre, post, rfl, ?_, ?_⟩
  · intro p hp heq
    have hnd := hvalid.1
    rw [List.map_append, List.map_cons] at hnd
    exact (List.nodup_append.1 hnd).2.2 (List.mem_map_of_mem _ hp) (by rw [heq]; simp)
  · intro p hp heq
    have hnd := hvalid.1
    rw [List.map_append, List.map_cons] at hnd
    have := (List.nodup_cons.1 (List.nodup_append.1 hnd).2.1).1
    exact this (by rw [← heq]; exact List.mem_map_of_mem _ hp)

/-- The bytes of `marshal` for a record in which one field only is not at its
default: the statements of that field at cursor 0, then the sentinel and the
size test. -/
theorem marshal_one_field (S L : Nat) (fields : List Field) (fd : Field) (init : Record)
    (buf : Option (List Nat)) (hvalid : ValidSchema fields) (hmem : fd ∈ fields)
    (hothers : ∀ p ∈ fields, p.index ≠ fd.index → (init.get p.index).isDefault = true) :
    marshal S L fields init buf =
      match marshalField L fd (init.get fd.index) (marshalBuffer S buf) 0 with
      | .error e => .error e
      | .ok (b, j) => if j + 1 ≥ S then .error .sizeMax else .ok ((store b j 127).take (j + 1)) := by
  obtain ⟨pre, post, rfl, hpre, hpost⟩ := split_of_mem fields fd hvalid hmem
  unfold marshal
  rw [marshalFields_skip_default L init pre _
    (fun p hp => hothers p (by simp [hp]) (hpre p hp)), marshalFields]
  cases hf : marshalField L fd (init.get fd.index) (marshalBuffer S buf) 0 with
  | error e => rfl
  | ok r =>
    obtain ⟨b, j⟩ := r
    simp only [bind, Except.bind]
    rw [marshalFields_default L init post (fun p hp => hothers p (by simp [hp]) (hpost p hp))]

/-- The result of `unmarshal` on an input that holds one frame and the
sentinel: the statements of the frame's field decide. -/
theorem unmarshal_one_frame (S L : Nat) (fields : List Field) (fd : Field) (init0 : Record)
    (data : List Nat) (i : Nat) (init1 : Record)
    (hvalid : ValidSchema fields) (hmem : fd ∈ fields) (hdata : data ≠ [])
    (hacc : fd.accepts data[0]? = true)
    (hstep : unmarshalField S L data fd (.run data[0]? 1 init0) = .ok (.run (some 127) i init1))
    (hsize : i ≤ S) :
    unmarshal S L fields init0 data = .ok (.record init1) := by
  obtain ⟨pre, post, rfl, hpre, hpost⟩ := split_of_mem fields fd hvalid hmem
  have hlen : ¬ data.length = 0 := fun h => hdata (List.length_eq_zero.1 h)
  have hskip : ∀ p ∈ pre, p.accepts data[0]? = false := by
    intro p hp
    by_contra hcon
    have hpa : p.accepts data[0]? = true := by simpa using hcon
    exact hpre p hp (accepts_index p fd _ (hvalid.2 p (by simp [hp])) (hvalid.2 fd hmem) hpa hacc)
  have hpost' : ∀ p ∈ post, p.accepts (some 127) = false :=
    fun p hp => accepts_ne_sentinel p (hvalid.2 p (by simp [hp]))
  unfold unmarshal unmarshalRun
  rw [if_neg hlen, unmarshalFields_skip _ _ _ _ _ _ _ _ hskip, unmarshalFields, hstep]
  simp only [bind, Except.bind]
  rw [unmarshalFields_stuck _ _ _ _ _ _ _ hpost']
  simp only [ne_eq, not_true_eq_false, if_false]
  rw [if_neg (by omega)]

theorem isVarint_cons_cons (b c : Nat) (bs : List Nat) :
    IsVarint (b :: c :: bs) ↔ 128 ≤ b ∧ b < 256 ∧ IsVarint (c :: bs) := by
  rw [IsVarint]

theorem isVarint_single (b : Nat) : IsVarint [b] ↔ b < 128 := by
  rw [IsVarint]

/-- Reading a varint that stands in the input at `i`: from round `k` on. -/
theorem readVarintLoop_isVarint (data : List Nat) (i : Nat) :
    ∀ (bs : List Nat) (k acc : Nat), IsVarint bs → k + bs.length ≤ 8 →
      (∀ j, j < bs.length → data[i + k + j]? = bs[j]?) →
      i + k + bs.length ≤ data.length →
      acc + 128 ^ k * varintValue bs ≤ maxSafeInteger →
      readVarintLoop data i (8 - k) k acc
        = .ok (((acc + 128 ^ k * varintValue bs : Nat) : Int), i + k + bs.length) := by
  intro bs
  induction bs with
  | nil => intro k acc h; simp [IsVarint] at h
  | cons b bs ih =>
    intro k acc hv hlen hdata hfit hmax
    simp only [List.length_cons] at hlen hfit hdata
    obtain ⟨n, hn⟩ : ∃ n, 8 - k = n + 1 := ⟨7 - k, by omega⟩
    have hbyte := hdata 0 (by omega)
    simp only [Nat.add_zero, List.getElem?_cons_zero] at hbyte
    rw [hn]
    unfold readVarintLoop
    simp only [hbyte, Option.getD_some, and_127_eq_mod, Option.any_some]
    cases bs with
    | nil =>
      rw [isVarint_single] at hv
      simp only [varintValue, Nat.mul_zero, Nat.add_zero] at hmax ⊢
      have h1 : decide (b < 128) = true := by simpa using hv
      have hmod : b % 128 = b := Nat.mod_eq_of_lt hv
      rw [hmod] at hmax ⊢
      have hcomm : acc + b * 128 ^ k = acc + 128 ^ k * b := by rw [Nat.mul_comm]
      rw [hcomm]
      simp only [h1, if_true]
      rw [if_neg (by omega)]
      congr 2
    | cons c bs =>
      rw [isVarint_cons_cons] at hv
      obtain ⟨hb1, hb2, hv'⟩ := hv
      have h1 : decide (b < 128) = false := by simp; omega
      simp only [List.length_cons] at hlen hfit hdata
      have hne : ¬ (k + 1 = data.length) := by omega
      simp only [h1, hne, if_false, Bool.false_eq_true]
      have hval : acc + 128 ^ k * varintValue (b :: c :: bs)
          = (acc + b % 128 * 128 ^ k) + 128 ^ (k + 1) * varintValue (c :: bs) := by
        rw [varintValue, Nat.pow_succ]; ring
      have hrec := ih (k + 1) (acc + b % 128 * 128 ^ k) hv' (by simp only [List.length_cons]; omega)
        (by
          intro j hj
          have := hdata (j + 1) (by simp only [List.length_cons] at hj; omega)
          rw [show i + (k + 1) + j = i + k + (j + 1) by omega, this]
          simp)
        (by simp only [List.length_cons]; omega)
        (by rw [← hval]; exact hmax)
      have hn' : n = 8 - (k + 1) := by omega
      rw [hn', hrec, hval]
      simp only [List.length_cons]
      congr 2
      omega

/-- Reading a varint that follows the tag byte of a frame. -/
theorem readVarint_frame (tag : Nat) (bs rest : List Nat) (hv : IsVarint bs)
    (hlen : bs.length ≤ 8) (hmax : varintValue bs ≤ maxSafeInteger) :
    readVarint (tag :: (bs ++ rest)) 1 = .ok ((varintValue bs : Int), 1 + bs.length) := by
  have h := readVarintLoop_isVarint (tag :: (bs ++ rest)) 1 bs 0 0 hv (by omega)
    (by
      intro j hj
      rw [show 1 + 0 + j = j + 1 by omega, List.getElem?_cons_succ,
        List.getElem?_append_left hj])
    (by simp; omega)
    (by simpa using hmax)
  simpa [readVarint] using h

theorem index_lor_ne (k : Nat) (h : k ≤ 126) : ¬ (k ||| 128 = k) := by
  rw [lor_128 _ (by omega)]; omega

theorem getUint32_be32 (tag x : Nat) (rest : List Nat) (hx : x < 4294967296) :
    getUint32 (tag :: (be32 x ++ rest)) 1 = x := by
  simp [getUint32, be32]
  omega

theorem getUint32_be32_be32 (tag x y : Nat) (rest : List Nat) (hy : y < 4294967296) :
    getUint32 (tag :: (be32 x ++ (be32 y ++ rest))) 5 = y := by
  simp [getUint32, be32]
  omega

/-- A frame of tag and varint under the flag-0 tag of a varint field. -/
theorem unmarshal_varint_frame (S L : Nat) (fields : List Field) (fd : Field) (init0 : Record)
    (bs : List Nat) (hvalid : ValidSchema fields) (hmem : fd ∈ fields)
    (ht : fd.type = .uint32 ∨ fd.type = .uint64 ∨ fd.type = .int32 ∨ fd.type = .int64)
    (hv : IsVarint bs) (hlen : bs.length ≤ 8) (hmax : varintValue bs ≤ maxSafeInteger)
    (hsize : bs.length + 2 ≤ S) :
    unmarshal S L fields init0 (fd.index :: (bs ++ [127]))
      = .ok (.record (init0.put fd.index (.number (varintValue bs)))) := by
  have hread := readVarint_frame fd.index bs [127] hv hlen hmax
  apply unmarshal_one_frame S L fields fd init0 _ (bs.length + 2) _ hvalid hmem (by simp)
  · simp [Field.accepts]
  · obtain ⟨index, type, typeList⟩ := fd
    simp only at ht hread ⊢
    have hget : (index :: (bs ++ [127]))[1 + bs.length]? = some 127 := by
      rw [show 1 + bs.length = bs.length + 1 by omega, List.getElem?_cons_succ]
      simp
    rcases ht with rfl | rfl | rfl | rfl <;>
      simp [unmarshalField, hread, bind, Except.bind, readHeader, hget] <;>
      rw [if_neg (by omega), if_neg (by omega),
        show 1 + bs.length + 1 = bs.length + 2 by omega]
  · exact hsize

/-- A frame of tag and varint under the flag-1 tag of a signed field. -/
theorem unmarshal_varint_frame_neg (S L : Nat) (fields : List Field) (fd : Field)
    (init0 : Record) (bs : List Nat) (hvalid : ValidSchema fields) (hmem : fd ∈ fields)
    (ht : fd.type = .int32 ∨ fd.type = .int64)
    (hv : IsVarint bs) (hlen : bs.length ≤ 8) (hmax : varintValue bs ≤ maxSafeInteger)
    (hsize : bs.length + 2 ≤ S) :
    unmarshal S L fields init0 ((fd.index ||| 128) :: (bs ++ [127]))
      = .ok (.record (init0.put fd.index (.number (-1 * (varintValue bs : Int))))) := by
  have hread := readVarint_frame (fd.index ||| 128) bs [127] hv hlen hmax
  have hidx := hvalid.2 fd hmem
  have hne := index_lor_ne fd.index hidx
  apply unmarshal_one_frame S L fields fd init0 _ (bs.length + 2) _ hvalid hmem (by simp)
  · rcases ht with h | h <;> simp [Field.accepts, FieldType.hasFlag, h]
  · obtain ⟨index, type, typeList⟩ := fd
    simp only at ht hread hne ⊢
    have hget : ((index ||| 128) :: (bs ++ [127]))[1 + bs.length]? = some 127 := by
      rw [show 1 + bs.length = bs.length + 1 by omega, List.getElem?_cons_succ]
      simp
    rcases ht with rfl | rfl <;>
      simp [unmarshalField, hread, bind, Except.bind, readHeader, hget, hne] <;>
      rw [if_neg (by omega), if_neg (by omega),
        show 1 + bs.length + 1 = bs.length + 2 by omega]
  · exact hsize

/-- A `uint8` frame. -/
theorem unmarshal_uint8_frame (S L : Nat) (fields : List Field) (fd : Field) (init0 : Record)
    (v : Nat) (hvalid : ValidSchema fields) (hmem : fd ∈ fields) (ht : fd.type = .uint8)
    (hsize : 3 ≤ S) :
    unmarshal S L fields init0 [fd.index, v, 127]
      = .ok (.record (init0.put fd.index (.number v))) := by
  apply unmarshal_one_frame S L fields fd init0 _ 3 _ hvalid hmem (by simp)
  · simp [Field.accepts]
  · obtain ⟨index, type, typeList⟩ := fd
    simp only at ht ⊢
    subst ht
    simp [unmarshalField]
  · exact hsize

/-- The two frames of a `uint16` field. -/
theorem unmarshal_uint16_frames (S L : Nat) (fields : List Field) (fd : Field) (init0 : Record)
    (hi lo : Nat) (hvalid : ValidSchema fields) (hmem : fd ∈ fields) (ht : fd.type = .uint16)
    (hsize : 4 ≤ S) :
    unmarshal S L fields init0 [fd.index, hi, lo, 127]
        = .ok (.record (init0.put fd.index (.number ((hi <<< 8 ||| lo : Nat)))))
      ∧ unmarshal S L fields init0 [fd.index ||| 128, lo, 127]
        = .ok (.record (init0.put fd.index (.number lo))) := by
  have hidx := hvalid.2 fd hmem
  have hne := index_lor_ne fd.index hidx
  constructor
  · apply unmarshal_one_frame S L fields fd init0 _ 4 _ hvalid hmem (by simp)
    · simp [Field.accepts]
    · obtain ⟨index, type, typeList⟩ := fd
      simp only at ht ⊢
      subst ht
      simp [unmarshalField]
    · exact hsize
  · apply unmarshal_one_frame S L fields fd init0 _ 3 _ hvalid hmem (by simp)
    · simp [Field.accepts, FieldType.hasFlag, ht]
    · obtain ⟨index, type, typeList⟩ := fd
      simp only at ht hne ⊢
      subst ht
      simp [unmarshalField, hne]
    · omega

/-- The flag-1 frame of a `uint32` field: four bytes, big-endian. -/
theorem unmarshal_uint32_fixed (S L : Nat) (fields : List Field) (fd : Field) (init0 : Record)
    (v : Nat) (hvalid : ValidSchema fields) (hmem : fd ∈ fields) (ht : fd.type = .uint32)
    (hv : v < 4294967296) (hsize : 6 ≤ S) :
    unmarshal S L fields init0 ((fd.index ||| 128) :: (be32 v ++ [127]))
      = .ok (.record (init0.put fd.index (.number v))) := by
  have hidx := hvalid.2 fd hmem
  have hne := index_lor_ne fd.index hidx
  have hget := getUint32_be32 (fd.index ||| 128) v [127] hv
  apply unmarshal_one_frame S L fields fd init0 _ 6 _ hvalid hmem (by simp)
  · simp [Field.accepts, FieldType.hasFlag, ht]
  · obtain ⟨index, type, typeList⟩ := fd
    simp only at ht hne hget ⊢
    subst ht
    simp only [be32, List.cons_append, List.nil_append] at hget
    simp [unmarshalField, hne, hget, readHeader, be32]
  · exact hsize

/-- The flag-1 frame of a `uint64` field: eight bytes, big-endian. -/
theorem unmarshal_uint64_fixed (S L : Nat) (fields : List Field) (fd : Field) (init0 : Record)
    (v : Nat) (hvalid : ValidSchema fields) (hmem : fd ∈ fields) (ht : fd.type = .uint64)
    (hv : v ≤ maxSafeInteger) (hsize : 10 ≤ S) :
    unmarshal S L fields init0
        ((fd.index ||| 128) :: (be32 (v / 4294967296) ++ (be32 (v % 4294967296) ++ [127])))
      = .ok (.record (init0.put fd.index (.number v))) := by
  have hidx := hvalid.2 fd hmem
  have hne := index_lor_ne fd.index hidx
  have hv' : v < 9007199254740992 := by simp only [maxSafeInteger] at hv; omega
  have hhi := getUint32_be32 (fd.index ||| 128) (v / 4294967296)
    (be32 (v % 4294967296) ++ [127]) (by omega)
  have hlo := getUint32_be32_be32 (fd.index ||| 128) (v / 4294967296) (v % 4294967296) [127]
    (by omega)
  apply unmarshal_one_frame S L fields fd init0 _ 10 _ hvalid hmem (by simp)
  · simp [Field.accepts, FieldType.hasFlag, ht]
  · obtain ⟨index, type, typeList⟩ := fd
    simp only at ht hne hhi hlo ⊢
    subst ht
    have hsum : v / 4294967296 * 4294967296 + v % 4294967296 = v := by omega
    have hle : ¬ (v > maxSafeInteger) := by omega
    simp [unmarshalField, hne, hhi, hlo, readHeader, hsum, hle]
    simp [be32]
  · exact hsize

/-- The bytes of `encodeVarint` are a varint of the value: from round `k` on. -/
theorem varintBytes_isVarint (x : Nat) (hx : x ≤ maxSafeInteger) :
    ∀ (fuel k : Nat), x ≤ 127 * 128 ^ (k + fuel) → (k = 0 ∨ 127 * 128 ^ (k - 1) < x) →
      IsVarint (varintBytes fuel x (128 ^ k))
        ∧ varintValue (varintBytes fuel x (128 ^ k)) = x / 128 ^ k
        ∧ k + (varintBytes fuel x (128 ^ k)).length ≤ 8 := by
  intro fuel
  have hbound : ∀ k, (k = 0 ∨ 127 * 128 ^ (k - 1) < x) → k ≤ 7 := by
    intro k hk
    rcases hk with rfl | hk
    · omega
    · by_contra hcon
      have h8 : 7 ≤ k - 1 := by omega
      have := Nat.pow_le_pow_right (show 0 < 128 by omega) h8
      simp only [maxSafeInteger] at hx
      norm_num at this
      omega
  have hlast : ∀ k, x ≤ 127 * 128 ^ k → x / 128 ^ k ≤ 127 := by
    intro k h
    have hpos : 0 < 128 ^ k := by positivity
    calc x / 128 ^ k ≤ (127 * 128 ^ k) / 128 ^ k := Nat.div_le_div_right h
      _ = 127 := Nat.mul_div_cancel _ hpos
  induction fuel with
  | zero =>
    intro k hfuel hk
    have hk7 := hbound k hk
    have hq := hlast k (by simpa using hfuel)
    simp only [varintBytes, and_127_eq_mod, isVarint_single, varintValue, List.length_singleton]
    generalize x / 128 ^ k = q at hq ⊢
    refine ⟨by omega, by omega, by omega⟩
  | succ fuel ih =>
    intro k hfuel hk
    have hk7 := hbound k hk
    by_cases hgt : x > 127 * 128 ^ k
    · have hvb : varintBytes (fuel + 1) x (128 ^ k)
          = (((x / 128 ^ k) &&& 127) ||| 128) :: varintBytes fuel x (128 ^ (k + 1)) := by
        rw [varintBytes, if_pos hgt, Nat.pow_succ]
      obtain ⟨h1, h2, h3⟩ := ih (k + 1)
        (by rw [show k + 1 + fuel = k + (fuel + 1) by omega]; exact hfuel)
        (Or.inr (by simpa using hgt))
      have hm : x / 128 ^ k % 128 < 128 := Nat.mod_lt _ (by omega)
      rw [hvb, and_127_eq_mod, lor_128 _ hm]
      have hdiv : x / 128 ^ (k + 1) = x / 128 ^ k / 128 := by
        rw [Nat.pow_succ, Nat.div_div_eq_div_mul]
      refine ⟨?_, ?_, ?_⟩
      · cases hrest : varintBytes fuel x (128 ^ (k + 1)) with
        | nil =>
          have := length_varintBytes_pos fuel x (128 ^ (k + 1))
          rw [hrest] at this; simp at this
        | cons c cs =>
          rw [isVarint_cons_cons]
          rw [hrest] at h1
          exact ⟨by omega, by omega, h1⟩
      · rw [varintValue, h2, hdiv]
        generalize x / 128 ^ k = q
        omega
      · simp only [List.length_cons]; omega
    · have hvb : varintBytes (fuel + 1) x (128 ^ k) = [(x / 128 ^ k) &&& 127] := by
        rw [varintBytes, if_neg hgt]
      have hq := hlast k (by omega)
      rw [hvb]
      simp only [and_127_eq_mod, isVarint_single, varintValue, List.length_singleton]
      generalize x / 128 ^ k = q at hq ⊢
      refine ⟨by omega, by omega, by omega⟩

/-- The bytes that `encodeVarint` writes for `x ≤ 2^53 - 1` are a varint of at
most 8 bytes with the value `x`. -/
theorem varintBytes_spec (x : Nat) (hx : x ≤ maxSafeInteger) :
    IsVarint (varintBytes x x 1) ∧ varintValue (varintBytes x x 1) = x
      ∧ (varintBytes x x 1).length ≤ 8 := by
  have h := varintBytes_isVarint x hx x 0 (by simpa using le_fuel x) (Or.inl rfl)
  simpa using h

theorem writeAt_append (l1 l2 : List Nat) : ∀ (buf : List Nat) (i : Nat),
    writeAt buf i (l1 ++ l2) = writeAt (writeAt buf i l1) (i + l1.length) l2 := by
  induction l1 with
  | nil => intro buf i; rfl
  | cons b l1 ih =>
    intro buf i
    show writeAt (buf.set i b) (i + 1) (l1 ++ l2) = writeAt (writeAt (buf.set i b) (i + 1) l1) _ l2
    rw [ih, List.length_cons, show i + 1 + l1.length = i + (l1.length + 1) by omega]

theorem take_set_self (buf : List Nat) (i b : Nat) : (buf.set i b).take i = buf.take i := by
  induction buf generalizing i with
  | nil => simp
  | cons a buf ih =>
    cases i with
    | zero => simp
    | succ i => simp [ih]

theorem take_writeAt (l : List Nat) : ∀ (buf : List Nat) (i : Nat),
    i + l.length ≤ buf.length → (writeAt buf i l).take (i + l.length) = buf.take i ++ l := by
  induction l with
  | nil => intro buf i _; simp [writeAt]
  | cons b l ih =>
    intro buf i h
    simp only [List.length_cons] at h
    simp only [writeAt, List.length_cons]
    rw [show i + (l.length + 1) = i + 1 + l.length by omega, ih _ _ (by simp; omega)]
    rw [List.take_succ, List.getElem?_set_self (by omega), take_set_self]
    simp

theorem store_eq_writeAt (buf : List Nat) (i v : Nat) : store buf i v = writeAt buf i [v % 256] :=
  rfl

theorem put32_eq_writeAt (buf : List Nat) (i x : Nat) : put32 buf i x = writeAt buf i (be32 x) :=
  rfl

theorem encodeVarint_eq_writeAt (buf : List Nat) (i x : Nat) :
    encodeVarint buf i x = (writeAt buf i (varintBytes x x 1), i + (varintBytes x x 1).length) :=
  encodeVarintLoop_eq_writeAt _ _ _ _ _

/-- The slice `marshal` returns when the field statements have written a frame
at cursor 0. -/
theorem take_store_writeAt (B frame : List Nat) (h : frame.length + 1 ≤ B.length) :
    (store (writeAt B 0 frame) frame.length 127).take (frame.length + 1) = frame ++ [127] := by
  have h1 : store (writeAt B 0 frame) frame.length 127 = writeAt B 0 (frame ++ [127]) := by
    rw [writeAt_append, store_eq_writeAt, Nat.zero_add]
  rw [h1]
  have := take_writeAt (frame ++ [127]) B 0 (by simp; omega)
  simpa using this

theorem length_be32 (x : Nat) : (be32 x).length = 4 := rfl

theorem mod_256_of_index (k : Nat) (h : k ≤ 126) : k % 256 = k ∧ (k ||| 128) % 256 = k ||| 128 := by
  rw [lor_128 _ (by omega)]; omega

theorem setUint32_ne_listMax (buf : List Nat) (i : Nat) (x : Int) :
    setUint32 buf i x ≠ .error .listMax := by
  unfold setUint32; split_ifs <;> simp

theorem setBytes_ne_listMax (buf src : List Nat) (i : Nat) :
    setBytes buf src i ≠ .error .listMax := by
  unfold setBytes; split_ifs <;> simp

theorem setFloat32_ne_listMax (buf : List Nat) (i f : Nat) :
    setFloat32 buf i f ≠ .error .listMax := by
  unfold setFloat32; split_ifs <;> simp

theorem setFloat64_ne_listMax (buf : List Nat) (i f : Nat) :
    setFloat64 buf i f ≠ .error .listMax := by
  unfold setFloat64; split_ifs <;> simp

/-- A bind fails with an error that neither its first part nor its second part
fails with. -/
theorem bind_ne_error {ε α β : Type} {x : Except ε α} {f : α → Except ε β} {e : ε}
    (hx : x ≠ .error e) (hf : ∀ a, f a ≠ .error e) : x >>= f ≠ .error e := by
  cases x with
  | error e' => simpa [bind, Except.bind] using hx
  | ok a => exact hf a

theorem marshalFloat32s_ne_listMax (a : List Nat) : ∀ (buf : List Nat) (i : Nat),
    marshalFloat32s a buf i ≠ .error .listMax := by
  induction a with
  | nil => intro buf i; simp [marshalFloat32s]
  | cons f a ih =>
    intro buf i
    unfold marshalFloat32s
    split_ifs
    · simp
    · exact bind_ne_error (setFloat32_ne_listMax _ _ _) (fun _ => ih _ _)

theorem marshalFloat64s_ne_listMax (a : List Nat) : ∀ (buf : List Nat) (i : Nat),
    marshalFloat64s a buf i ≠ .error .listMax := by
  induction a with
  | nil => intro buf i; simp [marshalFloat64s]
  | cons f a ih =>
    intro buf i
    unfold marshalFloat64s
    exact bind_ne_error (setFloat64_ne_listMax _ _ _) (fun _ => ih _ _)

theorem marshalText_ne_listMax (s buf : List Nat) (i : Nat) :
    marshalText s buf i ≠ .error .listMax := by
  unfold marshalText
  split
  · simp
  · exact bind_ne_error (setBytes_ne_listMax _ _ _) (fun _ => by simp)

theorem marshalTexts_ne_listMax (a : List (Option (List Nat))) : ∀ (buf : List Nat) (i : Nat),
    marshalTexts a buf i ≠ .error .listMax := by
  induction a with
  | nil => intro buf i; simp [marshalTexts]
  | cons s a ih =>
    intro buf i
    unfold marshalTexts
    exact bind_ne_error (marshalText_ne_listMax _ _ _) (fun _ => ih _ _)

theorem marshalBinary_ne_listMax (s buf : List Nat) (i : Nat) :
    marshalBinary s buf i ≠ .error .listMax := by
  unfold marshalBinary
  exact bind_ne_error (setBytes_ne_listMax _ _ _) (fun _ => by simp)

theorem marshalBinaries_ne_listMax (a : List (Option (List Nat))) : ∀ (buf : List Nat) (i : Nat),
    marshalBinaries a buf i ≠ .error .listMax := by
  induction a with
  | nil => intro buf i; simp [marshalBinaries]
  | cons s a ih =>
    intro buf i
    unfold marshalBinaries
    exact bind_ne_error (marshalBinary_ne_listMax _ _ _) (fun _ => ih _ _)

theorem marshalStruct_ne_listMax (o : StructObj) (buf : List Nat) (i : Nat)
    (ho : o.marshal ≠ .error .listMax) : marshalStruct o buf i ≠ .error .listMax := by
  unfold marshalStruct
  exact bind_ne_error ho
    (fun _ => bind_ne_error (setBytes_ne_listMax _ _ _) (fun _ => by simp))

theorem marshalStructs_ne_listMax (a : List (Option StructObj))
    (ha : a.any (fun o => o.any (fun o => o.marshal = .error .listMax)) = false) :
    ∀ (buf : List Nat) (i : Nat), marshalStructs a buf i ≠ .error .listMax := by
  induction a with
  | nil => intro buf i; simp [marshalStructs]
  | cons s a ih =>
    intro buf i
    simp only [List.any_cons, Bool.or_eq_false_iff] at ha
    cases s with
    | none => simp [marshalStructs]
    | some v =>
      have hv : v.marshal ≠ .error .listMax := by simpa using ha.1
      unfold marshalStructs
      exact bind_ne_error (marshalStruct_ne_listMax _ _ _ hv) (fun _ => ih ha.2 _ _)

theorem marshalTimestamp_ne_listMax (index : Nat) (ms ns : Int) (buf : List Nat) (i : Nat) :
    marshalTimestamp index ms ns buf i ≠ .error .listMax := by
  have tail : ∀ (b : List Nat) (j k : Nat) (x : Int),
      (setUint32 b j x >>= fun buf => (Except.ok (buf, k) : Except MarshalError (List Nat × Nat)))
        ≠ .error .listMax :=
    fun _ _ _ _ => bind_ne_error (setUint32_ne_listMax _ _ _) (fun _ => by simp)
  have long : ∀ (b : List Nat) (j k : Nat) (x y z : Int),
      (setUint32 b j x >>= fun buf => setUint32 buf (j + 4) y >>= fun buf =>
        setUint32 buf (j + 8) z >>= fun buf =>
          (Except.ok (buf, k) : Except MarshalError (List Nat × Nat))) ≠ .error .listMax :=
    fun _ _ _ _ _ _ => bind_ne_error (setUint32_ne_listMax _ _ _)
      (fun _ => bind_ne_error (setUint32_ne_listMax _ _ _) (fun _ => tail _ _ _ _))
  have neg : ∀ (b : List Nat) (j k : Nat) (x y z : Int),
      (setUint32 b j x >>= fun buf => setUint32 buf (j + 4) y >>= fun buf =>
        (Except.ok (negate64 buf j) : Except MarshalError (List Nat)) >>= fun buf =>
        setUint32 buf (j + 8) z >>= fun buf =>
          (Except.ok (buf, k) : Except MarshalError (List Nat × Nat))) ≠ .error .listMax :=
    fun _ _ _ _ _ _ => bind_ne_error (setUint32_ne_listMax _ _ _)
      (fun _ => bind_ne_error (setUint32_ne_listMax _ _ _)
        (fun _ => bind_ne_error (by simp) (fun _ => tail _ _ _ _)))
  have short : ∀ (b : List Nat) (j k : Nat) (x y : Int),
      (setUint32 b j x >>= fun buf => setUint32 buf (j + 4) y >>= fun buf =>
          (Except.ok (buf, k) : Except MarshalError (List Nat × Nat))) ≠ .error .listMax :=
    fun _ _ _ _ _ => bind_ne_error (setUint32_ne_listMax _ _ _) (fun _ => tail _ _ _ _)
  unfold marshalTimestamp
  simp only
  split_ifs
  · simp
  · exact long _ _ _ _ _ _
  · exact neg _ _ _ _ _ _
  · exact short _ _ _ _ _
  · exact long _ _ _ _ _ _
  · exact neg _ _ _ _ _ _
  · exact short _ _ _ _ _

theorem listMax_iff_none (L : Nat) (X : Except MarshalError (List Nat × Nat))
    (h : X ≠ .error .listMax) :
    X = .error .listMax ↔ ∃ n, (none : Option Nat) = some n ∧ L < n := by
  simp [h]

theorem listMax_iff_some (L n : Nat) (X : Except MarshalError (List Nat × Nat))
    (r : List Nat × Nat) (h : X ≠ .error .listMax) :
    (if n ≠ 0 then if n > L then .error .listMax else X else .ok r) = .error .listMax
      ↔ ∃ m, some n = some m ∧ L < m := by
  by_cases h0 : n = 0
  · simp [h0]
  · by_cases hL : n > L
    · simp [h0, hL]
    · have hL' : n ≤ L := by omega
      simp [h0, hL, h, hL']

set_option maxHeartbeats 4000000 in
/-- The statements of a field stop with the list error exactly when the field
is a list field whose list has more than `colferListMax` elements, nested
objects that fail with that error apart. -/
theorem marshalField_listMax_iff (L : Nat) (fd : Field) (v : Value) (buf : List Nat) (i : Nat)
    (hn : fd.nestedListMax v = false) :
    marshalField L fd v buf i = .error .listMax ↔ ∃ n, fd.listLength v = some n ∧ L < n := by
  obtain ⟨index, type, typeList⟩ := fd
  cases type <;> cases typeList <;> cases v <;>
    simp only [marshalField, Field.listLength, Field.nestedListMax] at hn ⊢ <;>
    first
    | (simp; done)
    | (split_ifs <;> simp <;> done)
    | skip
  case mk.bool.false.bool b => cases b <;> simp
  case mk.bool.true.bool b => cases b <;> simp
  case mk.uint32.false.number x =>
    apply listMax_iff_none
    split_ifs <;> first | (simp; done) | exact bind_ne_error (setUint32_ne_listMax _ _ _) (fun _ => by simp)
  case mk.uint32.true.number x =>
    apply listMax_iff_none
    split_ifs <;> first | (simp; done) | exact bind_ne_error (setUint32_ne_listMax _ _ _) (fun _ => by simp)
  case mk.uint64.false.number x =>
    apply listMax_iff_none
    split_ifs <;> first
      | (simp; done)
      | exact bind_ne_error (setUint32_ne_listMax _ _ _)
          (fun _ => bind_ne_error (setUint32_ne_listMax _ _ _) (fun _ => by simp))
  case mk.uint64.true.number x =>
    apply listMax_iff_none
    split_ifs <;> first
      | (simp; done)
      | exact bind_ne_error (setUint32_ne_listMax _ _ _)
          (fun _ => bind_ne_error (setUint32_ne_listMax _ _ _) (fun _ => by simp))
  case mk.float32.false.float f =>
    apply listMax_iff_none
    split_ifs <;> first
      | (simp; done)
      | exact bind_ne_error (setFloat32_ne_listMax _ _ _) (fun _ => by simp)
      | exact bind_ne_error (setBytes_ne_listMax _ _ _) (fun _ => by simp)
  case mk.float64.false.float f =>
    apply listMax_iff_none
    split_ifs <;> first
      | (simp; done)
      | exact bind_ne_error (setFloat64_ne_listMax _ _ _) (fun _ => by simp)
      | exact bind_ne_error (setBytes_ne_listMax _ _ _) (fun _ => by simp)
  case mk.float32.true.floats a =>
    exact listMax_iff_some _ _ _ _ (marshalFloat32s_ne_listMax _ _ _)
  case mk.float64.true.floats a =>
    exact listMax_iff_some _ _ _ _ (marshalFloat64s_ne_listMax _ _ _)
  case mk.text.true.texts a =>
    exact listMax_iff_some _ _ _ _ (marshalTexts_ne_listMax _ _ _)
  case mk.binary.true.binaries a =>
    exact listMax_iff_some _ _ _ _ (marshalBinaries_ne_listMax _ _ _)
  case mk.struct.true.structs a =>
    exact listMax_iff_some _ _ _ _ (marshalStructs_ne_listMax _ hn _ _)
  case mk.text.false.text s =>
    apply listMax_iff_none
    split_ifs <;> first | (simp; done) | exact marshalText_ne_listMax _ _ _
  case mk.binary.false.binary s =>
    apply listMax_iff_none
    split_ifs <;> first | (simp; done) | exact marshalBinary_ne_listMax _ _ _
  case mk.struct.false.struct o =>
    apply listMax_iff_none
    exact marshalStruct_ne_listMax _ _ _ (by simpa using hn)
  case mk.timestamp.false.timestamp date ns =>
    apply listMax_iff_none
    split_ifs <;> first | (simp; done) | exact marshalTimestamp_ne_listMax _ _ _ _ _
  case mk.timestamp.true.timestamp date ns =>
    apply listMax_iff_none
    split_ifs <;> first | (simp; done) | exact marshalTimestamp_ne_listMax _ _ _ _ _

theorem range_eight : List.range 8 = [0, 1, 2, 3, 4, 5, 6, 7] := rfl

theorem xor_255 (a : Nat) : (a % 256) ^^^ 255 = 255 - a % 256 := by
  have h : ∀ b, b < 256 → b ^^^ 255 = 255 - b := by
    intro b hb
    interval_cases b <;> rfl
  exact h _ (Nat.mod_lt _ (by decide))

theorem and_255 (a : Nat) : a &&& 255 = a % 256 :=
  Nat.and_pow_two_sub_one_eq_mod a 8

theorem shiftRight_8 (a : Nat) : a >>> 8 = a / 256 :=
  Nat.shiftRight_eq_div_pow a 8

set_option maxHeartbeats 1000000 in
/-- The loop of `negate64` on the eight bytes of `x` leaves the eight bytes of
`2^64 - x`, the two's complement. -/
theorem negate64_be64 (x : Nat) (hx : x < 18446744073709551616) (post : List Nat) :
    negate64 (be64 x ++ post) 0
      = be64 ((18446744073709551616 - x) % 18446744073709551616) ++ post := by
  simp only [be64, be32, List.cons_append, List.nil_append]
  simp only [negate64, range_eight, List.foldl_cons, List.foldl_nil, store, Nat.zero_add,
      Nat.reduceSub, List.getD_cons_succ, List.getD_cons_zero, List.set_cons_succ,
      List.set_cons_zero, Nat.sub_zero]
  simp only [xor_255, and_255, shiftRight_8, List.cons.injEq, and_true]
  refine ⟨?_, ?_, ?_, ?_, ?_, ?_, ?_, ?_⟩ <;> omega

theorem and_128 (a : Nat) : (a % 256) &&& 128 = if 128 ≤ a % 256 then 128 else 0 := by
  have h : ∀ b, b < 256 → b &&& 128 = if 128 ≤ b then 128 else 0 := by
    intro b hb
    interval_cases b <;> rfl
  exact h _ (Nat.mod_lt _ (by decide))

theorem drop_set_of_lt (buf : List Nat) (i j b : Nat) (h : i < j) :
    (buf.set i b).drop j = buf.drop j := by
  induction buf generalizing i j with
  | nil => simp
  | cons a buf ih =>
    cases j with
    | zero => omega
    | succ j =>
      cases i with
      | zero => simp
      | succ i => simpa using ih i j (by omega)

/-- Consecutive stores overwrite a window of the buffer. -/
theorem writeAt_eq_append (l : List Nat) : ∀ (buf : List Nat) (i : Nat),
    i + l.length ≤ buf.length → writeAt buf i l = buf.take i ++ (l ++ buf.drop (i + l.length)) := by
  induction l with
  | nil => intro buf i _; simp [writeAt]
  | cons b l ih =>
    intro buf i h
    simp only [List.length_cons] at h
    simp only [writeAt, List.length_cons]
    rw [ih _ _ (by simp; omega), List.take_succ, List.getElem?_set_self (by omega), take_set_self,
      drop_set_of_lt _ _ _ _ (by omega), show i + 1 + l.length = i + (l.length + 1) by omega]
    simp

/-- The loop of `negate64` at cursor `pre.length` works on the bytes behind `pre`. -/
theorem negate64_fold_append (pre : List Nat) (ks : List Nat) :
    ∀ (l : List Nat) (c : Nat), (∀ k ∈ ks, k ≤ 7) →
      ks.foldl (fun (st : List Nat × Nat) k =>
          let b := (st.1.getD (pre.length + 7 - k) 0 ^^^ 255) + st.2
          (store st.1 (pre.length + 7 - k) (b &&& 255), b >>> 8)) (pre ++ l, c)
        = (pre ++ (ks.foldl (fun (st : List Nat × Nat) k =>
            let b := (st.1.getD (0 + 7 - k) 0 ^^^ 255) + st.2
            (store st.1 (0 + 7 - k) (b &&& 255), b >>> 8)) (l, c)).1,
          (ks.foldl (fun (st : List Nat × Nat) k =>
            let b := (st.1.getD (0 + 7 - k) 0 ^^^ 255) + st.2
            (store st.1 (0 + 7 - k) (b &&& 255), b >>> 8)) (l, c)).2) := by
  induction ks with
  | nil => intro l c _; rfl
  | cons k ks ih =>
    intro l c hk
    have hk7 : k ≤ 7 := hk k (by simp)
    simp only [List.foldl_cons]
    have e1 : pre.length + 7 - k = pre.length + (7 - k) := by omega
    have e2 : (pre ++ l).getD (pre.length + (7 - k)) 0 = l.getD (7 - k) 0 := by
      simp [List.getD_eq_getElem?_getD, List.getElem?_append_right]
    have e3 : ∀ v, store (pre ++ l) (pre.length + (7 - k)) v = pre ++ store l (7 - k) v := by
      intro v
      simp [store, List.set_append_right]
    rw [e1, e2, e3, Nat.zero_add]
    exact ih _ _ (fun q hq => hk q (by simp [hq]))

theorem negate64_append (pre l : List Nat) :
    negate64 (pre ++ l) pre.length = pre ++ negate64 l 0 := by
  unfold negate64
  rw [negate64_fold_append pre (List.range 8) l 1 (by rw [range_eight]; decide)]

/-- The loop of `negate64` on the eight bytes of `x` written at `j`. -/
theorem negate64_writeAt (buf : List Nat) (j x : Nat) (hx : x < 18446744073709551616)
    (hfit : j + 8 ≤ buf.length) :
    negate64 (writeAt buf j (be64 x)) j
      = writeAt buf j (be64 ((18446744073709551616 - x) % 18446744073709551616)) := by
  have hlen : ∀ y, (be64 y).length = 8 := fun _ => rfl
  rw [writeAt_eq_append _ _ _ (by rw [hlen]; exact hfit),
    writeAt_eq_append _ _ _ (by rw [hlen]; exact hfit), hlen, hlen]
  have hpre : (buf.take j).length = j := by simp; omega
  have h := negate64_append (buf.take j) (be64 x ++ buf.drop (j + 8))
  rw [hpre] at h
  rw [h, negate64_be64 x hx]

theorem setUint32_eq_writeAt (buf : List Nat) (j : Nat) (x : Int) (h : j + 4 ≤ buf.length) :
    setUint32 buf j x = .ok (writeAt buf j (be32 (toUint32 x))) := by
  unfold setUint32
  rw [if_neg (by omega)]
  rfl

theorem tdiv_tmod_nonneg (a : Int) (h : 0 ≤ a) :
    a.tdiv 1000 = a / 1000 ∧ a.tmod 1000 = a % 1000
      ∧ a.tdiv (1000 * 4294967296) = a / 4294967296000 := by
  refine ⟨Int.tdiv_eq_ediv h (by decide), Int.tmod_eq_emod h (by decide), ?_⟩
  rw [Int.tdiv_eq_ediv h (by decide)]
  rfl

theorem tmod_nonpos (a : Int) (h : a ≤ 0) : a.tmod 1000 = a + 1000 * ((-a) / 1000) := by
  have h1 := Int.tmod_add_tdiv a 1000
  have h2 : a.tdiv 1000 = -((-a) / 1000) := by
    rw [← Int.tdiv_eq_ediv (by omega) (by decide), Int.neg_tdiv, neg_neg]
  rw [h2] at h1
  omega

theorem length_timestampFrame_le (index : Nat) (ms n : Int) :
    (timestampFrame index ms n).length ≤ 13 := by
  unfold timestampFrame
  simp only
  split_ifs <;> simp [be64, be32]

/-- The stores of the 12-byte form for seconds `x ≥ 0`. -/
theorem extended_writes (index : Nat) (buf : List Nat) (i x : Nat) (hi lo nsv : Int)
    (hidx : index ≤ 126) (hfit : i + 13 ≤ buf.length)
    (hhi : toUint32 hi = x / 4294967296) (hlo : toUint32 lo = x % 4294967296) :
    (setUint32 (store buf i (index ||| 128)) (i + 1) hi >>= fun b =>
      setUint32 b (i + 1 + 4) lo >>= fun y =>
      setUint32 y (i + 1 + 8) nsv >>= fun b =>
        (Except.ok (b, i + 1 + 12) : Except MarshalError (List Nat × Nat)))
      = .ok (writeAt buf i ((index ||| 128) :: (be64 x ++ be32 (toUint32 nsv))), i + 13) := by
  obtain ⟨_, h256f⟩ := mod_256_of_index index hidx
  rw [setUint32_eq_writeAt _ _ _ (by rw [length_store]; omega)]
  simp only [bind, Except.bind]
  rw [setUint32_eq_writeAt _ _ _ (by rw [length_writeAt, length_store]; omega)]
  simp only [bind, Except.bind]
  rw [setUint32_eq_writeAt _ _ _ (by rw [length_writeAt, length_writeAt, length_store]; omega)]
  rw [hhi, hlo, be64]
  rw [show (index ||| 128) :: ((be32 (x / 4294967296) ++ be32 (x % 4294967296))
        ++ be32 (toUint32 nsv))
      = (([index ||| 128] ++ be32 (x / 4294967296)) ++ be32 (x % 4294967296))
        ++ be32 (toUint32 nsv) by rfl,
    writeAt_append, writeAt_append, writeAt_append]
  simp [writeAt, store, h256f, length_be32]

/-- The stores of the 12-byte form for seconds `-x < 0`: the bytes of `x`,
then the loop that negates them. -/
theorem extended_writes_neg (index : Nat) (buf : List Nat) (i x : Nat) (hi lo nsv : Int)
    (hidx : index ≤ 126) (hfit : i + 13 ≤ buf.length) (hx : x < 18446744073709551616)
    (hhi : toUint32 hi = x / 4294967296) (hlo : toUint32 lo = x % 4294967296) :
    (setUint32 (store buf i (index ||| 128)) (i + 1) hi >>= fun b =>
      setUint32 b (i + 1 + 4) lo >>= fun b =>
      (Except.ok (negate64 b (i + 1)) : Except MarshalError (List Nat)) >>= fun y =>
      setUint32 y (i + 1 + 8) nsv >>= fun b =>
        (Except.ok (b, i + 1 + 12) : Except MarshalError (List Nat × Nat)))
      = .ok (writeAt buf i ((index ||| 128)
          :: (be64 ((18446744073709551616 - x) % 18446744073709551616)
            ++ be32 (toUint32 nsv))), i + 13) := by
  obtain ⟨_, h256f⟩ := mod_256_of_index index hidx
  rw [setUint32_eq_writeAt _ _ _ (by rw [length_store]; omega)]
  simp only [bind, Except.bind]
  rw [setUint32_eq_writeAt _ _ _ (by rw [length_writeAt, length_store]; omega)]
  simp only [bind, Except.bind]
  rw [hhi, hlo]
  have hjoin : writeAt (writeAt (store buf i (index ||| 128)) (i + 1) (be32 (x / 4294967296)))
      (i + 1 + 4) (be32 (x % 4294967296))
      = writeAt (store buf i (index ||| 128)) (i + 1) (be64 x) :=
    (writeAt_append (be32 (x / 4294967296)) (be32 (x % 4294967296)) _ (i + 1)).symm
  rw [hjoin, negate64_writeAt _ _ _ hx (by rw [length_store]; omega)]
  rw [setUint32_eq_writeAt _ _ _ (by rw [length_writeAt, length_store]; omega)]
  rw [show (index ||| 128) :: (be64 ((18446744073709551616 - x) % 18446744073709551616)
        ++ be32 (toUint32 nsv))
      = ([index ||| 128] ++ be64 ((18446744073709551616 - x) % 18446744073709551616))
        ++ be32 (toUint32 nsv) by rfl,
    writeAt_append, writeAt_append]
  have hlen : ∀ y, (be64 y).length = 8 := fun _ => rfl
  simp [writeAt, store, h256f, hlen]

/-- The timestamp branch of `marshal` writes the frame `timestampFrame` at the cursor. -/
theorem marshalTimestamp_frame (index : Nat) (ms n : Int) (buf : List Nat) (i : Nat)
    (hidx : index ≤ 126) (hms : -8640000000000000 ≤ ms ∧ ms ≤ 8640000000000000)
    (hn : 0 ≤ n ∧ n < 1000000) (hfit : i + 13 ≤ buf.length) :
    marshalTimestamp index ms n buf i
      = .ok (writeAt buf i (timestampFrame index ms n),
          i + (timestampFrame index ms n).length) := by
  obtain ⟨h256, h256f⟩ := mod_256_of_index index hidx
  unfold marshalTimestamp
  rw [if_neg (by omega)]
  by_cases h0 : 0 ≤ ms
  · obtain ⟨e1, e2, e3⟩ := tdiv_tmod_nonneg ms h0
    have hb : decide (ms < 0 ∧ ms.tmod 1000 ≠ 0) = false := by
      rw [decide_eq_false_iff_not]; omega
    simp only [hb, Bool.false_eq_true, if_false]
    have hnanos : toUint32 (n + ms % 1000 * 1000000)
        = ((ms - 1000 * (ms / 1000)) * 1000000 + n).toNat := by
      unfold toUint32; omega
    by_cases h1 : ms ≤ 4294967295000
    · rw [if_neg (by omega), e1, e2]
      rw [setUint32_eq_writeAt _ _ _ (by rw [length_store]; omega)]
      simp only [bind, Except.bind]
      rw [setUint32_eq_writeAt _ _ _ (by rw [length_writeAt, length_store]; omega)]
      have hs : toUint32 (ms / 1000) = (ms / 1000).toNat := by unfold toUint32; omega
      simp only [timestampFrame]
      rw [if_pos ⟨h0, h1⟩, hs, hnanos]
      rw [show index :: (be32 (ms / 1000).toNat
          ++ be32 ((ms - 1000 * (ms / 1000)) * 1000000 + n).toNat)
        = ([index] ++ be32 (ms / 1000).toNat)
          ++ be32 ((ms - 1000 * (ms / 1000)) * 1000000 + n).toNat by rfl,
        writeAt_append, writeAt_append]
      simp [writeAt, store, h256, length_be32]
    · rw [if_pos (Or.inl (by omega)), if_pos (by omega), e1, e2, e3]
      rw [extended_writes index buf i (ms / 1000).toNat _ _ _ hidx hfit
        (by unfold toUint32; omega) (by unfold toUint32; omega)]
      simp only [timestampFrame]
      rw [if_neg (by omega), hnanos,
        show (ms / 1000 % 18446744073709551616).toNat = (ms / 1000).toNat by omega]
      rfl
  · have hneg : ms < 0 := by omega
    have e2 := tmod_nonpos ms (by omega)
    by_cases hb : ms.tmod 1000 = 0
    · have hb' : decide (ms < 0 ∧ ms.tmod 1000 ≠ 0) = false := by
        rw [decide_eq_false_iff_not]; intro h; exact h.2 hb
      simp only [hb', Bool.false_eq_true, if_false]
      rw [if_pos (Or.inr (by omega)), if_neg (by omega)]
      obtain ⟨f1, f2, f3⟩ := tdiv_tmod_nonneg (-ms) (by omega)
      rw [f1, f3]
      rw [extended_writes_neg index buf i (-ms / 1000).toNat _ _ _ hidx hfit (by omega)
        (by unfold toUint32; omega) (by unfold toUint32; omega)]
      simp only [timestampFrame]
      rw [if_neg (by omega),
        show toUint32 (n + ms.tmod 1000 * 1000000)
          = ((ms - 1000 * (ms / 1000)) * 1000000 + n).toNat by unfold toUint32; omega,
        show (18446744073709551616 - (-ms / 1000).toNat) % 18446744073709551616
          = (ms / 1000 % 18446744073709551616).toNat by omega]
      rfl
    · have hb' : decide (ms < 0 ∧ ms.tmod 1000 ≠ 0) = true := by
        rw [decide_eq_true_iff]; exact ⟨hneg, hb⟩
      simp only [hb', if_true]
      rw [if_pos (Or.inr (by omega)), if_neg (by omega)]
      obtain ⟨f1, f2, f3⟩ := tdiv_tmod_nonneg (-(ms - 1000)) (by omega)
      rw [f1, f3]
      clear f1 f2 f3
      have hne : ms + 1000 * (-ms / 1000) ≠ 0 := by rw [← e2]; exact hb
      have hfloor : ms / 1000 = -(-ms / 1000) - 1 := by omega
      have hx : -(ms - 1000) / 1000 = -ms / 1000 + 1 := by omega
      rw [e2, hx]
      rw [extended_writes_neg index buf i (-ms / 1000 + 1).toNat _ _ _ hidx hfit (by omega)
        (by unfold toUint32; omega) (by unfold toUint32; omega)]
      simp only [timestampFrame]
      rw [if_neg (by omega), hfloor,
        show toUint32 (n + (1000 + (ms + 1000 * (-ms / 1000))) * 1000000)
          = ((ms - 1000 * (-(-ms / 1000) - 1)) * 1000000 + n).toNat by unfold toUint32; omega,
        show (18446744073709551616 - (-ms / 1000 + 1).toNat) % 18446744073709551616
          = ((-(-ms / 1000) - 1) % 18446744073709551616).toNat by omega]
      rfl

/-- The compact frame of a timestamp field, read by `unmarshal`. -/
theorem unmarshal_timestamp_compact (S L : Nat) (fields : List Field) (fd : Field)
    (init0 : Record) (sec nn : Nat) (hvalid : ValidSchema fields) (hmem : fd ∈ fields)
    (ht : fd.type = .timestamp) (hsec : sec < 4294967296) (hnn : nn < 4294967296)
    (hsize : 10 ≤ S) :
    unmarshal S L fields init0 (fd.index :: (be32 sec ++ (be32 nn ++ [0x7F])))
      = .ok (.record (init0.put fd.index
          (.timestamp (some ((sec : Int) * 1000 + (nn : Int) / 1000000))
            ((nn : Int) % 1000000)))) := by
  have hget1 := getUint32_be32 fd.index sec (be32 nn ++ [0x7F]) hsec
  have hget5 := getUint32_be32_be32 fd.index sec nn [0x7F] hnn
  apply unmarshal_one_frame S L fields fd init0 _ 10 _ hvalid hmem (by simp)
  · simp [Field.accepts]
  · obtain ⟨index, type, typeList⟩ := fd
    simp only at ht hget1 hget5 ⊢
    subst ht
    simp only [be32, List.cons_append, List.nil_append] at hget1 hget5
    simp [unmarshalField, hget1, hget5, readHeader, be32]
  · exact hsize

/-- Bitwise or is addition when the set bits do not meet. -/
theorem mul_lor (i p a b : Nat) (hp : p = 2 ^ i) (hb : b < p) : p * a ||| b = p * a + b := by
  subst hp
  exact (Nat.mul_add_lt_is_or hb a).symm

theorem lor_mul (i p a b : Nat) (hp : p = 2 ^ i) (hb : b < p) : b ||| p * a = p * a + b := by
  rw [Nat.or_comm]
  exact mul_lor i p a b hp hb

theorem and_63 (x : Nat) : x &&& 63 = x % 64 :=
  Nat.and_pow_two_sub_one_eq_mod x 6

theorem and_1023 (x : Nat) : x &&& 1023 = x % 1024 :=
  Nat.and_pow_two_sub_one_eq_mod x 10

theorem shiftRight_6 (x : Nat) : x >>> 6 = x / 64 :=
  Nat.shiftRight_eq_div_pow x 6

theorem shiftRight_10 (x : Nat) : x >>> 10 = x / 1024 :=
  Nat.shiftRight_eq_div_pow x 10

theorem shiftRight_12 (x : Nat) : x >>> 12 = x / 4096 :=
  Nat.shiftRight_eq_div_pow x 12

theorem shiftRight_18 (x : Nat) : x >>> 18 = x / 262144 :=
  Nat.shiftRight_eq_div_pow x 18

theorem shiftLeft_6 (x : Nat) : x <<< 6 = 64 * x := by
  rw [Nat.shiftLeft_eq]; omega

theorem shiftLeft_10 (x : Nat) : x <<< 10 = 1024 * x := by
  rw [Nat.shiftLeft_eq]; omega

theorem shiftLeft_12 (x : Nat) : x <<< 12 = 4096 * x := by
  rw [Nat.shiftLeft_eq]; omega

theorem shiftLeft_18 (x : Nat) : x <<< 18 = 262144 * x := by
  rw [Nat.shiftLeft_eq]; omega

/-- A continuation byte as `encodeUTF8` writes it. -/
theorem continuation_byte (x : Nat) : x &&& 63 ||| 128 = 128 + x % 64 := by
  rw [and_63]
  exact lor_mul 6 64 2 (x % 64) (by norm_num) (Nat.mod_lt _ (by decide))

theorem lead2_byte (c : Nat) (h : c < 2048) : c >>> 6 ||| 192 = 192 + c / 64 := by
  rw [shiftRight_6]
  exact lor_mul 5 32 6 (c / 64) (by norm_num) (by omega)

theorem lead3_byte (c : Nat) (h : c < 65536) : c >>> 12 ||| 224 = 224 + c / 4096 := by
  rw [shiftRight_12]
  exact lor_mul 4 16 14 (c / 4096) (by norm_num) (by omega)

theorem lead4_byte (c : Nat) (h : c < 2097152) : c >>> 18 ||| 240 = 240 + c / 262144 := by
  rw [shiftRight_18]
  exact lor_mul 3 8 30 (c / 262144) (by norm_num) (by omega)

/-- The code point `encodeUTF8` computes from a surrogate pair. -/
theorem pair_code_point (c c2 : Nat) (hc : 0xD800 ≤ c ∧ c < 0xDC00)
    (hc2 : 0xDC00 ≤ c2 ∧ c2 < 0xE000) :
    0x10000 + ((c &&& 0x03ff) <<< 10) + (c2 &&& 0x03ff)
      = 0x10000 + (c - 0xD800) * 0x400 + (c2 - 0xDC00) := by
  rw [and_1023, and_1023, shiftLeft_10]
  omega

theorem lead2_bits (q : Nat) (h : q < 32) : (192 + q) &&& 31 = q := by
  revert q; decide

theorem lead3_bits (q : Nat) (h : q < 16) : (224 + q) &&& 15 = q := by
  revert q; decide

theorem lead4_bits (q : Nat) (h : q < 8) : (240 + q) &&& 7 = q := by
  revert q; decide

theorem continuation_bits (r : Nat) : (128 + r % 64) &&& 63 = r % 64 := by
  rw [and_63]; omega

theorem decode2 (q r : Nat) : (q <<< 6) ||| (r % 64) = q * 64 + r % 64 := by
  rw [shiftLeft_6, mul_lor 6 64 q _ (by norm_num) (Nat.mod_lt _ (by decide))]
  omega

theorem decode3 (q r1 r2 : Nat) :
    (q <<< 12) ||| ((r1 % 64) <<< 6) ||| (r2 % 64) = q * 4096 + r1 % 64 * 64 + r2 % 64 := by
  rw [shiftLeft_12, shiftLeft_6, mul_lor 12 4096 q _ (by norm_num) (by omega),
    show 4096 * q + 64 * (r1 % 64) = 64 * (64 * q + r1 % 64) by omega,
    mul_lor 6 64 _ _ (by norm_num) (Nat.mod_lt _ (by decide))]
  omega

theorem decode4 (q r1 r2 r3 : Nat) :
    (q <<< 18) ||| ((r1 % 64) <<< 12) ||| ((r2 % 64) <<< 6) ||| (r3 % 64)
      = q * 262144 + r1 % 64 * 4096 + r2 % 64 * 64 + r3 % 64 := by
  rw [shiftLeft_18, shiftLeft_12, shiftLeft_6, mul_lor 18 262144 q _ (by norm_num) (by omega),
    show 262144 * q + 4096 * (r1 % 64) = 4096 * (64 * q + r1 % 64) by omega,
    mul_lor 12 4096 _ _ (by norm_num) (by omega),
    show 4096 * (64 * q + r1 % 64) + 64 * (r2 % 64)
      = 64 * (64 * (64 * q + r1 % 64) + r2 % 64) by omega,
    mul_lor 6 64 _ _ (by norm_num) (Nat.mod_lt _ (by decide))]
  omega

/-- The two surrogates `decodeUTF8` makes of a code point above `0xFFFF`. -/
theorem surrogates_of_code_point (c c2 : Nat) (hc : 0xD800 ≤ c ∧ c < 0xDC00)
    (hc2 : 0xDC00 ≤ c2 ∧ c2 < 0xE000) :
    (0x10000 + (c - 0xD800) * 0x400 + (c2 - 0xDC00) - 0x10000) >>> 10 ||| 0xd800 = c
      ∧ (0x10000 + (c - 0xD800) * 0x400 + (c2 - 0xDC00) - 0x10000) &&& 0x3FF ||| 0xdc00 = c2 := by
  rw [shiftRight_10, and_1023]
  constructor
  · rw [lor_mul 10 1024 54 _ (by norm_num) (by omega)]
    omega
  · rw [lor_mul 10 1024 55 _ (by norm_num) (by omega)]
    omega

theorem store_of_lt (bytes : List Nat) (i v : Nat) (h : v < 256) :
    store bytes i v = bytes.set i v := by
  unfold store
  rw [Nat.mod_eq_of_lt h]

/-- A round of the loop of `encodeUTF8` at a code unit that is no surrogate. -/
theorem encodeUTF8Body_unit (s : List Nat) (ci i : Nat) (bytes : List Nat) (c : Nat)
    (hs : s[ci]? = some c) (hc : c < 0xD800 ∨ (0xE000 ≤ c ∧ c < 0x10000)) :
    encodeUTF8Body s ci i bytes
      = (ci + 1, i + (utf8OfCodePoint c).length, writeAt bytes i (utf8OfCodePoint c)) := by
  unfold encodeUTF8Body utf8OfCodePoint
  rw [hs]
  simp only
  by_cases h1 : c < 128
  · rw [if_pos h1, if_pos (by omega), store_of_lt _ _ _ (by omega)]
    rfl
  · by_cases h2 : c < 2048
    · rw [if_neg h1, if_pos h2, if_neg (by omega), if_pos (by omega), lead2_byte c h2,
        continuation_byte, store_of_lt _ _ _ (by omega), store_of_lt _ _ _ (by omega)]
      rfl
    · rw [if_neg h1, if_neg h2, if_neg (by omega), if_neg (by omega), if_neg (by omega),
        if_pos (by omega), lead3_byte c (by omega), continuation_byte, shiftRight_6,
        continuation_byte, store_of_lt _ _ _ (by omega), store_of_lt _ _ _ (by omega),
        store_of_lt _ _ _ (by omega)]
      rfl

/-- A round of the loop of `encodeUTF8` at a surrogate pair. -/
theorem encodeUTF8Body_pair (s : List Nat) (ci i : Nat) (bytes : List Nat) (c c2 : Nat)
    (hs : s[ci]? = some c) (hs2 : s[ci + 1]? = some c2) (hc : 0xD800 ≤ c ∧ c < 0xDC00)
    (hc2 : 0xDC00 ≤ c2 ∧ c2 < 0xE000) :
    encodeUTF8Body s ci i bytes
      = (ci + 1 + 1, i + 4,
          writeAt bytes i (utf8OfCodePoint (0x10000 + (c - 0xD800) * 0x400 + (c2 - 0xDC00)))) := by
  have hlen : ci + 1 < s.length := by
    by_contra h
    rw [List.getElem?_eq_none (by omega)] at hs2
    exact absurd hs2 (by simp)
  unfold encodeUTF8Body utf8OfCodePoint
  rw [hs]
  simp only
  rw [if_neg (by omega), if_neg (by omega), if_pos (by omega), if_neg (by omega), hs2]
  simp only [Option.any_some, Option.getD_some]
  rw [if_neg (by simp; omega), pair_code_point c c2 hc hc2]
  rw [if_neg (by omega), if_neg (by omega), if_neg (by omega),
    lead4_byte _ (by omega), continuation_byte, shiftRight_12, continuation_byte, shiftRight_6,
    continuation_byte, store_of_lt _ _ _ (by omega), store_of_lt _ _ _ (by omega),
    store_of_lt _ _ _ (by omega), store_of_lt _ _ _ (by omega)]
  rfl

theorem length_utf8OfCodePoint (c : Nat) :
    (utf8OfCodePoint c).length
      = if c < 0x80 then 1 else if c < 0x800 then 2 else if c < 0x10000 then 3 else 4 := by
  unfold utf8OfCodePoint
  split_ifs <;> rfl

theorem wellPaired_unit (c : Nat) (tl : List Nat) (hc : ¬ (0xD800 ≤ c ∧ c < 0xDC00)) :
    WellPaired (c :: tl) ↔ (c < 0xD800 ∨ (0xE000 ≤ c ∧ c < 0x10000)) ∧ WellPaired tl := by
  rw [WellPaired.eq_def]
  simp only
  rw [if_neg hc]

theorem wellPaired_pair (c c2 : Nat) (rest : List Nat) (hc : 0xD800 ≤ c ∧ c < 0xDC00) :
    WellPaired (c :: c2 :: rest) ↔ (0xDC00 ≤ c2 ∧ c2 < 0xE000) ∧ WellPaired rest := by
  rw [WellPaired.eq_def]
  simp only
  rw [if_pos hc]

theorem utf8Encode_unit (c : Nat) (tl : List Nat) (hc : ¬ (0xD800 ≤ c ∧ c < 0xDC00)) :
    utf8Encode (c :: tl) = utf8OfCodePoint c ++ utf8Encode tl := by
  cases tl <;> simp only [utf8Encode] <;> rw [if_neg hc]

theorem utf8Encode_pair (c c2 : Nat) (rest : List Nat) (hc : 0xD800 ≤ c ∧ c < 0xDC00) :
    utf8Encode (c :: c2 :: rest)
      = utf8OfCodePoint (0x10000 + (c - 0xD800) * 0x400 + (c2 - 0xDC00)) ++ utf8Encode rest := by
  simp only [utf8Encode]
  rw [if_pos hc]

/-- The loop of `encodeUTF8` from a position before which the string is
encoded: the bytes written so far, then the encoding of the rest. -/
theorem encodeUTF8Loop_wellPaired (s : List Nat) : ∀ (n : Nat) (pre rest : List Nat)
    (fuel i : Nat) (bytes : List Nat), rest.length ≤ n → s = pre ++ rest → WellPaired rest →
    rest.length < fuel → bytes.length = 4 * s.length → i ≤ 3 * pre.length →
    encodeUTF8Loop s fuel pre.length i bytes = some (bytes.take i ++ utf8Encode rest) := by
  intro n
  induction n with
  | zero =>
    intro pre rest fuel i bytes hlen hs _ hfuel _ _
    have hrest : rest = [] := List.length_eq_zero.1 (by omega)
    subst hrest
    obtain ⟨f, rfl⟩ : ∃ f, fuel = f + 1 := ⟨fuel - 1, by omega⟩
    rw [encodeUTF8Loop, if_pos (by rw [hs]; simp)]
    simp [utf8Encode]
  | succ m ih =>
    intro pre rest fuel i bytes hlen hs hwp hfuel hbytes hi
    obtain ⟨f, rfl⟩ : ∃ f, fuel = f + 1 := ⟨fuel - 1, by omega⟩
    cases rest with
    | nil =>
      rw [encodeUTF8Loop, if_pos (by rw [hs]; simp)]
      simp [utf8Encode]
    | cons c tl =>
      have hslen : s.length = pre.length + (tl.length + 1) := by rw [hs]; simp
      have hget : s[pre.length]? = some c := by
        rw [hs, List.getElem?_append_right (Nat.le_refl _)]
        simp
      rw [encodeUTF8Loop, if_neg (by omega)]
      simp only
      by_cases hc : 0xD800 ≤ c ∧ c < 0xDC00
      · cases tl with
        | nil =>
          rw [WellPaired.eq_def] at hwp
          simp only at hwp
          rw [if_pos hc] at hwp
          exact hwp.elim
        | cons c2 rest =>
          have hwp' : (0xDC00 ≤ c2 ∧ c2 < 0xE000) ∧ WellPaired rest :=
            (wellPaired_pair c c2 rest hc).1 hwp
          have hget2 : s[pre.length + 1]? = some c2 := by
            rw [hs, List.getElem?_append_right (by omega)]
            simp
          simp only [List.length_cons] at hlen hfuel hslen
          rw [encodeUTF8Body_pair s pre.length i bytes c c2 hget hget2 hc hwp'.1]
          have hlen4 : (utf8OfCodePoint (0x10000 + (c - 0xD800) * 0x400 + (c2 - 0xDC00))).length
              = 4 := by
            rw [length_utf8OfCodePoint, if_neg (by omega), if_neg (by omega), if_neg (by omega)]
          have h := ih (pre ++ [c, c2]) rest f (i + 4)
            (writeAt bytes i (utf8OfCodePoint (0x10000 + (c - 0xD800) * 0x400 + (c2 - 0xDC00))))
            (by omega) (by rw [hs]; simp) hwp'.2 (by omega) (by rw [length_writeAt]; exact hbytes)
            (by simp; omega)
          rw [show (pre ++ [c, c2]).length = pre.length + 1 + 1 by simp] at h
          rw [h]
          have ht := take_writeAt
            (utf8OfCodePoint (0x10000 + (c - 0xD800) * 0x400 + (c2 - 0xDC00))) bytes i
            (by omega)
          rw [hlen4] at ht
          rw [ht, utf8Encode_pair c c2 rest hc, List.append_assoc]
      · have hwp' : (c < 0xD800 ∨ (0xE000 ≤ c ∧ c < 0x10000)) ∧ WellPaired tl :=
          (wellPaired_unit c tl hc).1 hwp
        simp only [List.length_cons] at hlen hfuel
        rw [encodeUTF8Body_unit s pre.length i bytes c hget hwp'.1]
        have hlen3 : (utf8OfCodePoint c).length ≤ 3 := by
          rw [length_utf8OfCodePoint]
          split_ifs <;> omega
        have h := ih (pre ++ [c]) tl f (i + (utf8OfCodePoint c).length)
          (writeAt bytes i (utf8OfCodePoint c))
          (by omega) (by rw [hs]; simp) hwp'.2 (by omega) (by rw [length_writeAt]; exact hbytes)
          (by simp; omega)
        rw [show (pre ++ [c]).length = pre.length + 1 by simp] at h
        rw [h, take_writeAt _ _ _ (by omega), utf8Encode_unit c tl hc, List.append_assoc]

/-- Function `encodeUTF8` returns the UTF-8 encoding of a string without
unpaired surrogates. -/
theorem encodeUTF8_wellPaired (s : List Nat) (h : WellPaired s) :
    encodeUTF8 s = some (utf8Encode s) := by
  have := encodeUTF8Loop_wellPaired s s.length [] s (s.length + 1) 0
    (List.replicate (s.length * 4) 0) (by omega) rfl h (by omega) (by simp; omega) (by simp)
  simpa [encodeUTF8, encodeUTF8Fuel] using this

theorem getD_append_add (bpre l : List Nat) (k : Nat) :
    (bpre ++ l).getD (bpre.length + k) 0 = l.getD k 0 := by
  simp [List.getD_eq_getElem?_getD, List.getElem?_append_right]

/-- A round of the loop of `decodeUTF8` at a byte below 128. -/
theorem decodeUTF8Loop_one (bytes : List Nat) (f i : Nat) (acc : List Nat) (c : Nat)
    (hi : i < bytes.length) (h0 : bytes.getD i 0 = c) (hc : c < 128) :
    decodeUTF8Loop bytes (f + 1) i acc = decodeUTF8Loop bytes f (i + 1) (acc ++ [c]) := by
  rw [decodeUTF8Loop, if_pos hi]
  simp only [h0]
  rw [if_neg (by omega), if_pos (by omega)]

/-- A round of the loop of `decodeUTF8` at a sequence of two bytes. -/
theorem decodeUTF8Loop_two (bytes : List Nat) (f i : Nat) (acc : List Nat) (q r : Nat)
    (hi : i + 1 < bytes.length) (h0 : bytes.getD i 0 = 192 + q) (hq : q < 32)
    (h1 : bytes.getD (i + 1) 0 = 128 + r % 64) :
    decodeUTF8Loop bytes (f + 1) i acc
      = decodeUTF8Loop bytes f (i + 1 + 1) (acc ++ [q * 64 + r % 64]) := by
  rw [decodeUTF8Loop, if_pos (by omega)]
  simp only [h0, h1]
  rw [if_pos (by omega), if_pos (by omega), if_neg (by omega), lead2_bits q hq,
    continuation_bits, decode2]
  simp only
  rw [if_pos (by omega)]

/-- A round of the loop of `decodeUTF8` at a sequence of three bytes. -/
theorem decodeUTF8Loop_three (bytes : List Nat) (f i : Nat) (acc : List Nat) (q r1 r2 : Nat)
    (hi : i + 2 < bytes.length) (h0 : bytes.getD i 0 = 224 + q) (hq : q < 16)
    (h1 : bytes.getD (i + 1) 0 = 128 + r1 % 64)
    (h2 : bytes.getD (i + 1 + 1) 0 = 128 + r2 % 64) :
    decodeUTF8Loop bytes (f + 1) i acc
      = decodeUTF8Loop bytes f (i + 1 + 2) (acc ++ [q * 4096 + r1 % 64 * 64 + r2 % 64]) := by
  rw [decodeUTF8Loop, if_pos (by omega)]
  simp only [h0, h1, h2]
  rw [if_pos (by omega), if_neg (by omega), if_pos (by omega), if_neg (by omega),
    lead3_bits q hq, continuation_bits, continuation_bits, decode3]
  simp only
  rw [if_pos (by omega)]

/-- A round of the loop of `decodeUTF8` at a sequence of four bytes for a
code point from `0x10000` to `0x10FFFF`. -/
theorem decodeUTF8Loop_four (bytes : List Nat) (f i : Nat) (acc : List Nat) (q r1 r2 r3 : Nat)
    (hi : i + 3 < bytes.length) (h0 : bytes.getD i 0 = 240 + q) (hq : q < 8)
    (h1 : bytes.getD (i + 1) 0 = 128 + r1 % 64)
    (h2 : bytes.getD (i + 1 + 1) 0 = 128 + r2 % 64)
    (h3 : bytes.getD (i + 1 + 2) 0 = 128 + r3 % 64)
    (hlo : 0xffff < q * 262144 + r1 % 64 * 4096 + r2 % 64 * 64 + r3 % 64)
    (hhi : q * 262144 + r1 % 64 * 4096 + r2 % 64 * 64 + r3 % 64 ≤ 0x10ffff) :
    decodeUTF8Loop bytes (f + 1) i acc
      = decodeUTF8Loop bytes f (i + 1 + 3)
          (acc ++ [(q * 262144 + r1 % 64 * 4096 + r2 % 64 * 64 + r3 % 64 - 0x10000) >>> 10
              ||| 0xd800,
            (q * 262144 + r1 % 64 * 4096 + r2 % 64 * 64 + r3 % 64 - 0x10000) &&& 0x3FF
              ||| 0xdc00]) := by
  rw [decodeUTF8Loop, if_pos (by omega)]
  simp only [h0, h1, h2, h3]
  rw [if_pos (by omega), if_neg (by omega), if_neg (by omega), if_pos (by omega),
    if_neg (by omega), lead4_bits q hq, continuation_bits, continuation_bits,
    continuation_bits, decode4]
  simp only
  rw [if_neg (by omega), if_neg (by omega)]

/-- A round of the loop of `decodeUTF8` at the encoding of a code unit that is
no surrogate. -/
theorem decodeUTF8Loop_unit (bpre tail : List Nat) (c f : Nat) (acc : List Nat)
    (hc : c < 0xD800 ∨ (0xE000 ≤ c ∧ c < 0x10000)) :
    decodeUTF8Loop (bpre ++ (utf8OfCodePoint c ++ tail)) (f + 1) bpre.length acc
      = decodeUTF8Loop (bpre ++ (utf8OfCodePoint c ++ tail)) f
          (bpre.length + (utf8OfCodePoint c).length) (acc ++ [c]) := by
  have g0 : ∀ l : List Nat, (bpre ++ l).getD bpre.length 0 = l.getD 0 0 :=
    fun l => getD_append_add bpre l 0
  have g1 : ∀ l : List Nat, (bpre ++ l).getD (bpre.length + 1) 0 = l.getD 1 0 :=
    fun l => getD_append_add bpre l 1
  have g2 : ∀ l : List Nat, (bpre ++ l).getD (bpre.length + 1 + 1) 0 = l.getD 2 0 :=
    fun l => getD_append_add bpre l 2
  unfold utf8OfCodePoint
  by_cases h1 : c < 0x80
  · rw [if_pos h1]
    exact decodeUTF8Loop_one _ f bpre.length acc c (by simp) (by rw [g0]; rfl) h1
  · by_cases h2 : c < 0x800
    · rw [if_neg h1, if_pos h2]
      have h := decodeUTF8Loop_two (bpre ++ ([0xC0 + c / 64, 0x80 + c % 64] ++ tail)) f
        bpre.length acc (c / 64) c (by simp) (by rw [g0]; rfl) (by omega) (by rw [g1]; rfl)
      rw [show c / 64 * 64 + c % 64 = c by omega] at h
      exact h
    · rw [if_neg h1, if_neg h2, if_pos (by omega)]
      have h := decodeUTF8Loop_three
        (bpre ++ ([0xE0 + c / 4096, 0x80 + c / 64 % 64, 0x80 + c % 64] ++ tail)) f
        bpre.length acc (c / 4096) (c / 64) c (by simp) (by rw [g0]; rfl) (by omega)
        (by rw [g1]; rfl) (by rw [g2]; rfl)
      rw [show c / 4096 * 4096 + c / 64 % 64 * 64 + c % 64 = c by omega] at h
      exact h

/-- A round of the loop of `decodeUTF8` at the four bytes of a code point from
`0x10000` to `0x10FFFF`. -/
theorem decodeUTF8Loop_supplementary (bpre tail : List Nat) (cp f : Nat) (acc : List Nat)
    (hcp1 : 0x10000 ≤ cp) (hcp2 : cp ≤ 0x10ffff) :
    decodeUTF8Loop
        (bpre ++ ([0xF0 + cp / 262144, 0x80 + cp / 4096 % 64, 0x80 + cp / 64 % 64,
          0x80 + cp % 64] ++ tail)) (f + 1) bpre.length acc
      = decodeUTF8Loop
          (bpre ++ ([0xF0 + cp / 262144, 0x80 + cp / 4096 % 64, 0x80 + cp / 64 % 64,
            0x80 + cp % 64] ++ tail)) f (bpre.length + 4)
          (acc ++ [(cp - 0x10000) >>> 10 ||| 0xd800, (cp - 0x10000) &&& 0x3FF ||| 0xdc00]) := by
  have g0 : ∀ l : List Nat, (bpre ++ l).getD bpre.length 0 = l.getD 0 0 :=
    fun l => getD_append_add bpre l 0
  have g1 : ∀ l : List Nat, (bpre ++ l).getD (bpre.length + 1) 0 = l.getD 1 0 :=
    fun l => getD_append_add bpre l 1
  have g2 : ∀ l : List Nat, (bpre ++ l).getD (bpre.length + 1 + 1) 0 = l.getD 2 0 :=
    fun l => getD_append_add bpre l 2
  have g3 : ∀ l : List Nat, (bpre ++ l).getD (bpre.length + 1 + 2) 0 = l.getD 3 0 :=
    fun l => getD_append_add bpre l 3
  have hsum : cp / 262144 * 262144 + cp / 4096 % 64 * 4096 + cp / 64 % 64 * 64 + cp % 64
      = cp := by
    omega
  have h := decodeUTF8Loop_four
    (bpre ++ ([0xF0 + cp / 262144, 0x80 + cp / 4096 % 64, 0x80 + cp / 64 % 64, 0x80 + cp % 64]
      ++ tail)) f bpre.length acc (cp / 262144) (cp / 4096) (cp / 64) cp (by simp)
    (by rw [g0]; rfl) (by omega) (by rw [g1]; rfl) (by rw [g2]; rfl) (by rw [g3]; rfl)
    (by omega) (by omega)
  rw [hsum] at h
  exact h

/-- A round of the loop of `decodeUTF8` at the encoding of a surrogate pair. -/
theorem decodeUTF8Loop_pair (bpre tail : List Nat) (c c2 f : Nat) (acc : List Nat)
    (hc : 0xD800 ≤ c ∧ c < 0xDC00) (hc2 : 0xDC00 ≤ c2 ∧ c2 < 0xE000) :
    decodeUTF8Loop
        (bpre ++ (utf8OfCodePoint (0x10000 + (c - 0xD800) * 0x400 + (c2 - 0xDC00)) ++ tail))
        (f + 1) bpre.length acc
      = decodeUTF8Loop
          (bpre ++ (utf8OfCodePoint (0x10000 + (c - 0xD800) * 0x400 + (c2 - 0xDC00)) ++ tail))
          f (bpre.length + 4) (acc ++ [c, c2]) := by
  have hs := surrogates_of_code_point c c2 hc hc2
  have h := decodeUTF8Loop_supplementary bpre tail
    (0x10000 + (c - 0xD800) * 0x400 + (c2 - 0xDC00)) f acc (by omega) (by omega)
  rw [hs.1, hs.2] at h
  have hu : utf8OfCodePoint (0x10000 + (c - 0xD800) * 0x400 + (c2 - 0xDC00))
      = [0xF0 + (0x10000 + (c - 0xD800) * 0x400 + (c2 - 0xDC00)) / 262144,
          0x80 + (0x10000 + (c - 0xD800) * 0x400 + (c2 - 0xDC00)) / 4096 % 64,
          0x80 + (0x10000 + (c - 0xD800) * 0x400 + (c2 - 0xDC00)) / 64 % 64,
          0x80 + (0x10000 + (c - 0xD800) * 0x400 + (c2 - 0xDC00)) % 64] := by
    unfold utf8OfCodePoint
    rw [if_neg (by omega), if_neg (by omega), if_neg (by omega)]
  rw [hu]
  exact h

/-- The loop of `decodeUTF8` from a position at which the encoding of a string
without unpaired surrogates starts: the string is appended to the result. -/
theorem decodeUTF8Loop_utf8Encode : ∀ (n : Nat) (rest bpre : List Nat) (fuel : Nat)
    (acc : List Nat), rest.length ≤ n → WellPaired rest → (utf8Encode rest).length ≤ fuel →
    decodeUTF8Loop (bpre ++ utf8Encode rest) fuel bpre.length acc = acc ++ rest := by
  intro n
  induction n with
  | zero =>
    intro rest bpre fuel acc hlen _ _
    have hrest : rest = [] := List.length_eq_zero.1 (by omega)
    subst hrest
    cases fuel with
    | zero => simp [decodeUTF8Loop]
    | succ f => rw [decodeUTF8Loop, if_neg (by simp [utf8Encode])]; simp
  | succ m ih =>
    intro rest bpre fuel acc hlen hwp hfuel
    cases rest with
    | nil =>
      cases fuel with
      | zero => simp [decodeUTF8Loop]
      | succ f => rw [decodeUTF8Loop, if_neg (by simp [utf8Encode])]; simp
    | cons c tl =>
      by_cases hc : 0xD800 ≤ c ∧ c < 0xDC00
      · cases tl with
        | nil =>
          rw [WellPaired.eq_def] at hwp
          simp only at hwp
          rw [if_pos hc] at hwp
          exact hwp.elim
        | cons c2 rest =>
          have hwp' := (wellPaired_pair c c2 rest hc).1 hwp
          have hlen4 : (utf8OfCodePoint (0x10000 + (c - 0xD800) * 0x400 + (c2 - 0xDC00))).length
              = 4 := by
            rw [length_utf8OfCodePoint, if_neg (by omega), if_neg (by omega), if_neg (by omega)]
          rw [utf8Encode_pair c c2 rest hc] at hfuel ⊢
          rw [List.length_append, hlen4] at hfuel
          obtain ⟨f, rfl⟩ : ∃ f, fuel = f + 1 := ⟨fuel - 1, by omega⟩
          rw [decodeUTF8Loop_pair bpre _ c c2 f acc hc hwp'.1]
          simp only [List.length_cons] at hlen
          have h := ih rest
            (bpre ++ utf8OfCodePoint (0x10000 + (c - 0xD800) * 0x400 + (c2 - 0xDC00))) f
            (acc ++ [c, c2]) (by omega) hwp'.2 (by omega)
          rw [List.length_append, hlen4, List.append_assoc, List.append_assoc] at h
          rw [h]
          simp
      · have hwp' := (wellPaired_unit c tl hc).1 hwp
        have hpos : 0 < (utf8OfCodePoint c).length := by
          rw [length_utf8OfCodePoint]
          split_ifs <;> omega
        rw [utf8Encode_unit c tl hc] at hfuel ⊢
        rw [List.length_append] at hfuel
        obtain ⟨f, rfl⟩ : ∃ f, fuel = f + 1 := ⟨fuel - 1, by omega⟩
        rw [decodeUTF8Loop_unit bpre _ c f acc hwp'.1]
        simp only [List.length_cons] at hlen
        have h := ih tl (bpre ++ utf8OfCodePoint c) f (acc ++ [c]) (by omega) hwp'.2 (by omega)
        rw [List.length_append, List.append_assoc, List.append_assoc] at h
        rw [h]
        simp

/-- Function `decodeUTF8` returns a string without unpaired surrogates from its
UTF-8 encoding. -/
theorem decodeUTF8_utf8Encode (s : List Nat) (h : WellPaired s) :
    decodeUTF8 (utf8Encode s) = s := by
  have := decodeUTF8Loop_utf8Encode s.length s [] (utf8Encode s).length [] (Nat.le_refl _) h
    (Nat.le_refl _)
  simpa [decodeUTF8] using this

/-- A round of the loop of `encodeUTF8` stays within the string unless it
stands at a high surrogate that is the last code unit. -/
theorem encodeUTF8Body_le (s : List Nat) (ci i : Nat) (bytes : List Nat) (hci : ci < s.length)
    (hlast : ∀ c, s[ci]? = some c → ci + 1 = s.length → ¬ (0xD800 ≤ c ∧ c < 0xDC00)) :
    (encodeUTF8Body s ci i bytes).1 ≤ s.length := by
  unfold encodeUTF8Body
  split
  · rename_i hnone
    rw [List.getElem?_eq_none_iff] at hnone
    omega
  · rename_i c hc
    simp only
    split_ifs with h1 h2 h3 h4 h5
    · omega
    · omega
    · exact absurd (⟨by omega, h3.2⟩ : 0xD800 ≤ c ∧ c < 0xDC00) (hlast c hc (by omega))
    · simp only; omega
    · simp only; omega
    · omega

/-- The loop of `encodeUTF8` ends on a string whose last code unit is no high
surrogate. -/
theorem encodeUTF8Loop_some (s : List Nat)
    (hlast : ∀ c, s.getLast? = some c → ¬ (0xD800 ≤ c ∧ c < 0xDC00)) :
    ∀ (fuel ci i : Nat) (bytes : List Nat), ci ≤ s.length → s.length - ci < fuel →
      ∃ out, encodeUTF8Loop s fuel ci i bytes = some out := by
  intro fuel
  induction fuel with
  | zero => intro ci i bytes _ h; omega
  | succ fuel ih =>
    intro ci i bytes hle hfuel
    rw [encodeUTF8Loop]
    by_cases heq : ci = s.length
    · rw [if_pos heq]
      exact ⟨_, rfl⟩
    · rw [if_neg heq]
      have hlt := encodeUTF8Body_lt s ci i bytes
      have hle' := encodeUTF8Body_le s ci i bytes (by omega) (by
        intro c hc hend
        apply hlast c
        rw [List.getLast?_eq_getElem?, ← hc]
        congr 1
        omega)
      exact ih _ _ _ hle' (by omega)

/-- A round of the loop of `encodeUTF8` before a trailing high surrogate does
not step over it. -/
theorem encodeUTF8Body_before_last (pre : List Nat) (h ci i : Nat) (bytes : List Nat)
    (hh : 0xD800 ≤ h ∧ h < 0xDC00) (hci : ci < pre.length) :
    (encodeUTF8Body (pre ++ [h]) ci i bytes).1 ≤ pre.length := by
  unfold encodeUTF8Body
  split
  · rename_i hnone
    rw [List.getElem?_eq_none_iff] at hnone
    simp at hnone
    omega
  · rename_i c hc
    simp only
    split_ifs with h1 h2 h3 h4 h5
    · omega
    · omega
    · simp at h4; omega
    · simp only; omega
    · simp only
      by_cases hend : ci + 1 = pre.length
      · exfalso
        apply h5
        rw [hend, List.getElem?_append_right (Nat.le_refl _)]
        simp
        omega
      · omega
    · omega

/-- A round of the loop of `encodeUTF8` at a trailing high surrogate steps over
the end of the string. -/
theorem encodeUTF8Body_at_last (pre : List Nat) (h i : Nat) (bytes : List Nat)
    (hh : 0xD800 ≤ h ∧ h < 0xDC00) :
    (encodeUTF8Body (pre ++ [h]) pre.length i bytes).1 = pre.length + 2 := by
  unfold encodeUTF8Body
  rw [List.getElem?_append_right (Nat.le_refl _)]
  simp only [Nat.sub_self, List.getElem?_cons_zero]
  rw [if_neg (by omega), if_neg (by omega), if_pos (by omega), if_pos (by simp)]

/-- The loop of `encodeUTF8` never ends on a string whose last code unit is a
high surrogate. -/
theorem encodeUTF8Loop_trailing_high (pre : List Nat) (h : Nat)
    (hh : 0xD800 ≤ h ∧ h < 0xDC00) :
    ∀ (fuel ci i : Nat) (bytes : List Nat), ci ≤ pre.length →
      encodeUTF8Loop (pre ++ [h]) fuel ci i bytes = none := by
  intro fuel
  induction fuel with
  | zero => intros; rfl
  | succ fuel ih =>
    intro ci i bytes hci
    rw [encodeUTF8Loop, if_neg (by simp; omega)]
    by_cases hend : ci = pre.length
    · subst hend
      exact encodeUTF8Loop_none_of_gt _ _ _ _ _
        (by rw [encodeUTF8Body_at_last pre h i bytes hh]; simp)
    · exact ih _ _ _ (encodeUTF8Body_before_last pre h ci i bytes hh (by omega))

/-- The statements of the fields stop with an error exactly when those of some
field do, after those of all fields before it have run through. -/
theorem marshalFields_error_iff (L : Nat) (init : Record) (e : MarshalError)
    (fields : List Field) : ∀ (B : List Nat) (i0 : Nat),
    marshalFields L init fields B i0 = .error e ↔
      ∃ pre fd post b i, fields = pre ++ fd :: post
        ∧ marshalFields L init pre B i0 = .ok (b, i)
        ∧ marshalField L fd (init.get fd.index) b i = .error e := by
  induction fields with
  | nil =>
    intro B i0
    simp [marshalFields]
  | cons f fs ih =>
    intro B i0
    rw [marshalFields]
    cases hf : marshalField L f (init.get f.index) B i0 with
    | error e' =>
      simp only [bind, Except.bind]
      constructor
      · intro h
        exact ⟨[], f, fs, B, i0, rfl, rfl, by rw [hf]; exact h⟩
      · rintro ⟨pre, fd, post, b, i, hsplit, hpre, hfd⟩
        cases pre with
        | nil =>
          simp only [List.nil_append, List.cons.injEq] at hsplit
          obtain ⟨rfl, _⟩ := hsplit
          simp only [marshalFields, Except.ok.injEq, Prod.mk.injEq] at hpre
          obtain ⟨rfl, rfl⟩ := hpre
          rw [← hf, hfd]
        | cons p pre =>
          simp only [List.cons_append, List.cons.injEq] at hsplit
          obtain ⟨rfl, _⟩ := hsplit
          rw [marshalFields, hf] at hpre
          simp [bind, Except.bind] at hpre
    | ok r =>
      obtain ⟨b1, i1⟩ := r
      simp only [bind, Except.bind]
      rw [ih b1 i1]
      constructor
      · rintro ⟨pre, fd, post, b, i, hsplit, hpre, hfd⟩
        refine ⟨f :: pre, fd, post, b, i, by rw [hsplit]; rfl, ?_, hfd⟩
        rw [marshalFields, hf]
        exact hpre
      · rintro ⟨pre, fd, post, b, i, hsplit, hpre, hfd⟩
        cases pre with
        | nil =>
          simp only [List.nil_append, List.cons.injEq] at hsplit
          obtain ⟨rfl, _⟩ := hsplit
          simp only [marshalFields, Except.ok.injEq, Prod.mk.injEq] at hpre
          obtain ⟨rfl, rfl⟩ := hpre
          rw [hf] at hfd
          simp at hfd
        | cons p pre =>
          simp only [List.cons_append, List.cons.injEq] at hsplit
          obtain ⟨rfl, rfl⟩ := hsplit
          rw [marshalFields, hf] at hpre
          exact ⟨pre, fd, post, b, i, rfl, hpre, hfd⟩

theorem marshal_error_listMax_iff (S L : Nat) (fields : List Field) (init : Record)
    (buf : Option (List Nat)) :
    marshal S L fields init buf = .error .listMax
      ↔ marshalFields L init fields (marshalBuffer S buf) 0 = .error .listMax := by
  unfold marshal
  cases marshalFields L init fields (marshalBuffer S buf) 0 with
  | error e => simp
  | ok r =>
    obtain ⟨b, i⟩ := r
    simp only
    split_ifs <;> simp

/-- A prefix that two steps keep, the second from a later cursor. -/
theorem take_trans {buf b1 b2 : List Nat} {i j : Nat} (hij : i ≤ j)
    (h1 : b1.take i = buf.take i) (h2 : b2.take j = b1.take j) : b2.take i = buf.take i := by
  have h := congrArg (List.take i) h2
  rw [List.take_take, List.take_take, min_eq_left hij] at h
  rw [h, h1]

theorem take_store_of_le (buf : List Nat) (i j v : Nat) (h : i ≤ j) :
    (store buf j v).take i = buf.take i :=
  take_trans h rfl (take_set_self buf j (v % 256))

theorem take_writeAt_of_le (l : List Nat) : ∀ (buf : List Nat) (i j : Nat), i ≤ j →
    (writeAt buf j l).take i = buf.take i := by
  induction l with
  | nil => intro buf i j _; rfl
  | cons b l ih =>
    intro buf i j h
    rw [writeAt, ih _ i (j + 1) (by omega)]
    exact take_trans h rfl (take_set_self buf j b)

theorem take_put32_of_le (buf : List Nat) (i j x : Nat) (h : i ≤ j) :
    (put32 buf j x).take i = buf.take i := by
  rw [put32_eq_writeAt]
  exact take_writeAt_of_le _ _ _ _ h

theorem take_put64_of_le (buf : List Nat) (i j f : Nat) (h : i ≤ j) :
    (put64 buf j f).take i = buf.take i := by
  unfold put64
  rw [take_put32_of_le _ _ _ _ (by omega), take_put32_of_le _ _ _ _ h]

theorem take_setUint32 {buf b : List Nat} {i j : Nat} {x : Int}
    (h : setUint32 buf j x = .ok b) (hij : i ≤ j) : b.take i = buf.take i := by
  unfold setUint32 at h
  split_ifs at h
  rw [← Except.ok.inj h]
  exact take_put32_of_le _ _ _ _ hij

theorem take_setFloat32 {buf b : List Nat} {i j f : Nat}
    (h : setFloat32 buf j f = .ok b) (hij : i ≤ j) : b.take i = buf.take i := by
  unfold setFloat32 at h
  split_ifs at h
  rw [← Except.ok.inj h]
  exact take_put32_of_le _ _ _ _ hij

theorem take_setFloat64 {buf b : List Nat} {i j f : Nat}
    (h : setFloat64 buf j f = .ok b) (hij : i ≤ j) : b.take i = buf.take i := by
  unfold setFloat64 at h
  split_ifs at h
  rw [← Except.ok.inj h]
  exact take_put64_of_le _ _ _ _ hij

theorem take_setBytes {buf src b : List Nat} {i j : Nat}
    (h : setBytes buf src j = .ok b) (hij : i ≤ j) : b.take i = buf.take i := by
  unfold setBytes at h
  split_ifs at h with hlen
  rw [← Except.ok.inj h, List.append_assoc]
  have hj : (buf.take j).length = j := by simp; omega
  rw [List.take_append_of_le_length (by omega), List.take_take, min_eq_left hij]

theorem take_encodeVarint (buf : List Nat) (i j x : Nat) (h : i ≤ j) :
    (encodeVarint buf j x).1.take i = buf.take i ∧ j ≤ (encodeVarint buf j x).2 := by
  rw [encodeVarint_eq_writeAt]
  exact ⟨take_writeAt_of_le _ _ _ _ h, Nat.le_add_right _ _⟩

theorem take_negate64_fold (i j : Nat) (hij : i ≤ j) (ks : List Nat) :
    ∀ (buf : List Nat) (c : Nat), (∀ k ∈ ks, k ≤ 7) →
      (ks.foldl (fun (st : List Nat × Nat) k =>
          let b := (st.1.getD (j + 7 - k) 0 ^^^ 255) + st.2
          (store st.1 (j + 7 - k) (b &&& 255), b >>> 8)) (buf, c)).1.take i = buf.take i := by
  induction ks with
  | nil => intro buf c _; rfl
  | cons k ks ih =>
    intro buf c hk
    have hk7 : k ≤ 7 := hk k (by simp)
    simp only [List.foldl_cons]
    rw [ih _ _ (fun q hq => hk q (by simp [hq])), take_store_of_le _ _ _ _ (by omega)]

theorem take_negate64 (buf : List Nat) (i j : Nat) (hij : i ≤ j) :
    (negate64 buf j).take i = buf.take i := by
  unfold negate64
  exact take_negate64_fold i j hij _ _ _ (by rw [range_eight]; decide)

/-- What the statements of a field keep: the cursor does not move back and the
bytes before it stay. -/
theorem keep_of_eq {p : List Nat × Nat} {buf b : List Nat} {i j : Nat} (h : p = (b, j))
    (hp : i ≤ p.2 ∧ p.1.take i = buf.take i) : i ≤ j ∧ b.take i = buf.take i := by
  subst h; exact hp

theorem keep_marshalFloat32s (a : List Nat) : ∀ (buf : List Nat) (i : Nat) (b : List Nat)
    (j : Nat), marshalFloat32s a buf i = .ok (b, j) → i ≤ j ∧ b.take i = buf.take i := by
  induction a with
  | nil =>
    intro buf i b j h
    simp only [marshalFloat32s, Except.ok.injEq, Prod.mk.injEq] at h
    rw [h.1, h.2]; exact ⟨Nat.le_refl _, rfl⟩
  | cons f a ih =>
    intro buf i b j h
    rw [marshalFloat32s] at h
    split_ifs at h
    obtain ⟨b1, h1, h2⟩ := bind_ok h
    obtain ⟨hle, ht⟩ := ih _ _ _ _ h2
    exact ⟨by omega, take_trans (by omega) (take_setFloat32 h1 (Nat.le_refl _)) ht⟩

theorem keep_marshalFloat64s (a : List Nat) : ∀ (buf : List Nat) (i : Nat) (b : List Nat)
    (j : Nat), marshalFloat64s a buf i = .ok (b, j) → i ≤ j ∧ b.take i = buf.take i := by
  induction a with
  | nil =>
    intro buf i b j h
    simp only [marshalFloat64s, Except.ok.injEq, Prod.mk.injEq] at h
    rw [h.1, h.2]; exact ⟨Nat.le_refl _, rfl⟩
  | cons f a ih =>
    intro buf i b j h
    rw [marshalFloat64s] at h
    obtain ⟨b1, h1, h2⟩ := bind_ok h
    obtain ⟨hle, ht⟩ := ih _ _ _ _ h2
    exact ⟨by omega, take_trans (by omega) (take_setFloat64 h1 (Nat.le_refl _)) ht⟩

theorem keep_marshalText {s buf b : List Nat} {i j : Nat}
    (h : marshalText s buf i = .ok (b, j)) : i ≤ j ∧ b.take i = buf.take i := by
  unfold marshalText at h
  split at h
  · simp at h
  · obtain ⟨b1, h1, h2⟩ := bind_ok h
    simp only [Except.ok.injEq, Prod.mk.injEq] at h2
    obtain ⟨hv1, hv2⟩ := take_encodeVarint buf i i _ (Nat.le_refl _)
    rw [← h2.1, ← h2.2]
    exact ⟨by omega, take_trans hv2 hv1 (take_setBytes h1 (Nat.le_refl _))⟩

theorem keep_marshalBinary {s buf b : List Nat} {i j : Nat}
    (h : marshalBinary s buf i = .ok (b, j)) : i ≤ j ∧ b.take i = buf.take i := by
  unfold marshalBinary at h
  obtain ⟨b1, h1, h2⟩ := bind_ok h
  simp only [Except.ok.injEq, Prod.mk.injEq] at h2
  obtain ⟨hv1, hv2⟩ := take_encodeVarint buf i i s.length (Nat.le_refl _)
  rw [← h2.1, ← h2.2]
  exact ⟨by omega, take_trans hv2 hv1 (take_setBytes h1 (Nat.le_refl _))⟩

theorem keep_marshalStruct {o : StructObj} {buf b : List Nat} {i j : Nat}
    (h : marshalStruct o buf i = .ok (b, j)) : i ≤ j ∧ b.take i = buf.take i := by
  unfold marshalStruct at h
  obtain ⟨b1, h1, h2⟩ := bind_ok h
  obtain ⟨b2, h3, h4⟩ := bind_ok h2
  simp only [Except.ok.injEq, Prod.mk.injEq] at h4
  rw [← h4.1, ← h4.2]
  exact ⟨by omega, take_setBytes h3 (Nat.le_refl _)⟩

theorem keep_marshalTexts (a : List (Option (List Nat))) : ∀ (buf : List Nat) (i : Nat)
    (b : List Nat) (j : Nat), marshalTexts a buf i = .ok (b, j) →
      i ≤ j ∧ b.take i = buf.take i := by
  induction a with
  | nil =>
    intro buf i b j h
    simp only [marshalTexts, Except.ok.injEq, Prod.mk.injEq] at h
    rw [h.1, h.2]; exact ⟨Nat.le_refl _, rfl⟩
  | cons f a ih =>
    intro buf i b j h
    rw [marshalTexts] at h
    obtain ⟨⟨b1, i1⟩, h1, h2⟩ := bind_ok h
    obtain ⟨hle, ht⟩ := ih _ _ _ _ h2
    obtain ⟨hle1, ht1⟩ := keep_marshalText h1
    exact ⟨by omega, take_trans hle1 ht1 ht⟩

theorem keep_marshalBinaries (a : List (Option (List Nat))) : ∀ (buf : List Nat) (i : Nat)
    (b : List Nat) (j : Nat), marshalBinaries a buf i = .ok (b, j) →
      i ≤ j ∧ b.take i = buf.take i := by
  induction a with
  | nil =>
    intro buf i b j h
    simp only [marshalBinaries, Except.ok.injEq, Prod.mk.injEq] at h
    rw [h.1, h.2]; exact ⟨Nat.le_refl _, rfl⟩
  | cons f a ih =>
    intro buf i b j h
    rw [marshalBinaries] at h
    obtain ⟨⟨b1, i1⟩, h1, h2⟩ := bind_ok h
    obtain ⟨hle, ht⟩ := ih _ _ _ _ h2
    obtain ⟨hle1, ht1⟩ := keep_marshalBinary h1
    exact ⟨by omega, take_trans hle1 ht1 ht⟩

theorem keep_marshalStructs (a : List (Option StructObj)) : ∀ (buf : List Nat) (i : Nat)
    (b : List Nat) (j : Nat), marshalStructs a buf i = .ok (b, j) →
      i ≤ j ∧ b.take i = buf.take i := by
  induction a with
  | nil =>
    intro buf i b j h
    simp only [marshalStructs, Except.ok.injEq, Prod.mk.injEq] at h
    rw [h.1, h.2]; exact ⟨Nat.le_refl _, rfl⟩
  | cons f a ih =>
    intro buf i b j h
    cases f with
    | none => simp [marshalStructs] at h
    | some v =>
      rw [marshalStructs] at h
      obtain ⟨⟨b1, i1⟩, h1, h2⟩ := bind_ok h
      obtain ⟨hle, ht⟩ := ih _ _ _ _ h2
      obtain ⟨hle1, ht1⟩ := keep_marshalStruct h1
      exact ⟨by omega, take_trans hle1 ht1 ht⟩

theorem keep_marshalTimestamp {index : Nat} {ms ns : Int} {buf b : List Nat} {i j : Nat}
    (h : marshalTimestamp index ms ns buf i = .ok (b, j)) : i ≤ j ∧ b.take i = buf.take i := by
  unfold marshalTimestamp at h
  simp only at h
  split_ifs at h
  all_goals first
    | (obtain ⟨b1, h1, h⟩ := bind_ok h
       obtain ⟨b2, h2, h⟩ := bind_ok h
       obtain ⟨b3, h3, h⟩ := bind_ok h
       obtain ⟨b4, h4, h⟩ := bind_ok h
       simp only [Except.ok.injEq, Prod.mk.injEq] at h h3
       rw [← h.1, ← h.2]
       refine ⟨by omega, ?_⟩
       rw [take_setUint32 h4 (by omega), ← h3, take_negate64 _ _ _ (by omega),
         take_setUint32 h2 (by omega), take_setUint32 h1 (by omega),
         take_store_of_le _ _ _ _ (Nat.le_refl _)])
    | (obtain ⟨b1, h1, h⟩ := bind_ok h
       obtain ⟨b2, h2, h⟩ := bind_ok h
       obtain ⟨b3, h3, h⟩ := bind_ok h
       simp only [Except.ok.injEq, Prod.mk.injEq] at h
       rw [← h.1, ← h.2]
       refine ⟨by omega, ?_⟩
       rw [take_setUint32 h3 (by omega), take_setUint32 h2 (by omega),
         take_setUint32 h1 (by omega), take_store_of_le _ _ _ _ (Nat.le_refl _)])
    | (obtain ⟨b1, h1, h⟩ := bind_ok h
       obtain ⟨b2, h2, h⟩ := bind_ok h
       simp only [Except.ok.injEq, Prod.mk.injEq] at h
       rw [← h.1, ← h.2]
       refine ⟨by omega, ?_⟩
       rw [take_setUint32 h2 (by omega), take_setUint32 h1 (by omega),
         take_store_of_le _ _ _ _ (Nat.le_refl _)])

set_option maxHeartbeats 1000000 in
/-- The statements of a field leave the bytes before the cursor as they are
and do not move the cursor back. -/
theorem keep_marshalField {L : Nat} {fd : Field} {v : Value} {buf b : List Nat} {i j : Nat}
    (h : marshalField L fd v buf i = .ok (b, j)) : i ≤ j ∧ b.take i = buf.take i := by
  have hst : ∀ idx, (store buf i idx).take i = buf.take i :=
    fun idx => take_store_of_le _ _ _ _ (Nat.le_refl _)
  have hlist : ∀ (idx x : Nat) (b' : List Nat) (j' : Nat),
      ((encodeVarint (store buf i idx) (i + 1) x).2 ≤ j'
        ∧ b'.take (encodeVarint (store buf i idx) (i + 1) x).2
          = (encodeVarint (store buf i idx) (i + 1) x).1.take
            (encodeVarint (store buf i idx) (i + 1) x).2) →
      i ≤ j' ∧ b'.take i = buf.take i := by
    intro idx x b' j' hk
    obtain ⟨hv1, hv2⟩ := take_encodeVarint (store buf i idx) i (i + 1) x (by omega)
    exact ⟨by omega, take_trans (by omega) (hv1.trans (hst idx)) hk.2⟩
  have hvar : ∀ (idx x : Nat) (b' : List Nat) (j' : Nat),
      encodeVarint (store buf i idx) (i + 1) x = (b', j') → i ≤ j' ∧ b'.take i = buf.take i := by
    intro idx x b' j' he
    obtain ⟨hv1, hv2⟩ := take_encodeVarint (store buf i idx) i (i + 1) x (by omega)
    rw [he] at hv1 hv2
    exact ⟨by simp only at hv2; omega, hv1.trans (hst idx)⟩
  unfold marshalField at h
  split at h
  all_goals try split_ifs at h
  all_goals first
    | (simp only [Except.ok.injEq, Prod.mk.injEq] at h
       obtain ⟨rfl, rfl⟩ := h
       first
        | exact ⟨Nat.le_refl _, by with_reducible rfl⟩
        | exact ⟨by omega, hst _⟩
        | exact ⟨by omega, (take_store_of_le _ _ _ _ (by omega)).trans (hst _)⟩
        | exact ⟨by omega, (take_store_of_le _ _ _ _ (by omega)).trans
            ((take_store_of_le _ _ _ _ (by omega)).trans (hst _))⟩)
    | exact hvar _ _ _ _ (Except.ok.inj h)
    | exact keep_marshalTimestamp h
    | exact hlist _ _ _ _ (keep_marshalFloat32s _ _ _ _ _ h)
    | exact hlist _ _ _ _ (keep_marshalFloat64s _ _ _ _ _ h)
    | exact hlist _ _ _ _ (keep_marshalTexts _ _ _ _ _ h)
    | exact hlist _ _ _ _ (keep_marshalBinaries _ _ _ _ _ h)
    | exact hlist _ _ _ _ (keep_marshalStructs _ _ _ _ _ h)
    | (obtain ⟨hle, ht⟩ := keep_marshalText h
       exact ⟨by omega, take_trans (by omega) (hst _) ht⟩)
    | (obtain ⟨hle, ht⟩ := keep_marshalBinary h
       exact ⟨by omega, take_trans (by omega) (hst _) ht⟩)
    | (obtain ⟨hle, ht⟩ := keep_marshalStruct h
       exact ⟨by omega, take_trans (by omega) (hst _) ht⟩)
    | (obtain ⟨b1, h1, h⟩ := bind_ok h
       obtain ⟨b2, h2, h⟩ := bind_ok h
       simp only [Except.ok.injEq, Prod.mk.injEq] at h
       rw [← h.1, ← h.2]
       exact ⟨by omega, (take_setUint32 h2 (by omega)).trans
         ((take_setUint32 h1 (by omega)).trans (hst _))⟩)
    | (obtain ⟨b1, h1, h⟩ := bind_ok h
       simp only [Except.ok.injEq, Prod.mk.injEq] at h
       rw [← h.1, ← h.2]
       first
        | exact ⟨by omega, (take_setUint32 h1 (by omega)).trans (hst _)⟩
        | exact ⟨by omega, (take_setFloat32 h1 (by omega)).trans (hst _)⟩
        | exact ⟨by omega, (take_setFloat64 h1 (by omega)).trans (hst _)⟩
        | exact ⟨by omega, take_setBytes h1 (Nat.le_refl _)⟩)

/-- The statements of a list of fields leave the bytes before the cursor as
they are and do not move the cursor back. -/
theorem keep_marshalFields (L : Nat) (init : Record) (fields : List Field) :
    ∀ (buf : List Nat) (i : Nat) (b : List Nat) (j : Nat),
      marshalFields L init fields buf i = .ok (b, j) → i ≤ j ∧ b.take i = buf.take i := by
  induction fields with
  | nil =>
    intro buf i b j h
    simp only [marshalFields, Except.ok.injEq, Prod.mk.injEq] at h
    rw [h.1, h.2]; exact ⟨Nat.le_refl _, rfl⟩
  | cons fd fields ih =>
    intro buf i b j h
    rw [marshalFields] at h
    obtain ⟨⟨b1, i1⟩, h1, h2⟩ := bind_ok h
    obtain ⟨hle, ht⟩ := ih _ _ _ _ h2
    obtain ⟨hle1, ht1⟩ := keep_marshalField h1
    exact ⟨by omega, take_trans hle1 ht1 ht⟩

/-- The statements of the fields `pre ++ rest` are those of `pre`, then those of `rest`. -/
theorem marshalFields_append (L : Nat) (init : Record) (pre rest : List Field) :
    ∀ (buf : List Nat) (i : Nat),
      marshalFields L init (pre ++ rest) buf i
        = (marshalFields L init pre buf i >>= fun r => marshalFields L init rest r.1 r.2) := by
  induction pre with
  | nil => intro buf i; rfl
  | cons p pre ih =>
    intro buf i
    rw [List.cons_append, marshalFields, marshalFields]
    cases hf : marshalField L p (init.get p.index) buf i with
    | error e => rfl
    | ok r =>
      obtain ⟨b1, i1⟩ := r
      simp only [bind, Except.bind]
      exact ih b1 i1

theorem length_timestampFrame (index : Nat) (ms n : Int) :
    (timestampFrame index ms n).length = if 0 ≤ ms ∧ ms ≤ 4294967295000 then 9 else 13 := by
  unfold timestampFrame
  simp only
  split_ifs <;> simp [be64, be32]

theorem setUint32_short (buf : List Nat) (j : Nat) (x : Int) (h : ¬ j + 4 ≤ buf.length) :
    setUint32 buf j x = .error .rangeError := by
  unfold setUint32
  rw [if_pos (by omega)]

/-- The stores of the compact form. -/
theorem compact_writes (index : Nat) (buf : List Nat) (i : Nat) (s nsv : Int)
    (hidx : index ≤ 126) :
    (setUint32 (store buf i index) (i + 1) s >>= fun b =>
      setUint32 b (i + 1 + 4) nsv >>= fun b =>
        (Except.ok (b, i + 1 + 4 + 4) : Except MarshalError (List Nat × Nat)))
      = if i + 9 ≤ buf.length then
          .ok (writeAt buf i (index :: (be32 (toUint32 s) ++ be32 (toUint32 nsv))), i + 9)
        else .error .rangeError := by
  obtain ⟨h256, _⟩ := mod_256_of_index index hidx
  by_cases hfit : i + 9 ≤ buf.length
  · rw [if_pos hfit, setUint32_eq_writeAt _ _ _ (by rw [length_store]; omega)]
    simp only [bind, Except.bind]
    rw [setUint32_eq_writeAt _ _ _ (by rw [length_writeAt, length_store]; omega)]
    rw [show index :: (be32 (toUint32 s) ++ be32 (toUint32 nsv))
        = ([index] ++ be32 (toUint32 s)) ++ be32 (toUint32 nsv) by rfl,
      writeAt_append, writeAt_append]
    simp [writeAt, store, h256, length_be32]
  · rw [if_neg hfit]
    by_cases h1 : i + 1 + 4 ≤ buf.length
    · rw [setUint32_eq_writeAt _ _ _ (by rw [length_store]; omega)]
      simp only [bind, Except.bind]
      rw [setUint32_short _ _ _ (by rw [length_writeAt, length_store]; omega)]
    · rw [setUint32_short _ _ _ (by rw [length_store]; omega)]
      rfl

/-- The stores of the 12-byte form fail when the buffer is too short. -/
theorem extended_short (index : Nat) (buf : List Nat) (i : Nat) (hi lo nsv : Int)
    (hfit : ¬ i + 13 ≤ buf.length) :
    (setUint32 (store buf i (index ||| 128)) (i + 1) hi >>= fun b =>
      setUint32 b (i + 1 + 4) lo >>= fun y =>
      setUint32 y (i + 1 + 8) nsv >>= fun b =>
        (Except.ok (b, i + 1 + 12) : Except MarshalError (List Nat × Nat)))
      = .error .rangeError := by
  by_cases h1 : i + 1 + 4 ≤ buf.length
  · rw [setUint32_eq_writeAt _ _ _ (by rw [length_store]; omega)]
    simp only [bind, Except.bind]
    by_cases h2 : i + 1 + 4 + 4 ≤ buf.length
    · rw [setUint32_eq_writeAt _ _ _ (by rw [length_writeAt, length_store]; omega)]
      simp only
      rw [setUint32_short _ _ _ (by rw [length_writeAt, length_writeAt, length_store]; omega)]
    · rw [setUint32_short _ _ _ (by rw [length_writeAt, length_store]; omega)]
  · rw [setUint32_short _ _ _ (by rw [length_store]; omega)]
    rfl

theorem extended_short_neg (index : Nat) (buf : List Nat) (i : Nat) (hi lo nsv : Int)
    (hfit : ¬ i + 13 ≤ buf.length) :
    (setUint32 (store buf i (index ||| 128)) (i + 1) hi >>= fun b =>
      setUint32 b (i + 1 + 4) lo >>= fun b =>
      (Except.ok (negate64 b (i + 1)) : Except MarshalError (List Nat)) >>= fun y =>
      setUint32 y (i + 1 + 8) nsv >>= fun b =>
        (Except.ok (b, i + 1 + 12) : Except MarshalError (List Nat × Nat)))
      = .error .rangeError := by
  by_cases h1 : i + 1 + 4 ≤ buf.length
  · rw [setUint32_eq_writeAt _ _ _ (by rw [length_store]; omega)]
    simp only [bind, Except.bind]
    by_cases h2 : i + 1 + 4 + 4 ≤ buf.length
    · rw [setUint32_eq_writeAt _ _ _ (by rw [length_writeAt, length_store]; omega)]
      simp only
      rw [setUint32_short _ _ _
        (by rw [length_negate64, length_writeAt, length_writeAt, length_store]; omega)]
    · rw [setUint32_short _ _ _ (by rw [length_writeAt, length_store]; omega)]
  · rw [setUint32_short _ _ _ (by rw [length_store]; omega)]
    rfl

/-- The timestamp branch of `marshal` writes the frame `timestampFrame` at the
cursor when the frame fits into the buffer, and stops with the `RangeError` of
`setUint32` when it does not. -/
theorem marshalTimestamp_eq (index : Nat) (ms n : Int) (buf : List Nat) (i : Nat)
    (hidx : index ≤ 126) (hms : -8640000000000000 ≤ ms ∧ ms ≤ 8640000000000000)
    (hn : 0 ≤ n ∧ n < 1000000) :
    marshalTimestamp index ms n buf i
      = if i + (timestampFrame index ms n).length ≤ buf.length then
          .ok (writeAt buf i (timestampFrame index ms n),
            i + (timestampFrame index ms n).length)
        else .error .rangeError := by
  by_cases h13 : i + 13 ≤ buf.length
  · rw [if_pos (by have := length_timestampFrame_le index ms n; omega)]
    exact marshalTimestamp_frame index ms n buf i hidx hms hn h13
  · have hlen := length_timestampFrame index ms n
    unfold marshalTimestamp
    rw [if_neg (by omega)]
    by_cases h0 : 0 ≤ ms
    · obtain ⟨e1, e2, e3⟩ := tdiv_tmod_nonneg ms h0
      have hb : decide (ms < 0 ∧ ms.tmod 1000 ≠ 0) = false := by
        rw [decide_eq_false_iff_not]; omega
      simp only [hb, Bool.false_eq_true, if_false]
      by_cases h1 : ms ≤ 4294967295000
      · rw [if_neg (by omega), e1, e2]
        rw [if_pos ⟨h0, h1⟩] at hlen
        have hs : toUint32 (ms / 1000) = (ms / 1000).toNat := by unfold toUint32; omega
        have hnanos : toUint32 (n + ms % 1000 * 1000000)
            = ((ms - 1000 * (ms / 1000)) * 1000000 + n).toNat := by
          unfold toUint32; omega
        have hframe : timestampFrame index ms n
            = index :: (be32 (toUint32 (ms / 1000))
              ++ be32 (toUint32 (n + ms % 1000 * 1000000))) := by
          simp only [timestampFrame]
          rw [if_pos ⟨h0, h1⟩, hs, hnanos]
        rw [compact_writes index buf i _ _ hidx, hlen, hframe]
      · rw [if_neg (by omega)] at hlen
        rw [if_pos (Or.inl (by omega)), if_pos (by omega), e1, e2, e3,
          extended_short index buf i _ _ _ h13, hlen, if_neg h13]
    · have hneg : ms < 0 := by omega
      rw [if_neg (by omega)] at hlen
      by_cases hb : ms.tmod 1000 = 0
      · have hb' : decide (ms < 0 ∧ ms.tmod 1000 ≠ 0) = false := by
          rw [decide_eq_false_iff_not]; intro h; exact h.2 hb
        simp only [hb', Bool.false_eq_true, if_false]
        rw [if_pos (Or.inr (by omega)), if_neg (by omega),
          extended_short_neg index buf i _ _ _ h13, hlen, if_neg h13]
      · have hb' : decide (ms < 0 ∧ ms.tmod 1000 ≠ 0) = true := by
          rw [decide_eq_true_iff]; exact ⟨hneg, hb⟩
        simp only [hb', if_true]
        rw [if_pos (Or.inr (by omega)), if_neg (by omega),
          extended_short_neg index buf i _ _ _ h13, hlen, if_neg h13]

/-- The statements of a timestamp field that holds a date are those of
`marshalTimestamp`. -/
theorem marshalField_timestamp (L : Nat) (fd : Field) (ms n : Int) (buf : List Nat) (i : Nat)
    (ht : fd.type = .timestamp) (hnz : ms ≠ 0 ∨ n ≠ 0) :
    marshalField L fd (.timestamp (some ms) n) buf i = marshalTimestamp fd.index ms n buf i := by
  obtain ⟨index, type, typeList⟩ := fd
  simp only at ht ⊢
  subst ht
  simp only [marshalField]
  rw [if_pos (by rcases hnz with h | h <;> simp [h])]
  rfl

/-- The slice `marshal` returns holds at offset `i` the bytes that stood there
when the cursor had passed them. -/
theorem marshal_keeps (S L : Nat) (pre post : List Field) (init : Record)
    (buf : Option (List Nat)) (b1 : List Nat) (i1 : Nat) (out : List Nat)
    (hpre : marshalFields L init pre (marshalBuffer S buf) 0 = .ok (b1, i1))
    (hout : marshal S L (pre ++ post) init buf = .ok out) :
    out.take i1 = b1.take i1 := by
  unfold marshal at hout
  rw [marshalFields_append, hpre] at hout
  simp only [bind, Except.bind] at hout
  cases hpost : marshalFields L init post b1 i1 with
  | error e => rw [hpost] at hout; simp at hout
  | ok r =>
    obtain ⟨bf, jf⟩ := r
    rw [hpost] at hout
    simp only at hout
    split_ifs at hout
    obtain ⟨hle, hkeep⟩ := keep_marshalFields L init post _ _ _ _ hpost
    rw [← Except.ok.inj hout, List.take_take, min_eq_left (by omega),
      take_store_of_le _ _ _ _ hle, hkeep]

theorem getElem?_append_add (pre l : List Nat) (k : Nat) :
    (pre ++ l)[pre.length + k]? = l[k]? := by
  simp [List.getElem?_append_right]

theorem getUint32_append (pre l : List Nat) (k : Nat) :
    getUint32 (pre ++ l) (pre.length + k) = getUint32 l k := by
  unfold getUint32
  rw [show pre.length + k + 1 = pre.length + (k + 1) by omega,
    show pre.length + k + 2 = pre.length + (k + 2) by omega,
    show pre.length + k + 3 = pre.length + (k + 3) by omega,
    getD_append_add, getD_append_add, getD_append_add, getD_append_add]

theorem getUint32_be32_append (x : Nat) (rest : List Nat) (hx : x < 4294967296) :
    getUint32 (be32 x ++ rest) 0 = x := by
  simp [getUint32, be32]
  omega

/-- Reading an unsigned 32-bit integer that stands in the input behind `pre`. -/
theorem getUint32_at (pre : List Nat) (x : Nat) (rest : List Nat) (hx : x < 4294967296) :
    getUint32 (pre ++ (be32 x ++ rest)) pre.length = x := by
  have h := getUint32_append pre (be32 x ++ rest) 0
  rw [Nat.add_zero] at h
  rw [h, getUint32_be32_append x rest hx]

/-- Reading a varint that stands in the input behind `pre`. -/
theorem readVarint_at (pre bs rest : List Nat) (n : Nat) (hv : IsVarintOf bs n) :
    readVarint (pre ++ (bs ++ rest)) pre.length = .ok ((n : Int), pre.length + bs.length) := by
  obtain ⟨h1, h2, h3, h4⟩ := hv
  have h := readVarintLoop_isVarint (pre ++ (bs ++ rest)) pre.length bs 0 0 h1 (by omega)
    (by
      intro j hj
      rw [Nat.add_zero, getElem?_append_add, List.getElem?_append_left hj])
    (by simp)
    (by rw [h3]; simp only [Nat.pow_zero, Nat.one_mul, Nat.zero_add]; exact h4)
  rw [h3] at h
  simp only [Nat.pow_zero, Nat.one_mul, Nat.zero_add, Nat.add_zero, Nat.sub_zero] at h
  exact h

/-- The closure `readHeader` at a byte of the input. -/
theorem readHeader_at (pre : List Nat) (h : Nat) (t : List Nat) (init : Record) :
    readHeader (pre ++ h :: t) pre.length init = .ok (.run (some h) (pre.length + 1) init) := by
  unfold readHeader
  rw [if_neg (by simp)]
  have hget : (pre ++ h :: t)[pre.length]? = some h := by
    have := getElem?_append_add pre (h :: t) 0
    rw [Nat.add_zero] at this
    rw [this, List.getElem?_cons_zero]
  rw [hget]

theorem getElem?_append_zero (pre l : List Nat) : (pre ++ l)[pre.length]? = l[0]? := by
  have := getElem?_append_add pre l 0
  rwa [Nat.add_zero] at this

theorem getD_append_zero (pre l : List Nat) : (pre ++ l).getD pre.length 0 = l.getD 0 0 := by
  have := getD_append_add pre l 0
  rwa [Nat.add_zero] at this

theorem tag_flag (k : Nat) (h : k ≤ 126) : k + 128 = k ||| 128 := (lor_128 k (by omega)).symm

theorem frame_bool (S L : Nat) (fd : Field) (pre : List Nat) (h : Nat) (t : List Nat)
    (init : Record) (ht : fd.type = .bool) :
    unmarshalField S L (pre ++ h :: t) fd (.run (some fd.index) pre.length init)
      = .ok (.run (some h) (pre.length + 1) (init.put fd.index (.bool true))) := by
  obtain ⟨index, type, typeList⟩ := fd
  simp only at ht ⊢
  subst ht
  simp only [unmarshalField, if_true]
  exact readHeader_at pre h t _

theorem frame_uint8 (S L : Nat) (fd : Field) (pre : List Nat) (v h : Nat) (t : List Nat)
    (init : Record) (ht : fd.type = .uint8) :
    unmarshalField S L (pre ++ v :: h :: t) fd (.run (some fd.index) pre.length init)
      = .ok (.run (some h) (pre.length + 2) (init.put fd.index (.number v))) := by
  obtain ⟨index, type, typeList⟩ := fd
  simp only at ht ⊢
  subst ht
  have hlen : ¬ (pre.length + 1 ≥ (pre ++ v :: h :: t).length) := by simp
  simp only [unmarshalField, if_true]
  rw [if_neg hlen, getElem?_append_add, getD_append_zero]
  simp

theorem frame_uint16 (S L : Nat) (fd : Field) (pre : List Nat) (v h : Nat) (t : List Nat)
    (init : Record) (ht : fd.type = .uint16) :
    unmarshalField S L (pre ++ (v / 256) :: (v % 256) :: h :: t) fd
        (.run (some fd.index) pre.length init)
      = .ok (.run (some h) (pre.length + 3) (init.put fd.index (.number v))) := by
  obtain ⟨index, type, typeList⟩ := fd
  simp only at ht ⊢
  subst ht
  have hval : (v / 256) <<< 8 ||| v % 256 = v := by
    rw [Nat.shiftLeft_eq, Nat.mul_comm, mul_lor 8 256 _ _ rfl (Nat.mod_lt _ (by decide))]
    omega
  have hlen : ¬ (pre.length + 2 ≥ (pre ++ (v / 256) :: (v % 256) :: h :: t).length) := by simp
  simp only [unmarshalField, if_true]
  rw [if_neg hlen, getElem?_append_add, getD_append_zero, getD_append_add]
  simp only [List.getD_cons_zero, List.getD_cons_succ, List.getElem?_cons_succ,
    List.getElem?_cons_zero, hval]

theorem frame_uint16Compact (S L : Nat) (fd : Field) (pre : List Nat) (v h : Nat) (t : List Nat)
    (init : Record) (hidx : fd.index ≤ 126) (ht : fd.type = .uint16) :
    unmarshalField S L (pre ++ v :: h :: t) fd (.run (some (fd.index + 128)) pre.length init)
      = .ok (.run (some h) (pre.length + 2) (init.put fd.index (.number v))) := by
  obtain ⟨index, type, typeList⟩ := fd
  simp only at ht hidx ⊢
  subst ht
  have hne : ¬ (index + 128 = index) := by omega
  have hlen : ¬ (pre.length + 1 ≥ (pre ++ v :: h :: t).length) := by simp
  rw [tag_flag index hidx] at hne ⊢
  simp only [unmarshalField, Option.some.injEq, hne, if_false, if_true]
  rw [if_neg hlen, getElem?_append_add, getD_append_zero]
  simp

theorem frame_varint (S L : Nat) (fd : Field) (pre bs : List Nat) (h : Nat) (t : List Nat)
    (init : Record) (n : Nat)
    (ht : fd.type = .uint32 ∨ fd.type = .uint64 ∨ fd.type = .int32 ∨ fd.type = .int64)
    (hv : IsVarintOf bs n) :
    unmarshalField S L (pre ++ (bs ++ h :: t)) fd (.run (some fd.index) pre.length init)
      = .ok (.run (some h) (pre.length + bs.length + 1) (init.put fd.index (.number n))) := by
  have hread := readVarint_at pre bs (h :: t) n hv
  have hhead := readHeader_at (pre ++ bs) h t (init.put fd.index (.number n))
  rw [List.append_assoc, List.length_append] at hhead
  obtain ⟨index, type, typeList⟩ := fd
  simp only at ht hhead ⊢
  rcases ht with rfl | rfl | rfl | rfl <;>
    simp only [unmarshalField, if_true, hread, bind, Except.bind] <;>
    rw [if_neg (by omega), hhead]

theorem frame_varint_neg (S L : Nat) (fd : Field) (pre bs : List Nat) (h : Nat) (t : List Nat)
    (init : Record) (n : Nat) (hidx : fd.index ≤ 126)
    (ht : fd.type = .int32 ∨ fd.type = .int64) (hv : IsVarintOf bs n) :
    unmarshalField S L (pre ++ (bs ++ h :: t)) fd (.run (some (fd.index + 128)) pre.length init)
      = .ok (.run (some h) (pre.length + bs.length + 1)
          (init.put fd.index (.number (-(n : Int))))) := by
  have hread := readVarint_at pre bs (h :: t) n hv
  have hhead := readHeader_at (pre ++ bs) h t (init.put fd.index (.number (-(n : Int))))
  rw [List.append_assoc, List.length_append] at hhead
  obtain ⟨index, type, typeList⟩ := fd
  simp only at ht hhead hidx ⊢
  have hne : ¬ (index + 128 = index) := by omega
  rw [tag_flag index hidx] at hne ⊢
  rcases ht with rfl | rfl <;>
    simp only [unmarshalField, Option.some.injEq, hne, if_false, if_true, hread, bind,
      Except.bind] <;>
    rw [if_neg (by omega), show -1 * (n : Int) = -(n : Int) by omega, hhead]

theorem frame_fixed32 (S L : Nat) (fd : Field) (pre : List Nat) (v h : Nat) (t : List Nat)
    (init : Record) (hidx : fd.index ≤ 126) (ht : fd.type = .uint32) (hv : v < 4294967296) :
    unmarshalField S L (pre ++ (be32 v ++ h :: t)) fd
        (.run (some (fd.index + 128)) pre.length init)
      = .ok (.run (some h) (pre.length + 4 + 1) (init.put fd.index (.number v))) := by
  have hget := getUint32_at pre v (h :: t) hv
  have hhead := readHeader_at (pre ++ be32 v) h t (init.put fd.index (.number v))
  rw [List.append_assoc, List.length_append, length_be32] at hhead
  have hlen : ¬ (pre.length + 4 > (pre ++ (be32 v ++ h :: t)).length) := by
    simp [length_be32]
  obtain ⟨index, type, typeList⟩ := fd
  simp only at ht hhead hidx ⊢
  subst ht
  have hne : ¬ (index + 128 = index) := by omega
  rw [tag_flag index hidx] at hne ⊢
  simp only [unmarshalField, Option.some.injEq, hne, if_false, if_true]
  rw [if_neg hlen, hget, hhead]

theorem getUint32_at_second (pre : List Nat) (x y : Nat) (rest : List Nat)
    (hy : y < 4294967296) :
    getUint32 (pre ++ (be32 x ++ (be32 y ++ rest))) (pre.length + 4) = y := by
  have h := getUint32_at (pre ++ be32 x) y rest hy
  rw [List.append_assoc, List.length_append, length_be32] at h
  exact h

theorem frame_fixed64 (S L : Nat) (fd : Field) (pre : List Nat) (v h : Nat) (t : List Nat)
    (init : Record) (hidx : fd.index ≤ 126) (ht : fd.type = .uint64)
    (hv : v ≤ maxSafeInteger) :
    unmarshalField S L (pre ++ (be64 v ++ h :: t)) fd
        (.run (some (fd.index + 128)) pre.length init)
      = .ok (.run (some h) (pre.length + 8 + 1) (init.put fd.index (.number v))) := by
  have hv' : v < 9007199254740992 := by simp only [maxSafeInteger] at hv; omega
  have hdata : pre ++ (be64 v ++ h :: t)
      = pre ++ (be32 (v / 4294967296) ++ (be32 (v % 4294967296) ++ h :: t)) := by
    simp [be64]
  have hhi := getUint32_at pre (v / 4294967296) (be32 (v % 4294967296) ++ h :: t) (by omega)
  have hlo := getUint32_at_second pre (v / 4294967296) (v % 4294967296) (h :: t) (by omega)
  have hhead := readHeader_at (pre ++ be64 v) h t (init.put fd.index (.number v))
  rw [List.append_assoc, List.length_append, show (be64 v).length = 8 from rfl] at hhead
  have hlen : ¬ (pre.length + 8 > (pre ++ (be64 v ++ h :: t)).length) := by
    simp [show (be64 v).length = 8 from rfl]
  obtain ⟨index, type, typeList⟩ := fd
  simp only at ht hhead hidx ⊢
  subst ht
  have hne : ¬ (index + 128 = index) := by omega
  have hsum : v / 4294967296 * 4294967296 + v % 4294967296 = v := by omega
  rw [tag_flag index hidx] at hne ⊢
  simp only [unmarshalField, Option.some.injEq, hne, if_false, if_true]
  rw [if_neg hlen]
  rw [hdata, hhi, hlo, hsum, ← hdata, if_neg (by simp only [maxSafeInteger]; omega), hhead]

theorem frame_float32 (S L : Nat) (fd : Field) (pre : List Nat) (bits h : Nat) (t : List Nat)
    (init : Record) (ht : fd.type = .float32) (hl : fd.typeList = false)
    (hv : bits < 4294967296) :
    unmarshalField S L (pre ++ (be32 bits ++ h :: t)) fd (.run (some fd.index) pre.length init)
      = .ok (.run (some h) (pre.length + 4 + 1)
          (init.put fd.index (.float (ofFloat32Bits bits)))) := by
  have hget := getUint32_at pre bits (h :: t) hv
  have hhead := readHeader_at (pre ++ be32 bits) h t
    (init.put fd.index (.float (ofFloat32Bits bits)))
  rw [List.append_assoc, List.length_append, length_be32] at hhead
  have hlen : ¬ (pre.length + 4 > (pre ++ (be32 bits ++ h :: t)).length) := by
    simp [length_be32]
  obtain ⟨index, type, typeList⟩ := fd
  simp only at ht hl hhead ⊢
  subst ht hl
  simp only [unmarshalField, if_true, getFloat32]
  rw [if_neg hlen, hget, hhead]

theorem getFloat64_at (pre : List Nat) (bits : Nat) (rest : List Nat)
    (hv : bits < 18446744073709551616) :
    getFloat64 (pre ++ (be64 bits ++ rest)) pre.length = ofFloat64Bits bits := by
  have hdata : pre ++ (be64 bits ++ rest)
      = pre ++ (be32 (bits / 4294967296) ++ (be32 (bits % 4294967296) ++ rest)) := by
    simp [be64]
  have hhi := getUint32_at pre (bits / 4294967296) (be32 (bits % 4294967296) ++ rest)
    (by omega)
  have hlo := getUint32_at_second pre (bits / 4294967296) (bits % 4294967296) rest (by omega)
  have hsum : bits / 4294967296 * 4294967296 + bits % 4294967296 = bits := by omega
  unfold getFloat64 ofFloat64Bits
  rw [hdata, hhi, hlo, hsum]

theorem frame_float64 (S L : Nat) (fd : Field) (pre : List Nat) (bits h : Nat) (t : List Nat)
    (init : Record) (ht : fd.type = .float64) (hl : fd.typeList = false)
    (hv : bits < 18446744073709551616) :
    unmarshalField S L (pre ++ (be64 bits ++ h :: t)) fd (.run (some fd.index) pre.length init)
      = .ok (.run (some h) (pre.length + 8 + 1)
          (init.put fd.index (.float (ofFloat64Bits bits)))) := by
  have hget := getFloat64_at pre bits (h :: t) hv
  have hhead := readHeader_at (pre ++ be64 bits) h t
    (init.put fd.index (.float (ofFloat64Bits bits)))
  rw [List.append_assoc, List.length_append, show (be64 bits).length = 8 from rfl] at hhead
  have hlen : ¬ (pre.length + 8 > (pre ++ (be64 bits ++ h :: t)).length) := by
    simp [show (be64 bits).length = 8 from rfl]
  obtain ⟨index, type, typeList⟩ := fd
  simp only at ht hl hhead ⊢
  subst ht hl
  simp only [unmarshalField, if_true]
  rw [if_neg hlen, hget, hhead]

theorem frame_timestamp (S L : Nat) (fd : Field) (pre : List Nat) (s ns h : Nat) (t : List Nat)
    (init : Record) (ht : fd.type = .timestamp) (hs : s < 4294967296)
    (hns : ns < 4294967296) :
    unmarshalField S L (pre ++ ((be32 s ++ be32 ns) ++ h :: t)) fd
        (.run (some fd.index) pre.length init)
      = .ok (.run (some h) (pre.length + 8 + 1)
          (init.put fd.index (.timestamp (some ((s : Int) * 1000 + (ns : Int) / 1000000))
            ((ns : Int) % 1000000)))) := by
  have hdata : pre ++ ((be32 s ++ be32 ns) ++ h :: t) = pre ++ (be32 s ++ (be32 ns ++ h :: t)) := by
    simp
  have hget1 := getUint32_at pre s (be32 ns ++ h :: t) hs
  have hget2 := getUint32_at_second pre s ns (h :: t) hns
  have hhead := readHeader_at (pre ++ (be32 s ++ be32 ns)) h t
    (init.put fd.index (.timestamp (some ((s : Int) * 1000 + (ns : Int) / 1000000))
      ((ns : Int) % 1000000)))
  rw [List.append_assoc, List.length_append, List.length_append, length_be32, length_be32,
    show pre.length + (4 + 4) = pre.length + 8 by omega] at hhead
  have hlen : ¬ (pre.length + 8 > (pre ++ ((be32 s ++ be32 ns) ++ h :: t)).length) := by
    simp [length_be32]
    omega
  obtain ⟨index, type, typeList⟩ := fd
  simp only at ht hhead ⊢
  subst ht
  simp only [unmarshalField, if_true]
  rw [if_neg hlen, hdata, hget1, hget2, ← hdata, hhead]

theorem length_concat_be32 (a : List Nat) : (concat (a.map be32)).length = a.length * 4 := by
  induction a with
  | nil => rfl
  | cons x a ih =>
    simp only [List.map_cons, concat, List.length_append, length_be32, ih, List.length_cons]
    omega

theorem length_concat_be64 (a : List Nat) : (concat (a.map be64)).length = a.length * 8 := by
  induction a with
  | nil => rfl
  | cons x a ih =>
    simp only [List.map_cons, concat, List.length_append, show (be64 x).length = 8 from rfl, ih,
      List.length_cons]
    omega

/-- The loop over a `float32` list reads the elements that stand behind `pre`. -/
theorem unmarshalFloat32s_at (a : List Nat) : ∀ (pre rest : List Nat),
    (∀ x ∈ a, x < 4294967296) →
    unmarshalFloat32s (pre ++ (concat (a.map be32) ++ rest)) a.length pre.length
      = a.map ofFloat32Bits := by
  induction a with
  | nil => intro pre rest _; rfl
  | cons x a ih =>
    intro pre rest hx
    have hget := getUint32_at pre x (concat (a.map be32) ++ rest) (hx x (by simp))
    have hrec := ih (pre ++ be32 x) rest (fun y hy => hx y (by simp [hy]))
    rw [List.append_assoc, List.length_append, length_be32] at hrec
    simp only [List.map_cons, concat, List.length_cons, unmarshalFloat32s, getFloat32,
      List.append_assoc]
    rw [hget, hrec]

/-- The loop over a `float64` list reads the elements that stand behind `pre`. -/
theorem unmarshalFloat64s_at (a : List Nat) : ∀ (pre rest : List Nat),
    (∀ x ∈ a, x < 18446744073709551616) →
    unmarshalFloat64s (pre ++ (concat (a.map be64) ++ rest)) a.length pre.length
      = a.map ofFloat64Bits := by
  induction a with
  | nil => intro pre rest _; rfl
  | cons x a ih =>
    intro pre rest hx
    have hget := getFloat64_at pre x (concat (a.map be64) ++ rest) (hx x (by simp))
    have hrec := ih (pre ++ be64 x) rest (fun y hy => hx y (by simp [hy]))
    rw [List.append_assoc, List.length_append, show (be64 x).length = 8 from rfl] at hrec
    simp only [List.map_cons, concat, List.length_cons, unmarshalFloat64s, List.append_assoc]
    rw [hget, hrec]

theorem frame_float32s (S L : Nat) (fd : Field) (pre count a : List Nat) (h : Nat)
    (t : List Nat) (init : Record) (ht : fd.type = .float32) (hl : fd.typeList = true)
    (hc : IsVarintOf count a.length) (hL : a.length ≤ L) (ha : ∀ x ∈ a, x < 4294967296) :
    unmarshalField S L (pre ++ ((count ++ concat (a.map be32)) ++ h :: t)) fd
        (.run (some fd.index) pre.length init)
      = .ok (.run (some h) (pre.length + (count ++ concat (a.map be32)).length + 1)
          (init.put fd.index (.floats (a.map ofFloat32Bits)))) := by
  have hdata : pre ++ ((count ++ concat (a.map be32)) ++ h :: t)
      = pre ++ (count ++ (concat (a.map be32) ++ h :: t)) := by simp
  have hdata2 : pre ++ ((count ++ concat (a.map be32)) ++ h :: t)
      = (pre ++ count) ++ (concat (a.map be32) ++ h :: t) := by simp
  have hread := readVarint_at pre count (concat (a.map be32) ++ h :: t) a.length hc
  have hloop := unmarshalFloat32s_at a (pre ++ count) (h :: t) ha
  have hhead := readHeader_at (pre ++ (count ++ concat (a.map be32))) h t
    (init.put fd.index (.floats (a.map ofFloat32Bits)))
  rw [List.length_append] at hloop
  rw [List.append_assoc, List.length_append, List.length_append, length_concat_be32] at hhead
  rw [← hdata2] at hloop
  rw [← hdata] at hread
  have hlen : ¬ (pre.length + count.length + a.length * 4
      > (pre ++ ((count ++ concat (a.map be32)) ++ h :: t)).length) := by
    simp [length_concat_be32]
    omega
  obtain ⟨index, type, typeList⟩ := fd
  simp only at ht hl hhead ⊢
  subst ht hl
  simp only [unmarshalField, if_true, hread, bind, Except.bind, Int.toNat_ofNat]
  rw [if_neg (by omega), if_neg (by omega), if_neg hlen, hloop,
    show pre.length + count.length + a.length * 4 = pre.length + (count.length + a.length * 4)
      by omega, hhead, List.length_append, length_concat_be32]

theorem frame_float64s (S L : Nat) (fd : Field) (pre count a : List Nat) (h : Nat)
    (t : List Nat) (init : Record) (ht : fd.type = .float64) (hl : fd.typeList = true)
    (hc : IsVarintOf count a.length) (hL : a.length ≤ L)
    (ha : ∀ x ∈ a, x < 18446744073709551616) :
    unmarshalField S L (pre ++ ((count ++ concat (a.map be64)) ++ h :: t)) fd
        (.run (some fd.index) pre.length init)
      = .ok (.run (some h) (pre.length + (count ++ concat (a.map be64)).length + 1)
          (init.put fd.index (.floats (a.map ofFloat64Bits)))) := by
  have hdata : pre ++ ((count ++ concat (a.map be64)) ++ h :: t)
      = pre ++ (count ++ (concat (a.map be64) ++ h :: t)) := by simp
  have hdata2 : pre ++ ((count ++ concat (a.map be64)) ++ h :: t)
      = (pre ++ count) ++ (concat (a.map be64) ++ h :: t) := by simp
  have hread := readVarint_at pre count (concat (a.map be64) ++ h :: t) a.length hc
  have hloop := unmarshalFloat64s_at a (pre ++ count) (h :: t) ha
  have hhead := readHeader_at (pre ++ (count ++ concat (a.map be64))) h t
    (init.put fd.index (.floats (a.map ofFloat64Bits)))
  rw [List.length_append] at hloop
  rw [List.append_assoc, List.length_append, List.length_append, length_concat_be64] at hhead
  rw [← hdata2] at hloop
  rw [← hdata] at hread
  have hlen : ¬ (pre.length + count.length + a.length * 8
      > (pre ++ ((count ++ concat (a.map be64)) ++ h :: t)).length) := by
    simp [length_concat_be64]
    omega
  obtain ⟨index, type, typeList⟩ := fd
  simp only at ht hl hhead ⊢
  subst ht hl
  simp only [unmarshalField, if_true, hread, bind, Except.bind, Int.toNat_ofNat]
  rw [if_neg (by omega), if_neg hlen, hloop,
    show pre.length + count.length + a.length * 8 = pre.length + (count.length + a.length * 8)
      by omega, hhead, List.length_append, length_concat_be64]

/-- The statements that read a string or byte array read the one that stands
behind `pre`. -/
theorem unmarshalBytes_at (S : Nat) (pre size b rest : List Nat)
    (hs : IsVarintOf size b.length) (hS : b.length ≤ S) :
    unmarshalBytes S (pre ++ (size ++ (b ++ rest))) pre.length
      = .ok (b, pre.length + size.length + b.length) := by
  have hread := readVarint_at pre size (b ++ rest) b.length hs
  have hlen : ¬ (pre.length + size.length + b.length
      > (pre ++ (size ++ (b ++ rest))).length) := by
    simp
    omega
  have hdrop : (pre ++ (size ++ (b ++ rest))).drop (pre.length + size.length) = b ++ rest := by
    rw [← List.append_assoc, ← List.length_append]
    exact List.drop_left' rfl
  unfold unmarshalBytes
  simp only [hread, bind, Except.bind, Int.toNat_ofNat]
  rw [if_neg (by omega), if_neg hlen, hdrop, Nat.add_sub_cancel_left, List.take_left' rfl]

/-- The loop over a text or binary list reads the elements that stand behind `pre`. -/
theorem unmarshalBytesList_at (S : Nat) (decode : List Nat → List Nat)
    (a : List (List Nat × List Nat)) : ∀ (pre rest : List Nat),
    (∀ e ∈ a, IsVarintOf e.1 e.2.length ∧ e.2.length ≤ S) →
    unmarshalBytesList S (pre ++ (concat (a.map (fun e => e.1 ++ e.2)) ++ rest)) decode a.length
        pre.length
      = .ok (a.map (fun e => some (decode e.2)),
          pre.length + (concat (a.map (fun e => e.1 ++ e.2))).length) := by
  induction a with
  | nil => intro pre rest _; rfl
  | cons e a ih =>
    intro pre rest he
    obtain ⟨he1, he2⟩ := he e (by simp)
    have hdata : pre ++ (concat ((e :: a).map (fun e => e.1 ++ e.2)) ++ rest)
        = pre ++ (e.1 ++ (e.2 ++ (concat (a.map (fun e => e.1 ++ e.2)) ++ rest))) := by
      simp [concat]
    have hdata2 : pre ++ (concat ((e :: a).map (fun e => e.1 ++ e.2)) ++ rest)
        = (pre ++ (e.1 ++ e.2)) ++ (concat (a.map (fun e => e.1 ++ e.2)) ++ rest) := by
      simp [concat]
    have hone := unmarshalBytes_at S pre e.1 e.2
      (concat (a.map (fun e => e.1 ++ e.2)) ++ rest) he1 he2
    have hrec := ih (pre ++ (e.1 ++ e.2)) rest (fun y hy => he y (by simp [hy]))
    rw [← hdata] at hone
    rw [← hdata2, List.length_append, List.length_append] at hrec
    simp only [List.length_cons, unmarshalBytesList, hone, bind, Except.bind]
    rw [show pre.length + e.1.length + e.2.length = pre.length + (e.1.length + e.2.length)
      by omega, hrec]
    simp only [List.map_cons, concat, List.length_append, Except.ok.injEq, Prod.mk.injEq,
      true_and]
    omega

theorem frame_text (S L : Nat) (fd : Field) (pre size utf8 : List Nat) (h : Nat)
    (t : List Nat) (init : Record) (ht : fd.type = .text) (hl : fd.typeList = false)
    (hs : IsVarintOf size utf8.length) (hS : utf8.length ≤ S) :
    unmarshalField S L (pre ++ ((size ++ utf8) ++ h :: t)) fd
        (.run (some fd.index) pre.length init)
      = .ok (.run (some h) (pre.length + (size ++ utf8).length + 1)
          (init.put fd.index (.text (decodeUTF8 utf8)))) := by
  have hdata : pre ++ ((size ++ utf8) ++ h :: t) = pre ++ (size ++ (utf8 ++ h :: t)) := by simp
  have hread := unmarshalBytes_at S pre size utf8 (h :: t) hs hS
  have hhead := readHeader_at (pre ++ (size ++ utf8)) h t
    (init.put fd.index (.text (decodeUTF8 utf8)))
  rw [List.append_assoc, List.length_append] at hhead
  rw [← hdata] at hread
  obtain ⟨index, type, typeList⟩ := fd
  simp only at ht hl hhead ⊢
  subst ht hl
  simp only [unmarshalField, if_true, hread, bind, Except.bind]
  rw [show pre.length + size.length + utf8.length = pre.length + (size ++ utf8).length
    by rw [List.length_append]; omega, hhead]

theorem frame_binary (S L : Nat) (fd : Field) (pre size b : List Nat) (h : Nat)
    (t : List Nat) (init : Record) (ht : fd.type = .binary) (hl : fd.typeList = false)
    (hs : IsVarintOf size b.length) (hS : b.length ≤ S) :
    unmarshalField S L (pre ++ ((size ++ b) ++ h :: t)) fd
        (.run (some fd.index) pre.length init)
      = .ok (.run (some h) (pre.length + (size ++ b).length + 1)
          (init.put fd.index (.binary b))) := by
  have hdata : pre ++ ((size ++ b) ++ h :: t) = pre ++ (size ++ (b ++ h :: t)) := by simp
  have hread := unmarshalBytes_at S pre size b (h :: t) hs hS
  have hhead := readHeader_at (pre ++ (size ++ b)) h t (init.put fd.index (.binary b))
  rw [List.append_assoc, List.length_append] at hhead
  rw [← hdata] at hread
  obtain ⟨index, type, typeList⟩ := fd
  simp only at ht hl hhead ⊢
  subst ht hl
  simp only [unmarshalField, if_true, hread, bind, Except.bind]
  rw [show pre.length + size.length + b.length = pre.length + (size ++ b).length
    by rw [List.length_append]; omega, hhead]

theorem frame_texts (S L : Nat) (fd : Field) (pre count : List Nat)
    (a : List (List Nat × List Nat)) (h : Nat) (t : List Nat) (init : Record)
    (ht : fd.type = .text) (hl : fd.typeList = true)
    (hc : IsVarintOf count a.length) (hL : a.length ≤ L)
    (ha : ∀ e ∈ a, IsVarintOf e.1 e.2.length ∧ e.2.length ≤ S) :
    unmarshalField S L (pre ++ ((count ++ concat (a.map (fun e => e.1 ++ e.2))) ++ h :: t)) fd
        (.run (some fd.index) pre.length init)
      = .ok (.run (some h)
          (pre.length + (count ++ concat (a.map (fun e => e.1 ++ e.2))).length + 1)
          (init.put fd.index (.texts (a.map (fun e => some (decodeUTF8 e.2)))))) := by
  have hdata : pre ++ ((count ++ concat (a.map (fun e => e.1 ++ e.2))) ++ h :: t)
      = pre ++ (count ++ (concat (a.map (fun e => e.1 ++ e.2)) ++ h :: t)) := by simp
  have hdata2 : pre ++ ((count ++ concat (a.map (fun e => e.1 ++ e.2))) ++ h :: t)
      = (pre ++ count) ++ (concat (a.map (fun e => e.1 ++ e.2)) ++ h :: t) := by simp
  have hread := readVarint_at pre count (concat (a.map (fun e => e.1 ++ e.2)) ++ h :: t)
    a.length hc
  have hloop := unmarshalBytesList_at S decodeUTF8 a (pre ++ count) (h :: t) ha
  have hhead := readHeader_at (pre ++ (count ++ concat (a.map (fun e => e.1 ++ e.2)))) h t
    (init.put fd.index (.texts (a.map (fun e => some (decodeUTF8 e.2)))))
  rw [List.length_append, ← hdata2] at hloop
  rw [List.append_assoc, List.length_append, List.length_append] at hhead
  rw [← hdata] at hread
  obtain ⟨index, type, typeList⟩ := fd
  simp only at ht hl hhead ⊢
  subst ht hl
  simp only [unmarshalField, if_true, hread, bind, Except.bind, Int.toNat_ofNat]
  rw [if_neg (by omega)]
  simp only [hloop]
  rw [show pre.length + count.length + (concat (a.map (fun e => e.1 ++ e.2))).length
      = pre.length + (count.length + (concat (a.map (fun e => e.1 ++ e.2))).length) by omega,
    hhead, List.length_append]

theorem frame_binaries (S L : Nat) (fd : Field) (pre count : List Nat)
    (a : List (List Nat × List Nat)) (h : Nat) (t : List Nat) (init : Record)
    (ht : fd.type = .binary) (hl : fd.typeList = true)
    (hc : IsVarintOf count a.length) (hL : a.length ≤ L)
    (ha : ∀ e ∈ a, IsVarintOf e.1 e.2.length ∧ e.2.length ≤ S) :
    unmarshalField S L (pre ++ ((count ++ concat (a.map (fun e => e.1 ++ e.2))) ++ h :: t)) fd
        (.run (some fd.index) pre.length init)
      = .ok (.run (some h)
          (pre.length + (count ++ concat (a.map (fun e => e.1 ++ e.2))).length + 1)
          (init.put fd.index (.binaries (a.map (fun e => some e.2))))) := by
  have hdata : pre ++ ((count ++ concat (a.map (fun e => e.1 ++ e.2))) ++ h :: t)
      = pre ++ (count ++ (concat (a.map (fun e => e.1 ++ e.2)) ++ h :: t)) := by simp
  have hdata2 : pre ++ ((count ++ concat (a.map (fun e => e.1 ++ e.2))) ++ h :: t)
      = (pre ++ count) ++ (concat (a.map (fun e => e.1 ++ e.2)) ++ h :: t) := by simp
  have hread := readVarint_at pre count (concat (a.map (fun e => e.1 ++ e.2)) ++ h :: t)
    a.length hc
  have hloop := unmarshalBytesList_at S id a (pre ++ count) (h :: t) ha
  have hhead := readHeader_at (pre ++ (count ++ concat (a.map (fun e => e.1 ++ e.2)))) h t
    (init.put fd.index (.binaries (a.map (fun e => some e.2))))
  rw [List.length_append, ← hdata2] at hloop
  rw [List.append_assoc, List.length_append, List.length_append] at hhead
  rw [← hdata] at hread
  obtain ⟨index, type, typeList⟩ := fd
  simp only at ht hl hhead ⊢
  subst ht hl
  simp only [unmarshalField, if_true, hread, bind, Except.bind, Int.toNat_ofNat]
  rw [if_neg (by omega)]
  simp only [hloop, id]
  rw [show pre.length + count.length + (concat (a.map (fun e => e.1 ++ e.2))).length
      = pre.length + (count.length + (concat (a.map (fun e => e.1 ++ e.2))).length) by omega,
    hhead, List.length_append]

/-- The statements of a field read a well-formed frame of the field that
stands in the input in front of a further byte: they enter the value of the
frame into the record and leave the cursor behind that byte, which is the next
header. -/
theorem unmarshalField_frame (S L : Nat) (fd : Field) (fr : Frame) (pre : List Nat) (h : Nat)
    (t : List Nat) (init : Record) (hidx : fd.index ≤ 126) (hwf : fr.WellFormed S L fd) :
    unmarshalField S L (pre ++ (fr.payload ++ h :: t)) fd
        (.run (some (if fr.flag then fd.index + 128 else fd.index)) pre.length init)
      = .ok (.run (some h) (pre.length + fr.payload.length + 1)
          (init.put fd.index fr.value)) := by
  cases fr with
  | bool => exact frame_bool S L fd pre h t init hwf
  | uint8 v => exact frame_uint8 S L fd pre v h t init hwf.1
  | uint16 v => exact frame_uint16 S L fd pre v h t init hwf.1
  | uint16Compact v => exact frame_uint16Compact S L fd pre v h t init hidx hwf.1
  | varint negative bs =>
    obtain ⟨ht, hv⟩ := hwf
    cases negative with
    | false =>
      exact frame_varint S L fd pre bs h t init _ (by tauto) hv
    | true =>
      have ht' : fd.type = .int32 ∨ fd.type = .int64 := by
        rcases ht with h1 | h1 | ⟨_, h1⟩
        · exact Or.inl h1
        · exact Or.inr h1
        · exact absurd h1 (by decide)
      exact frame_varint_neg S L fd pre bs h t init _ hidx ht' hv
  | fixed32 v => exact frame_fixed32 S L fd pre v h t init hidx hwf.1 hwf.2
  | fixed64 v => exact frame_fixed64 S L fd pre v h t init hidx hwf.1 hwf.2
  | float32 bits => exact frame_float32 S L fd pre bits h t init hwf.1 hwf.2.1 hwf.2.2
  | float64 bits => exact frame_float64 S L fd pre bits h t init hwf.1 hwf.2.1 hwf.2.2
  | float32s count a =>
    exact frame_float32s S L fd pre count a h t init hwf.1 hwf.2.1 hwf.2.2.1 hwf.2.2.2.1
      hwf.2.2.2.2
  | float64s count a =>
    exact frame_float64s S L fd pre count a h t init hwf.1 hwf.2.1 hwf.2.2.1 hwf.2.2.2.1
      hwf.2.2.2.2
  | timestamp s ns => exact frame_timestamp S L fd pre s ns h t init hwf.1 hwf.2.1 hwf.2.2
  | text size utf8 =>
    exact frame_text S L fd pre size utf8 h t init hwf.1 hwf.2.1 hwf.2.2.1 hwf.2.2.2
  | binary size b =>
    exact frame_binary S L fd pre size b h t init hwf.1 hwf.2.1 hwf.2.2.1 hwf.2.2.2
  | texts count a =>
    exact frame_texts S L fd pre count a h t init hwf.1 hwf.2.1 hwf.2.2.1 hwf.2.2.2.1
      hwf.2.2.2.2
  | binaries count a =>
    exact frame_binaries S L fd pre count a h t init hwf.1 hwf.2.1 hwf.2.2.1 hwf.2.2.2.1
      hwf.2.2.2.2

theorem wire_eq_cons (frames : List (Field × Frame)) : ∃ h t, wire frames = h :: t := by
  cases frames with
  | nil => exact ⟨0x7F, [], rfl⟩
  | cons p rest => exact ⟨_, _, rfl⟩

/-- The field of a well-formed frame passes the test of the tag of the frame. -/
theorem accepts_frame (S L : Nat) (fd : Field) (fr : Frame) (hidx : fd.index ≤ 126)
    (hwf : fr.WellFormed S L fd) :
    fd.accepts (some (if fr.flag then fd.index + 128 else fd.index)) = true := by
  have hflag := tag_flag fd.index hidx
  cases fr with
  | uint16Compact v => simp [Frame.flag, Field.accepts, FieldType.hasFlag, hwf.1, hflag]
  | fixed32 v => simp [Frame.flag, Field.accepts, FieldType.hasFlag, hwf.1, hflag]
  | fixed64 v => simp [Frame.flag, Field.accepts, FieldType.hasFlag, hwf.1, hflag]
  | varint negative bs =>
    cases negative with
    | false => simp [Frame.flag, Field.accepts]
    | true =>
      rcases hwf.1 with h1 | h1 | ⟨_, h1⟩
      · simp [Frame.flag, Field.accepts, FieldType.hasFlag, h1, hflag]
      · simp [Frame.flag, Field.accepts, FieldType.hasFlag, h1, hflag]
      · exact absurd h1 (by decide)
  | _ => simp [Frame.flag, Field.accepts]

/-- In a valid schema the first field that passes the test of a tag is the
only one. -/
theorem find_accepts (fields : List Field) (hvalid : ValidSchema fields) (fd : Field)
    (hmem : fd ∈ fields) (header : Option Nat) (hacc : fd.accepts header = true) :
    fields.find? (·.accepts header) = some fd := by
  cases hfind : fields.find? (·.accepts header) with
  | none =>
    have := List.find?_eq_none.1 hfind fd hmem
    simp [hacc] at this
  | some fd' =>
    have hmem' := List.mem_of_find?_eq_some hfind
    have hacc' : fd'.accepts header = true := by simpa using List.find?_some hfind
    have hidx := accepts_index fd' fd header (hvalid.2 fd' hmem') (hvalid.2 fd hmem) hacc' hacc
    rw [List.inj_on_of_nodup_map hvalid.1 hmem' hmem hidx]

/-- Read frame by frame, the bytes of well-formed frames and the sentinel
that stand behind `pre`, whatever follows them, end at the sentinel, with the
values of the frames entered into the record. -/
theorem decodeFrames_wire (S L : Nat) (fields : List Field) (hvalid : ValidSchema fields)
    (trailing : List Nat) :
    ∀ (frames : List (Field × Frame)) (pre : List Nat) (init : Record),
      (∀ p ∈ frames, p.1 ∈ fields ∧ p.2.WellFormed S L p.1) →
      decodeFrames S L (pre ++ (wire frames ++ trailing)) fields frames.length
          (.run (wire frames)[0]? (pre.length + 1) init)
        = .ok (.run (some 127) (pre ++ wire frames).length (populate init frames),
            frames.map (·.1.index)) := by
  intro frames
  induction frames with
  | nil =>
    intro pre init _
    simp [decodeFrames, wire, populate]
  | cons p rest ih =>
    intro pre init hwf
    obtain ⟨hmem, hp⟩ := hwf p (by simp)
    have hidx := hvalid.2 p.1 hmem
    obtain ⟨h, t, hw⟩ := wire_eq_cons rest
    have hacc := accepts_frame S L p.1 p.2 hidx hp
    have hfind := find_accepts fields hvalid p.1 hmem _ hacc
    have hne : ¬ ((if p.2.flag then p.1.index + 128 else p.1.index) = 127) := by
      split_ifs <;> omega
    have hdata : pre ++ (wire (p :: rest) ++ trailing)
        = (pre ++ [if p.2.flag then p.1.index + 128 else p.1.index])
          ++ (p.2.payload ++ h :: (t ++ trailing)) := by
      simp [wire, Frame.bytes, hw]
    have hdata2 : pre ++ (wire (p :: rest) ++ trailing)
        = (pre ++ [if p.2.flag then p.1.index + 128 else p.1.index] ++ p.2.payload)
          ++ (wire rest ++ trailing) := by
      simp [wire, Frame.bytes]
    have hlen2 : (pre ++ wire (p :: rest)).length
        = (pre ++ [if p.2.flag then p.1.index + 128 else p.1.index] ++ p.2.payload
          ++ wire rest).length := by
      simp [wire, Frame.bytes]
    have hstep := unmarshalField_frame S L p.1 p.2
      (pre ++ [if p.2.flag then p.1.index + 128 else p.1.index]) h (t ++ trailing) init hidx hp
    rw [← hdata, List.length_append, List.length_singleton] at hstep
    have hrec := ih (pre ++ [if p.2.flag then p.1.index + 128 else p.1.index] ++ p.2.payload)
      (init.put p.1.index p.2.value) (fun q hq => hwf q (by simp [hq]))
    rw [← hdata2, ← hlen2, hw, List.getElem?_cons_zero, List.length_append,
      List.length_append, List.length_singleton] at hrec
    have hhead : (wire (p :: rest))[0]?
        = some (if p.2.flag then p.1.index + 128 else p.1.index) := by
      simp [wire, Frame.bytes]
    rw [hhead, List.length_cons, decodeFrames, if_neg (by simpa using hne), hfind]
    simp only [hstep, bind, Except.bind, hrec, List.map_cons, populate]

/-- The outcome of `unmarshal` on the bytes of well-formed frames and the
sentinel, whatever follows the sentinel: the record the frames populate when
the frames stand in the order of their fields in the schema and the sentinel
is within the size limit, the unknown-header error when the frames do not
stand in that order. -/
theorem unmarshal_wire (S L : Nat) (fields : List Field) (init : Record)
    (frames : List (Field × Frame)) (trailing : List Nat) (hvalid : ValidSchema fields)
    (hwf : ∀ p ∈ frames, p.1 ∈ fields ∧ p.2.WellFormed S L p.1) :
    ((frames.map (·.1.index)).Sublist (fields.map (·.index)) → (wire frames).length ≤ S →
        unmarshal S L fields init (wire frames ++ trailing)
          = .ok (.record (populate init frames)))
      ∧ (¬ (frames.map (·.1.index)).Sublist (fields.map (·.index)) →
          unmarshal S L fields init (wire frames ++ trailing) = .error .unknownHeader) := by
  obtain ⟨h, t, hw⟩ := wire_eq_cons frames
  have hlen : ¬ (wire frames ++ trailing).length = 0 := by rw [hw]; simp
  have hdec := decodeFrames_wire S L fields hvalid trailing frames [] init hwf
  have hhead : (wire frames ++ trailing)[0]? = (wire frames)[0]? := by rw [hw]; simp
  simp only [List.nil_append, List.length_nil, Nat.zero_add] at hdec
  rw [← hhead] at hdec
  constructor
  · intro hs hsize
    have := unmarshalFields_of_sublist S L (wire frames ++ trailing) fields hvalid _ _
      frames.length fields _ _ (fun _ h => h) hvalid.1 hdec hs
    simp only [unmarshal, unmarshalRun, if_neg hlen, this]
    rw [if_neg (by simp), if_neg (by omega)]
  · intro hs
    obtain ⟨hd, j, init2, hrun, hne⟩ := unmarshalFields_of_not_sublist S L
      (wire frames ++ trailing) fields hvalid frames.length fields _ _ _ (fun _ h => h)
      hvalid.1 hdec hs
    simp only [unmarshal, unmarshalRun, if_neg hlen, hrun]
    rw [if_pos (by simpa using hne)]

/-! ## The claims -/

/-- Claim C1, evaluated where it fails: for a `uint16` field at index 1 holding
`0x1234`, `marshal` stores the tag and then `v >>> 0` and `v & 255`, which as
bytes are twice the low byte `0x34`, and `unmarshal` of those bytes sets the
field to `0x3434`, not to `0x1234`. -/
theorem uint16_round_trip_loses_high_byte :
    marshal 16 4 [⟨1, .uint16, false⟩] [(1, .number 0x1234)] none
        = .ok [0x01, 0x34, 0x34, 0x7F]
      ∧ unmarshal 16 4 [⟨1, .uint16, false⟩] [] [0x01, 0x34, 0x34, 0x7F]
        = .ok (.record [(1, .number 0x3434)]) := by
  decide

/-- Claim C2, evaluated where it fails: `unmarshal` never hands back a Number;
on the one-byte record `[0x7F]` it returns the object `init`, not 1.  The
statement `i += o.unmarshal(…)` of a struct field, which needs a Number, is
never reached: on an outer record whose struct field holds that empty record,
`new Pkg.T()` throws a `TypeError`. -/
theorem unmarshal_returns_init :
    (∀ (colferSizeMax colferListMax : Nat) (fields : List Field) (init : Record)
        (data : List Nat) (n : Nat),
      unmarshal colferSizeMax colferListMax fields init data ≠ .ok (.bytesRead n))
    ∧ unmarshal 16 4 [] [] [0x7F] = .ok (.record [])
    ∧ unmarshal 16 4 [⟨0, .struct, false⟩] [] [0x00, 0x7F, 0x7F] = .error .typeError := by
  refine ⟨?_, by decide, by decide⟩
  intro S L fields init data n
  unfold unmarshal
  split
  · simp
  · split_ifs <;> simp

/-- Claim C3 as stated fails: with bool fields at indices 0 and 1 the bytes
`[0x01, 0x00, 0x7F]` are rejected with the unknown-header error. -/
theorem unmarshal_rejects_swapped_frames :
    unmarshal 16 4 [⟨0, .bool, false⟩, ⟨1, .bool, false⟩] [] [0x01, 0x00, 0x7F]
      = .error .unknownHeader := by
  decide

/-- Claim C3, amended: `unmarshal` accepts field frames in schema order only.
For every schema with distinct indices up to 126 and every input made of
well-formed frames of its fields and the sentinel `0x7F` (`wire`), whatever
follows the sentinel, no frame being a nested record or a 12-byte timestamp:
if the frames stand in the order of their fields in the schema and the
sentinel is within the size limit, `unmarshal` succeeds and returns the record
with the values of the frames entered; if they do not stand in that order,
`unmarshal` fails with the unknown-header error. -/
theorem unmarshal_frames_in_schema_order (S L : Nat) (fields : List Field) (init : Record)
    (frames : List (Field × Frame)) (trailing : List Nat) (hvalid : ValidSchema fields)
    (hwf : ∀ p ∈ frames, p.1 ∈ fields ∧ p.2.WellFormed S L p.1) :
    ((frames.map (·.1.index)).Sublist (fields.map (·.index)) → (wire frames).length ≤ S →
        unmarshal S L fields init (wire frames ++ trailing)
          = .ok (.record (populate init frames)))
      ∧ (¬ (frames.map (·.1.index)).Sublist (fields.map (·.index)) →
          unmarshal S L fields init (wire frames ++ trailing) = .error .unknownHeader) :=
  unmarshal_wire S L fields init frames trailing hvalid hwf

/-- Claim C3, amended, at a `uint8`, a text and a `uint32` field: the frames
of 7, of the string `A` and of 300 are read in schema order, and refused with
the unknown-header error when the frame of 300 comes first. -/
theorem unmarshal_frames_in_schema_order_witness :
    unmarshal 16 4 [⟨0, .uint8, false⟩, ⟨1, .text, false⟩, ⟨2, .uint32, false⟩] []
        [0x00, 0x07, 0x01, 0x01, 0x41, 0x02, 0xAC, 0x02, 0x7F]
        = .ok (.record [(2, .number 300), (1, .text [0x41]), (0, .number 7)])
      ∧ unmarshal 16 4 [⟨0, .uint8, false⟩, ⟨1, .text, false⟩, ⟨2, .uint32, false⟩] []
        [0x02, 0xAC, 0x02, 0x00, 0x07, 0x7F] = .error .unknownHeader :=
  ⟨(unmarshal_frames_in_schema_order 16 4
      [⟨0, .uint8, false⟩, ⟨1, .text, false⟩, ⟨2, .uint32, false⟩] []
      [(⟨0, .uint8, false⟩, .uint8 7), (⟨1, .text, false⟩, .text [1] [0x41]),
        (⟨2, .uint32, false⟩, .varint false [0xAC, 0x02])] [] (by decide)
      (by simp [Frame.WellFormed, IsVarintOf, IsVarint, varintValue, maxSafeInteger])).1
      (by decide) (by decide),
    (unmarshal_frames_in_schema_order 16 4
      [⟨0, .uint8, false⟩, ⟨1, .text, false⟩, ⟨2, .uint32, false⟩] []
      [(⟨2, .uint32, false⟩, .varint false [0xAC, 0x02]), (⟨0, .uint8, false⟩, .uint8 7)] []
      (by decide)
      (by simp [Frame.WellFormed, IsVarintOf, IsVarint, varintValue, maxSafeInteger])).2
      (by decide)⟩

/-- Claim C4, evaluated where it fails: a timestamp field at index 4 sent twice
in the 12-byte form is refused with a `ReferenceError` at the first frame (the
defect of claim C15) and a struct field at index 0 sent twice with a
`TypeError` (the `new Pkg.T()` of claim C2), not with the unknown-header error.
For frames the code reads the claim holds: in every schema with distinct
indices up to 126, an input of well-formed frames and the sentinel in which an
index comes twice, under the same or the other flag bit, is refused with the
unknown-header error, whatever follows. -/
theorem unmarshal_repeated_index_error :
    unmarshal 32 4 [⟨4, .timestamp, false⟩] []
        [0x84, 0, 0, 0, 1, 0, 0, 0, 0, 0, 0, 0, 0, 0x84, 0, 0, 0, 1, 0, 0, 0, 0, 0, 0, 0, 0, 0x7F]
        = .error .referenceError
      ∧ unmarshal 32 4 [⟨0, .struct, false⟩] [] [0x00, 0x7F, 0x00, 0x7F, 0x7F]
        = .error .typeError
      ∧ ∀ (S L : Nat) (fields : List Field) (init : Record) (frames : List (Field × Frame))
          (trailing : List Nat), ValidSchema fields →
          (∀ p ∈ frames, p.1 ∈ fields ∧ p.2.WellFormed S L p.1) →
          ¬ (frames.map (·.1.index)).Nodup →
          unmarshal S L fields init (wire frames ++ trailing) = .error .unknownHeader := by
  refine ⟨by decide, by decide, ?_⟩
  intro S L fields init frames trailing hvalid hwf hdup
  exact (unmarshal_wire S L fields init frames trailing hvalid hwf).2
    (fun hs => hdup (hvalid.1.sublist hs))

/-- Claim C4 where it holds: a `uint16` field sent once in each form. -/
theorem unmarshal_repeated_index_error_witness :
    unmarshal 16 4 [⟨1, .uint16, false⟩] [] [0x01, 0x00, 0x05, 0x81, 0x07, 0x7F]
      = .error .unknownHeader :=
  unmarshal_repeated_index_error.2.2 16 4 [⟨1, .uint16, false⟩] []
    [(⟨1, .uint16, false⟩, .uint16 5), (⟨1, .uint16, false⟩, .uint16Compact 7)] []
    (by decide) (by simp [Frame.WellFormed]) (by decide)

/-- Claim C5, evaluated where it fails: `encodeVarint` writes 16320 as the
three bytes `[0xC0, 0xFF, 0x00]`, not as `[0xC0, 0x7F]`: after one round `x` is
127.5, which is still `> 127`. -/
theorem encodeVarint_16320 :
    encodeVarint (List.replicate 4 0) 0 16320 = ([0xC0, 0xFF, 0x00, 0], 3) := by
  decide

/-- Claim C6: varint round trip.  For `x ≤ 2^53 - 1` and any cursor `i` at
which the bytes of `encodeVarint` fit into the array, `readVarint` at `i`
returns exactly `x` and the cursor `encodeVarint` returned, which is at most 8
bytes after `i`. -/
theorem readVarint_encodeVarint (bytes : List Nat) (i x : Nat) (hx : x ≤ maxSafeInteger)
    (hfit : (encodeVarint bytes i x).2 ≤ bytes.length) :
    readVarint (encodeVarint bytes i x).1 i = .ok ((x : Int), (encodeVarint bytes i x).2)
      ∧ (encodeVarint bytes i x).2 - i ≤ 8 := by
  unfold encodeVarint at hfit ⊢
  rw [encodeVarintLoop_eq_writeAt] at hfit ⊢
  simp only at hfit ⊢
  have h := readVarintLoop_varintBytes (writeAt bytes i (varintBytes x x 1)) i x hx x 0
    (by simpa using le_fuel x) (Or.inl rfl)
    (by
      intro j hj
      simp only [Nat.pow_zero, Nat.add_zero] at hj ⊢
      exact writeAt_getElem? _ _ _ _ hfit hj)
    (by simpa [length_writeAt] using hfit)
  simp only [Nat.pow_zero, Nat.add_zero, Nat.mod_one, Nat.sub_zero, Nat.zero_add] at h
  exact ⟨h.1, by omega⟩

/-- Claim C6 at `x = 16320` and `i = 1`, where the encoding has three bytes. -/
theorem readVarint_encodeVarint_witness :
    readVarint (encodeVarint (List.replicate 4 0) 1 16320).1 1
        = .ok ((16320 : Int), (encodeVarint (List.replicate 4 0) 1 16320).2)
      ∧ (encodeVarint (List.replicate 4 0) 1 16320).2 - 1 ≤ 8 :=
  readVarint_encodeVarint (List.replicate 4 0) 1 16320 (by decide) (by decide)

/-- Claim C7, evaluated where it fails: with `colferSizeMax = 2` the record
whose encoding is the two bytes `[0x00, 0x7F]` is refused by `marshal` with the
size error (the test is `i >= colferSizeMax`), while `unmarshal` accepts these
two bytes under the same limit. -/
theorem marshal_rejects_exact_size :
    marshal 2 4 [⟨0, .bool, false⟩] [(0, .bool true)] none = .error .sizeMax
      ∧ marshalSize 2 4 [⟨0, .bool, false⟩] [(0, .bool true)] none = .ok 2
      ∧ unmarshal 2 4 [⟨0, .bool, false⟩] [] [0x00, 0x7F] = .ok (.record [(0, .bool true)]) := by
  decide

/-- Claim C8 as stated fails: with a caller's buffer of one byte, the record
with a true bool at index 3 is returned as `[0x03]`, whose last byte is not
`0x7F`: the store of the sentinel falls outside the buffer. -/
theorem marshal_short_buffer_drops_sentinel :
    marshal 16 4 [⟨3, .bool, false⟩] [(3, .bool true)] (some [9]) = .ok [0x03]
      ∧ ([0x03] : List Nat).getLast? ≠ some 0x7F := by
  decide

/-- Claim C8, amended: for every record and every buffer argument that is left
out, empty, or at least as long as the encoding, a slice that `marshal` returns
has the length of the encoding (so it is not empty) and its last byte is
`0x7F`. -/
theorem marshal_ends_in_sentinel (S L : Nat) (fields : List Field) (init : Record)
    (buf : Option (List Nat)) (out : List Nat) (n : Nat)
    (hout : marshal S L fields init buf = .ok out)
    (hsize : marshalSize S L fields init buf = .ok n)
    (hfit : ∀ b, buf = some b → b ≠ [] → n ≤ b.length) :
    0 < n ∧ out.length = n ∧ out.getLast? = some 127 := by
  unfold marshal at hout
  unfold marshalSize at hsize
  cases hf : marshalFields L init fields (marshalBuffer S buf) 0 with
  | error e => rw [hf] at hout; simp at hout
  | ok r =>
    obtain ⟨b', i⟩ := r
    rw [hf] at hout hsize
    simp only [Except.ok.injEq] at hsize
    subst hsize
    simp only at hout
    split_ifs at hout with hge
    simp only [Except.ok.injEq] at hout
    have hlen := length_marshalFields L init fields _ _ _ _ hf
    have hbuf : i + 1 ≤ (marshalBuffer S buf).length := by
      unfold marshalBuffer
      cases buf with
      | none => simp; omega
      | some b =>
        by_cases hb : b.length = 0
        · simp [hb]; omega
        · simp only [hb, if_false]
          exact hfit b rfl (by intro h; exact hb (by rw [h]; rfl))
    subst hout
    refine ⟨by omega, ?_, ?_⟩
    · simp [List.length_take]; omega
    · rw [List.getLast?_take]
      simp [store, List.getElem?_set_self (show i < b'.length by omega)]

/-- Claim C8, amended, at a caller's buffer of three bytes for an encoding of two. -/
theorem marshal_ends_in_sentinel_witness :
    marshal 16 4 [⟨3, .bool, false⟩] [(3, .bool true)] (some [9, 9, 9]) = .ok [0x03, 0x7F]
      ∧ ([0x03, 0x7F] : List Nat).getLast? = some 127 :=
  ⟨by decide,
    (marshal_ends_in_sentinel 16 4 [⟨3, .bool, false⟩] [(3, .bool true)] (some [9, 9, 9])
      [0x03, 0x7F] 2 (by decide) (by decide)
      (by intro b h _; cases h; decide)).2.2⟩

/-- Claim C9, evaluated where it fails: with `colferSizeMax = 1` the record
whose fields are all default is refused with the size error instead of being
marshalled to `[0x7F]` (the test `i >= colferSizeMax` of claim C7); with
`colferSizeMax = 2` it is `[0x7F]`. -/
theorem marshal_all_default_at_size_one :
    marshal 1 4 [⟨0, .bool, false⟩, ⟨1, .uint32, false⟩] [] none = .error .sizeMax
      ∧ marshal 2 4 [⟨0, .bool, false⟩, ⟨1, .uint32, false⟩] [] none = .ok [0x7F] := by
  decide

/-- Claim C10, evaluated where it fails: `encodeUTF8` writes a low surrogate
that no high surrogate precedes as the three bytes `[0xED, 0xB0, 0x80]`, not as
`0x3F`, and does not return on a string that ends in a high surrogate. -/
theorem encodeUTF8_unpaired_surrogates :
    encodeUTF8 [0xDC00] = some [0xED, 0xB0, 0x80] ∧ encodeUTF8 [0xD800] = none := by
  decide

/-- Claim C11, evaluated where it fails: `decodeUTF8` decodes the lead byte
`0xC3` followed by the ASCII byte `0x28` as the one character U+00E8, not as
`?`: the bytes after a lead byte are masked with `& 63` and never tested for
being continuation bytes.  A stray continuation byte, a lead byte `0xF8` and a
truncated three-byte sequence do come out as `?`. -/
theorem decodeUTF8_lead_before_ascii :
    decodeUTF8 [0xC3, 0x28] = [0xE8]
      ∧ decodeUTF8 [0x80] = [0x3F] ∧ decodeUTF8 [0xF8] = [0x3F]
      ∧ decodeUTF8 [0xE2, 0x82] = [0x3F, 0x3F] := by
  decide

/-- Claim C12 (text round trip).  For every string `s` of UTF-16 code units
without an unpaired surrogate, `encodeUTF8(s)` returns the UTF-8 encoding of
`s` and `decodeUTF8` of these bytes is `s`; the encoding of a code point has
1 byte below `0x80`, 2 bytes below `0x800`, 3 bytes for any other unit of the
basic plane and 4 bytes for a surrogate pair. -/
theorem encodeUTF8_decodeUTF8_round_trip (s : List Nat) (h : WellPaired s) :
    encodeUTF8 s = some (utf8Encode s) ∧ decodeUTF8 (utf8Encode s) = s
      ∧ ∀ c, (utf8OfCodePoint c).length
          = if c < 0x80 then 1 else if c < 0x800 then 2 else if c < 0x10000 then 3 else 4 :=
  ⟨encodeUTF8_wellPaired s h, decodeUTF8_utf8Encode s h, length_utf8OfCodePoint⟩

/-- Witness of C12: the string of `A`, `é`, `€` and the pair of U+1F600. -/
theorem encodeUTF8_decodeUTF8_round_trip_witness :
    encodeUTF8 [0x41, 0xE9, 0x20AC, 0xD83D, 0xDE00]
        = some [0x41, 0xC3, 0xA9, 0xE2, 0x82, 0xAC, 0xF0, 0x9F, 0x98, 0x80]
      ∧ decodeUTF8 [0x41, 0xC3, 0xA9, 0xE2, 0x82, 0xAC, 0xF0, 0x9F, 0x98, 0x80]
        = [0x41, 0xE9, 0x20AC, 0xD83D, 0xDE00] :=
  have h := encodeUTF8_decodeUTF8_round_trip [0x41, 0xE9, 0x20AC, 0xD83D, 0xDE00]
    (by simp [WellPaired])
  ⟨h.1, h.2.1⟩

/-- Claim C13 (timestamp normalisation on encode).  For a timestamp field at
any place of a schema, holding `ms` milliseconds within the range of a `Date`
and `n` nanoseconds with `0 ≤ n < 10^6`, not both zero, in any record and for
any buffer argument: when the statements of the fields before it have run
through and left the cursor at `i`, the statements of the timestamp field
write the frame `timestampFrame` at `i` (they stop with a `RangeError` only if
the frame does not fit into the buffer), and every slice that `marshal`
returns holds this frame at offset `i`, whatever the other fields hold.  In
the frame the seconds field is `⌊ms / 1000⌋` (the integer `s` with
`1000 * s ≤ ms < 1000 * s + 1000`), an unsigned 32-bit integer in the compact
form and a two's-complement 64-bit integer in the 12-byte form, and the
nanoseconds field is `(ms - 1000 * s) * 10^6 + n`, which lies in `[0, 10^9)`. -/
theorem marshal_timestamp_normalised (S L : Nat) (pre post : List Field) (fd : Field)
    (init : Record) (buf : Option (List Nat)) (ms n : Int) (b : List Nat) (i : Nat)
    (hidx : fd.index ≤ 126) (ht : fd.type = .timestamp)
    (hv : init.get fd.index = .timestamp (some ms) n)
    (hms : -8640000000000000 ≤ ms ∧ ms ≤ 8640000000000000) (hn : 0 ≤ n ∧ n < 1000000)
    (hnz : ms ≠ 0 ∨ n ≠ 0)
    (hpre : marshalFields L init pre (marshalBuffer S buf) 0 = .ok (b, i)) :
    marshalFields L init (pre ++ [fd]) (marshalBuffer S buf) 0
        = (if i + (timestampFrame fd.index ms n).length ≤ b.length then
            .ok (writeAt b i (timestampFrame fd.index ms n),
              i + (timestampFrame fd.index ms n).length)
          else .error .rangeError)
      ∧ (∀ out, marshal S L (pre ++ fd :: post) init buf = .ok out →
          (out.drop i).take (timestampFrame fd.index ms n).length
            = timestampFrame fd.index ms n)
      ∧ (1000 * (ms / 1000) ≤ ms ∧ ms < 1000 * (ms / 1000) + 1000)
      ∧ 0 ≤ (ms - 1000 * (ms / 1000)) * 1000000 + n
      ∧ (ms - 1000 * (ms / 1000)) * 1000000 + n < 1000000000 := by
  have hstep : marshalFields L init (pre ++ [fd]) (marshalBuffer S buf) 0
      = (if i + (timestampFrame fd.index ms n).length ≤ b.length then
          .ok (writeAt b i (timestampFrame fd.index ms n),
            i + (timestampFrame fd.index ms n).length)
        else .error .rangeError) := by
    rw [marshalFields_append, hpre]
    simp only [bind, Except.bind, marshalFields]
    rw [hv, marshalField_timestamp L fd ms n b i ht hnz,
      marshalTimestamp_eq fd.index ms n b i hidx hms hn]
    split_ifs <;> rfl
  refine ⟨hstep, ?_, ⟨by omega, by omega⟩, by omega, by omega⟩
  intro out hout
  have hsplit : pre ++ fd :: post = (pre ++ [fd]) ++ post := by simp
  rw [hsplit] at hout
  by_cases hfit : i + (timestampFrame fd.index ms n).length ≤ b.length
  · rw [if_pos hfit] at hstep
    have hkeep := marshal_keeps S L (pre ++ [fd]) post init buf _ _ out hstep hout
    rw [take_writeAt _ _ _ hfit] at hkeep
    have hdrop := congrArg (List.drop i) hkeep
    rw [List.drop_take, Nat.add_sub_cancel_left] at hdrop
    rw [hdrop]
    exact List.drop_left' (by simp; omega)
  · rw [if_neg hfit] at hstep
    unfold marshal at hout
    rw [marshalFields_append, hstep] at hout
    simp [bind, Except.bind] at hout

/-- Witness of C13: a `uint8` field before and a bool field after the
timestamp of 1500 ms before the epoch with 7 ns, whose seconds are -2 and whose
nanoseconds are 500000007; the frame stands at offset 2 of the slice. -/
theorem marshal_timestamp_normalised_witness :
    marshal 32 4 [⟨0, .uint8, false⟩, ⟨4, .timestamp, false⟩, ⟨5, .bool, false⟩]
        [(0, .number 7), (4, .timestamp (some (-1500)) 7), (5, .bool true)] none
        = .ok [0x00, 0x07, 0x84, 0xFF, 0xFF, 0xFF, 0xFF, 0xFF, 0xFF, 0xFF, 0xFE, 0x1D, 0xCD,
            0x65, 0x07, 0x05, 0x7F]
      ∧ (([0x00, 0x07, 0x84, 0xFF, 0xFF, 0xFF, 0xFF, 0xFF, 0xFF, 0xFF, 0xFE, 0x1D, 0xCD,
            0x65, 0x07, 0x05, 0x7F] : List Nat).drop 2).take (timestampFrame 4 (-1500) 7).length
          = timestampFrame 4 (-1500) 7
      ∧ timestampFrame 4 (-1500) 7
          = [0x84, 0xFF, 0xFF, 0xFF, 0xFF, 0xFF, 0xFF, 0xFF, 0xFE, 0x1D, 0xCD, 0x65, 0x07] :=
  ⟨by decide,
    (marshal_timestamp_normalised 32 4 [⟨0, .uint8, false⟩] [⟨5, .bool, false⟩]
      ⟨4, .timestamp, false⟩
      [(0, .number 7), (4, .timestamp (some (-1500)) 7), (5, .bool true)] none (-1500) 7
      (store (store (List.replicate 32 0) 0 0) 1 7) 2
      (by decide) rfl rfl (by decide) (by decide) (by decide) (by decide)).2.1 _ (by decide),
    by decide⟩

/-- Claim C14, evaluated where it fails: the timestamp of 4294967295500 ms,
whose wire seconds are `2^32 - 1`, is written in the 12-byte form under the
flag-1 tag, because the test `s > 0xffffffff` sees the fraction of
`s = ms / 1E3`; the timestamp of 4294967295000 ms is written in the compact
form. -/
theorem marshal_timestamp_last_second :
    marshal 32 4 [⟨4, .timestamp, false⟩] [(4, .timestamp (some 4294967295500) 0)] none
        = .ok [0x84, 0, 0, 0, 0, 0xFF, 0xFF, 0xFF, 0xFF, 0x1D, 0xCD, 0x65, 0x00, 0x7F]
      ∧ marshal 32 4 [⟨4, .timestamp, false⟩] [(4, .timestamp (some 4294967295000) 0)] none
        = .ok [0x04, 0xFF, 0xFF, 0xFF, 0xFF, 0, 0, 0, 0, 0x7F] := by
  decide

/-- Claim C15, evaluated where it fails: the timestamp of 1500 ms before the
epoch with 7 ns is marshalled in the 12-byte form, and `unmarshal` of these
bytes throws a `ReferenceError`, because the flag-1 branch calls the bare name
`decodeInt64`, which is a method of the package object and in no scope.  The
method itself returns -2 on the eight seconds bytes; a timestamp in the 8-byte
form, 1500 ms after the epoch with 7 ns, is read back. -/
theorem timestamp_extended_form_not_read :
    marshal 32 4 [⟨4, .timestamp, false⟩] [(4, .timestamp (some (-1500)) 7)] none
        = .ok [0x84, 0xFF, 0xFF, 0xFF, 0xFF, 0xFF, 0xFF, 0xFF, 0xFE, 0x1D, 0xCD, 0x65, 0x07,
            0x7F]
      ∧ unmarshal 32 4 [⟨4, .timestamp, false⟩] []
          [0x84, 0xFF, 0xFF, 0xFF, 0xFF, 0xFF, 0xFF, 0xFF, 0xFE, 0x1D, 0xCD, 0x65, 0x07, 0x7F]
        = .error .referenceError
      ∧ decodeInt64
          [0x84, 0xFF, 0xFF, 0xFF, 0xFF, 0xFF, 0xFF, 0xFF, 0xFE, 0x1D, 0xCD, 0x65, 0x07, 0x7F] 1
        = some (-2)
      ∧ marshal 32 4 [⟨4, .timestamp, false⟩] [(4, .timestamp (some 1500) 7)] none
        = .ok [0x04, 0x00, 0x00, 0x00, 0x01, 0x1D, 0xCD, 0x65, 0x07, 0x7F]
      ∧ unmarshal 32 4 [⟨4, .timestamp, false⟩] []
          [0x04, 0x00, 0x00, 0x00, 0x01, 0x1D, 0xCD, 0x65, 0x07, 0x7F]
        = .ok (.record [(4, .timestamp (some 1500) 7)]) := by
  decide

/-- Claim C16, evaluated where it fails: the `int32` value -16320 at index 2 is
marshalled under the flag-1 tag with the three bytes `[0xC0, 0xFF, 0x00]` of
`encodeVarint` (the defect of claim C5), which are not the varint
`[0xC0, 0x7F]` of 16320.  The round trip holds: `unmarshal` reads both
encodings back to -16320, and the value -5 of the specification is written as
`[0x82, 0x05, 0x7F]`. -/
theorem marshal_int32_not_the_varint :
    marshal 16 4 [⟨2, .int32, false⟩] [(2, .number (-16320))] none
        = .ok [0x82, 0xC0, 0xFF, 0x00, 0x7F]
      ∧ standardVarint 16320 = [0xC0, 0x7F]
      ∧ marshal 16 4 [⟨2, .int32, false⟩] [(2, .number (-16320))] none
        ≠ .ok ((2 + 128) :: (standardVarint 16320 ++ [0x7F]))
      ∧ unmarshal 16 4 [⟨2, .int32, false⟩] [] [0x82, 0xC0, 0xFF, 0x00, 0x7F]
        = .ok (.record [(2, .number (-16320))])
      ∧ unmarshal 16 4 [⟨2, .int32, false⟩] [] ([0x82] ++ standardVarint 16320 ++ [0x7F])
        = .ok (.record [(2, .number (-16320))])
      ∧ marshal 16 4 [⟨2, .int32, false⟩] [(2, .number (-5))] none = .ok [0x82, 0x05, 0x7F]
      ∧ standardVarint 5 = [0x05] := by
  decide

/-- Claim C17 (decoder liberality for unsigned scalars).  For a field of any
valid schema and a size limit of 10 bytes or more: a `uint16` field is set to
`v < 256` by `[k, 0x00, v, 0x7F]` and by `[k|0x80, v, 0x7F]`; a `uint32` or
`uint64` field is set to the value of any varint of at most 8 bytes under the
flag-0 tag, whatever its magnitude up to `2^53 - 1`; a `uint32` field is set
to any `v < 2^32` by the 4 big-endian bytes under the flag-1 tag, and a
`uint64` field to any `v ≤ 2^53 - 1` by the 8 big-endian bytes under the
flag-1 tag. -/
theorem unmarshal_unsigned_either_form (S L : Nat) (fields : List Field) (fd : Field)
    (init0 : Record) (hvalid : ValidSchema fields) (hmem : fd ∈ fields) (hsize : 10 ≤ S) :
    (fd.type = .uint16 → ∀ v, v < 256 →
        unmarshal S L fields init0 [fd.index, 0x00, v, 0x7F]
            = .ok (.record (init0.put fd.index (.number v)))
          ∧ unmarshal S L fields init0 [fd.index ||| 0x80, v, 0x7F]
            = .ok (.record (init0.put fd.index (.number v))))
      ∧ (fd.type = .uint32 ∨ fd.type = .uint64 → ∀ v bs, IsVarint bs → bs.length ≤ 8 →
          varintValue bs = v → v ≤ maxSafeInteger →
          unmarshal S L fields init0 (fd.index :: (bs ++ [0x7F]))
            = .ok (.record (init0.put fd.index (.number v))))
      ∧ (fd.type = .uint32 → ∀ v, v < 4294967296 →
          unmarshal S L fields init0 ((fd.index ||| 0x80) :: (be32 v ++ [0x7F]))
            = .ok (.record (init0.put fd.index (.number v))))
      ∧ (fd.type = .uint64 → ∀ v, v ≤ maxSafeInteger →
          unmarshal S L fields init0
              ((fd.index ||| 0x80) :: (be32 (v / 4294967296) ++ (be32 (v % 4294967296) ++ [0x7F])))
            = .ok (.record (init0.put fd.index (.number v)))) := by
  refine ⟨?_, ?_, ?_, ?_⟩
  · intro ht v _
    have h := unmarshal_uint16_frames S L fields fd init0 0 v hvalid hmem ht (by omega)
    simpa using h
  · intro ht v bs hbs hlen hval hmax
    subst hval
    exact unmarshal_varint_frame S L fields fd init0 bs hvalid hmem
      (by rcases ht with h | h <;> simp [h]) hbs hlen hmax (by omega)
  · intro ht v hv
    exact unmarshal_uint32_fixed S L fields fd init0 v hvalid hmem ht hv (by omega)
  · intro ht v hv
    exact unmarshal_uint64_fixed S L fields fd init0 v hvalid hmem ht hv hsize

/-- Witness of C17: a `uint32` field at index 3 reads 5 from the varint frame and from
the 4-byte frame, and 2097152 from a varint frame. -/
theorem unmarshal_unsigned_either_form_witness :
    unmarshal 16 4 [⟨3, .uint32, false⟩] [] [0x03, 0x05, 0x7F] = .ok (.record [(3, .number 5)])
      ∧ unmarshal 16 4 [⟨3, .uint32, false⟩] [] [0x83, 0, 0, 0, 5, 0x7F]
          = .ok (.record [(3, .number 5)])
      ∧ unmarshal 16 4 [⟨3, .uint32, false⟩] [] [0x03, 0x80, 0x80, 0x80, 0x01, 0x7F]
          = .ok (.record [(3, .number 2097152)]) :=
  have h := unmarshal_unsigned_either_form 16 4 [⟨3, .uint32, false⟩] ⟨3, .uint32, false⟩ []
    (by decide) (by simp) (by decide)
  ⟨h.2.1 (Or.inl rfl) 5 [5] (by simp [IsVarint]) (by decide) rfl (by decide),
    h.2.2.1 rfl 5 (by decide),
    h.2.1 (Or.inl rfl) 2097152 [0x80, 0x80, 0x80, 0x01] (by simp [IsVarint]) (by decide) rfl
      (by decide)⟩

/-- Claim C18 as stated fails: for a `uint16` field at index 1, `unmarshal` of
`[0x01, 0x01, 0x00, 0x7F]` sets the field to `0x0100`, the two payload bytes
being read big-endian, and not to `0x00FF`. -/
theorem unmarshal_uint16_0100 :
    unmarshal 16 4 [⟨1, .uint16, false⟩] [] [0x01, 0x01, 0x00, 0x7F]
      = .ok (.record [(1, .number 0x0100)]) := by
  decide

/-- Claim C18, amended: for a `uint16` field at index 1, `unmarshal` of
`[0x01, 0x00, 0xFF, 0x7F]` sets the field to `0x00FF`, the value that `marshal`
writes as `[0x81, 0xFF, 0x7F]` and that `unmarshal` reads from those bytes. -/
theorem unmarshal_uint16_extended_00FF :
    unmarshal 16 4 [⟨1, .uint16, false⟩] [] [0x01, 0x00, 0xFF, 0x7F]
        = .ok (.record [(1, .number 0x00FF)])
      ∧ marshal 16 4 [⟨1, .uint16, false⟩] [(1, .number 0x00FF)] none = .ok [0x81, 0xFF, 0x7F]
      ∧ unmarshal 16 4 [⟨1, .uint16, false⟩] [] [0x81, 0xFF, 0x7F]
        = .ok (.record [(1, .number 0x00FF)]) := by
  decide

/-- Claim C19 as stated fails: with `colferListMax = 2`, the record with 300
in a `uint8` field and a list of three elements in the `float64` list field
after it is refused with the error `out of reach` of the first field, not with
the list error. -/
theorem marshal_error_before_long_list :
    marshal 32 2 [⟨0, .uint8, false⟩, ⟨1, .float64, true⟩]
        [(0, .number 300), (1, .floats [0, 0, 0])] none = .error .outOfReach := by
  decide

/-- Claim C19, amended: for every record whose nested objects do not fail
their own `marshal()` with the list error, `marshal` fails with the list error
if and only if some list field holds more than `colferListMax` elements and
the statements of all fields before it in the schema run through; so a record
whose lists all have `colferListMax` elements or fewer is never refused with
that error. -/
theorem marshal_listMax_iff (S L : Nat) (fields : List Field) (init : Record)
    (buf : Option (List Nat))
    (hnested : ∀ fd ∈ fields, fd.nestedListMax (init.get fd.index) = false) :
    (marshal S L fields init buf = .error .listMax ↔
        ∃ pre fd post b i n, fields = pre ++ fd :: post
          ∧ marshalFields L init pre (marshalBuffer S buf) 0 = .ok (b, i)
          ∧ fd.listLength (init.get fd.index) = some n ∧ L < n)
      ∧ ((∀ fd ∈ fields, ∀ n, fd.listLength (init.get fd.index) = some n → n ≤ L) →
          marshal S L fields init buf ≠ .error .listMax) := by
  have key : marshal S L fields init buf = .error .listMax ↔
      ∃ pre fd post b i n, fields = pre ++ fd :: post
        ∧ marshalFields L init pre (marshalBuffer S buf) 0 = .ok (b, i)
        ∧ fd.listLength (init.get fd.index) = some n ∧ L < n := by
    rw [marshal_error_listMax_iff, marshalFields_error_iff]
    constructor
    · rintro ⟨pre, fd, post, b, i, hsplit, hpre, hfd⟩
      obtain ⟨n, hn, hlt⟩ := (marshalField_listMax_iff L fd _ b i
        (hnested fd (by rw [hsplit]; simp))).1 hfd
      exact ⟨pre, fd, post, b, i, n, hsplit, hpre, hn, hlt⟩
    · rintro ⟨pre, fd, post, b, i, n, hsplit, hpre, hn, hlt⟩
      exact ⟨pre, fd, post, b, i, hsplit, hpre, (marshalField_listMax_iff L fd _ b i
        (hnested fd (by rw [hsplit]; simp))).2 ⟨n, hn, hlt⟩⟩
  refine ⟨key, ?_⟩
  intro hall h
  obtain ⟨pre, fd, post, b, i, n, hsplit, _, hn, hlt⟩ := key.1 h
  have := hall fd (by rw [hsplit]; simp) n hn
  omega

/-- Claim C19, amended, with `colferListMax = 2` for a `uint8` field and a
`float64` list field: a list of three elements after the value 3 is refused
with the list error, a list of two elements is not. -/
theorem marshal_listMax_iff_witness :
    marshal 32 2 [⟨0, .uint8, false⟩, ⟨1, .float64, true⟩]
        [(0, .number 3), (1, .floats [0, 0, 0])] none = .error .listMax
      ∧ marshal 32 2 [⟨0, .uint8, false⟩, ⟨1, .float64, true⟩]
        [(0, .number 3), (1, .floats [0, 0])] none ≠ .error .listMax :=
  ⟨(marshal_listMax_iff 32 2 [⟨0, .uint8, false⟩, ⟨1, .float64, true⟩]
      [(0, .number 3), (1, .floats [0, 0, 0])] none (by simp [Field.nestedListMax])).1.2
      ⟨[⟨0, .uint8, false⟩], ⟨1, .float64, true⟩, [],
        store (store (List.replicate 32 0) 0 0) 1 3, 2, 3, rfl, by decide, rfl, by decide⟩,
    (marshal_listMax_iff 32 2 [⟨0, .uint8, false⟩, ⟨1, .float64, true⟩]
      [(0, .number 3), (1, .floats [0, 0])] none (by simp [Field.nestedListMax])).2
      (by simp [Field.listLength, Record.get, List.lookup])⟩

/-- Claim C20, evaluated where it fails: the record with eight bytes in a
binary field at index 0 and 300 in a `uint32` field at index 1 is marshalled to
14 bytes; cut after 12 bytes, in the middle of the varint of 300, `unmarshal`
fails with the error `exceeds Number.MAX_SAFE_INTEGER` and not with the EOF
error: `readVarint` tests `pos == data.length` for a position it computes from
the cursor by a different rule than the one it reads at, reads `undefined`
bytes past the end and returns -1. -/
theorem unmarshal_truncated_varint :
    marshal 32 4 [⟨0, .binary, false⟩, ⟨1, .uint32, false⟩]
        [(0, .binary [1, 2, 3, 4, 5, 6, 7, 8]), (1, .number 300)] none
        = .ok [0, 8, 1, 2, 3, 4, 5, 6, 7, 8, 1, 0xAC, 0x02, 0x7F]
      ∧ unmarshal 32 4 [⟨0, .binary, false⟩, ⟨1, .uint32, false⟩] []
          ([0, 8, 1, 2, 3, 4, 5, 6, 7, 8, 1, 0xAC, 0x02, 0x7F].take 12) = .error .exceedsSafe := by
  decide

/-- Claim C21, evaluated where it fails: `unmarshal` stores `2^32` in a
`uint32` field and `2^31` and `-2^32` in an `int32` field.  The flag-0 and
flag-1 branches of both types store what `readVarint` returns, with no test
against the range of the type; `marshal` refuses the same values. -/
theorem unmarshal_integer_beyond_32_bits :
    unmarshal 16 4 [⟨1, .uint32, false⟩] [] [0x01, 0x80, 0x80, 0x80, 0x80, 0x10, 0x7F]
        = .ok (.record [(1, .number 4294967296)])
      ∧ unmarshal 16 4 [⟨1, .int32, false⟩] [] [0x01, 0x80, 0x80, 0x80, 0x80, 0x08, 0x7F]
        = .ok (.record [(1, .number 2147483648)])
      ∧ unmarshal 16 4 [⟨1, .int32, false⟩] [] [0x81, 0x80, 0x80, 0x80, 0x80, 0x10, 0x7F]
        = .ok (.record [(1, .number (-4294967296))])
      ∧ marshal 16 4 [⟨1, .uint32, false⟩] [(1, .number 4294967296)] none = .error .outOfReach
      ∧ marshal 16 4 [⟨1, .int32, false⟩] [(1, .number 2147483648)] none = .error .exceeds32
      ∧ marshal 16 4 [⟨1, .int32, false⟩] [(1, .number (-4294967296))] none
        = .error .exceeds32 := by
  decide

/-- Claim C22, evaluated where it fails: the loop of `encodeUTF8` ends, after
any number of rounds, on exactly the strings whose last code unit is no high
surrogate.  At a trailing high surrogate `++ci` and the `ci++` of `continue`
step over `s.length`, and the test `ci != s.length` holds ever after; for the
string of the one unit `0xD800` the rounds leave `ci = 2, 3, 4` and the byte
cursor `i = 1, 4, 7`, beyond the 4 bytes allocated. -/
theorem encodeUTF8_ends_iff (s : List Nat) :
    ((∃ out, encodeUTF8 s = some out) ↔ ¬ ∃ pre h, s = pre ++ [h] ∧ 0xD800 ≤ h ∧ h < 0xDC00)
      ∧ ((∀ fuel, encodeUTF8Fuel fuel s = none) ↔
          ∃ pre h, s = pre ++ [h] ∧ 0xD800 ≤ h ∧ h < 0xDC00)
      ∧ encodeUTF8Body [0xD800] 0 0 [0, 0, 0, 0] = (2, 1, [63, 0, 0, 0])
      ∧ encodeUTF8Body [0xD800] 2 1 [63, 0, 0, 0] = (3, 4, [63, 224, 128, 128])
      ∧ encodeUTF8Body [0xD800] 3 4 [63, 224, 128, 128] = (4, 7, [63, 224, 128, 128]) := by
  have hnone : (∃ pre h, s = pre ++ [h] ∧ 0xD800 ≤ h ∧ h < 0xDC00) →
      ∀ fuel, encodeUTF8Fuel fuel s = none := by
    rintro ⟨pre, h, rfl, hh⟩ fuel
    exact encodeUTF8Loop_trailing_high pre h hh fuel 0 0 _ (Nat.zero_le _)
  have hsome : (¬ ∃ pre h, s = pre ++ [h] ∧ 0xD800 ≤ h ∧ h < 0xDC00) →
      ∃ out, encodeUTF8 s = some out := by
    intro hno
    apply encodeUTF8Loop_some s _ (s.length + 1) 0 0 _ (Nat.zero_le _) (by omega)
    intro c hc hh
    apply hno
    refine ⟨s.dropLast, c, ?_, hh⟩
    have hne : s ≠ [] := by
      intro h0
      rw [h0] at hc
      simp at hc
    rw [List.getLast?_eq_getLast _ hne, Option.some.injEq] at hc
    rw [← hc]
    exact (List.dropLast_append_getLast hne).symm
  refine ⟨⟨?_, hsome⟩, ⟨?_, hnone⟩, by decide, by decide, by decide⟩
  · rintro ⟨out, hout⟩ hex
    have := hnone hex (s.length + 1)
    rw [show encodeUTF8Fuel (s.length + 1) s = encodeUTF8 s from rfl, hout] at this
    exact absurd this (by simp)
  · intro hall
    by_contra hno
    obtain ⟨out, hout⟩ := hsome hno
    have := hall (s.length + 1)
    rw [show encodeUTF8Fuel (s.length + 1) s = encodeUTF8 s from rfl, hout] at this
    exact absurd this (by simp)

end Colfer
